import Mathlib

/-!
# Trident_Server: exposure and settlement engine

A shallow embedding of `src/utils/helper.js`, `src/controllers/bet.js` and
`src/utils/service.js`.

Modelling conventions

* JavaScript numbers are rationals (`ℚ`): arithmetic is exact, there is no
  rounding, no `NaN` and no infinity.
* Strings are Lean strings.  `toLowerCase` maps the capitals A to Z, the Kelvin
  sign U+212A and U+0130, the characters whose lower-case form has an ASCII
  character; `trim` strips the ECMAScript white space and line terminator
  characters.
* A collection of the database is the list of its documents in creation order,
  so sorting by `createdAt` descending is list reversal.
* A handler returns `Except ErrorHandler σ`: the error passed to `next`, or the
  state after the writes of the successful path.
-/

namespace Trident

/-! ## Strings -/

/-- Lower-case form of one character in `String.prototype.toLowerCase`.  The
characters whose lower-case form has an ASCII character are the capitals A to Z,
U+212A KELVIN SIGN (its form is k) and U+0130 (its form is i followed by
U+0307); they are mapped as ECMAScript maps them.  The lower-case form of any
other character has no ASCII character and no white space; such a character is
kept as it is. -/
def lowerCaseOf (c : Char) : List Char :=
  if c.toNat = 0x212A then ['k']
  else if c.toNat = 0x0130 then ['i', Char.ofNat 0x0307]
  else [c.toLower]

/-- Source `String.prototype.toLowerCase`, character by character.  The program
only tests a lower-cased, trimmed string for equality with ASCII literals
(`includes`, `===`, `switch`), and `lowerCaseOf` is exact on every character
that can take part in such an equality, so each of these tests has the result
it has in ECMAScript (`toLowerCase_test_host_independent`). -/
def toLowerCase (s : String) : String :=
  String.mk ((s.data.map lowerCaseOf).flatten)

/-- White space and line terminators of ECMAScript (`String.prototype.trim`). -/
def isJsWhiteSpace (c : Char) : Bool :=
  let n := c.toNat
  n == 0x09 || n == 0x0A || n == 0x0B || n == 0x0C || n == 0x0D || n == 0x20 ||
  n == 0xA0 || n == 0x1680 || (0x2000 ≤ n && n ≤ 0x200A) || n == 0x2028 ||
  n == 0x2029 || n == 0x202F || n == 0x205F || n == 0x3000 || n == 0xFEFF

/-- Source `String.prototype.trim`: white space is removed at both ends. -/
def trim (s : String) : String :=
  String.mk (((s.data.dropWhile isJsWhiteSpace).reverse.dropWhile isJsWhiteSpace).reverse)

/-! ## Data model -/

abbrev UserId := Nat
abbrev BetId := Nat
abbrev EventId := String
abbrev MarketId := String
abbrev SelectionId := String

/-- Modelled from the spec: the wager schema `models/bet.js` is not among the
sources; §3 gives category ∈ {match_odds, bookmaker, fancy}.  The stored strings
are those `placeBet` validates against. -/
inductive Category where
  | matchOdds
  | bookmaker
  | fancy
  deriving DecidableEq, Repr

/-- Modelled from the spec: the wager schema `models/bet.js` is not among the
sources; §3 gives side ∈ {back, lay}. -/
inductive BetType where
  | back
  | lay
  deriving DecidableEq, Repr

/-- Modelled from the spec: the wager schema `models/bet.js` is not among the
sources; §3 gives status ∈ {pending, won, lost}. -/
inductive Status where
  | pending
  | won
  | lost
  deriving DecidableEq, Repr

/-- The string a category is stored as. -/
def Category.toString : Category → String
  | .matchOdds => "match odds"
  | .bookmaker => "bookmaker"
  | .fancy => "fancy"

/-- The string a side is stored as. -/
def BetType.toString : BetType → String
  | .back => "back"
  | .lay => "lay"

/-- Membership of `validCategories`, with the stored value. -/
def Category.ofString? (s : String) : Option Category :=
  if s = "match odds" then some .matchOdds
  else if s = "fancy" then some .fancy
  else if s = "bookmaker" then some .bookmaker
  else none

/-- Membership of `validTypes`, with the stored value. -/
def BetType.ofString? (s : String) : Option BetType :=
  if s = "back" then some .back
  else if s = "lay" then some .lay
  else none

/-- Modelled from the spec: a document of `models/bet.js` (not among the
sources), fields as in §3 and as written by `Bet.create` in `placeBet`.  The
descriptive strings `match` and `selection` are left out. -/
structure Bet where
  id : BetId
  userId : UserId
  eventId : EventId
  marketId : MarketId
  selectionId : Option SelectionId
  fancyNumber : Option ℚ
  stake : ℚ
  odds : ℚ
  category : Category
  type : BetType
  payout : ℚ
  status : Status
  deriving DecidableEq, Repr

/-- Modelled from the spec: a document of `models/margin.js` (not among the
sources), fields as in §3 and as written by `Margin.create` in `placeBet`;
`createdAt` is the position in the collection. -/
structure Margin where
  userId : UserId
  eventId : EventId
  marketId : MarketId
  selectionId : SelectionId
  profit : ℚ
  loss : ℚ
  deriving DecidableEq, Repr

/-- Modelled from the spec: a document of `models/user.js` (not among the
sources): the fields `placeBet`, `changeBetStatus` and `settleBets` use. -/
structure User where
  id : UserId
  amount : ℚ
  status : String
  deriving DecidableEq, Repr

/-- The three collections, each in creation order. -/
structure Db where
  users : List User
  bets : List Bet
  margins : List Margin
  deriving DecidableEq, Repr

deriving instance DecidableEq for Except

/-- Source `new ErrorHandler(message, statusCode)`. -/
structure ErrorHandler where
  message : String
  statusCode : Nat
  deriving DecidableEq, Repr

/-! ## Keyed containers

A JavaScript object used as a dictionary, a `Map` and a `Set` keep their keys
in insertion order; they are association lists here. -/

/-- Source `m.get(k)`, `obj[k]`. -/
def mapGet {κ ν : Type} [DecidableEq κ] (m : List (κ × ν)) (k : κ) : Option ν :=
  match m with
  | [] => none
  | (k', v) :: rest => if k' = k then some v else mapGet rest k

/-- Source `m.set(k, v)`, `obj[k] = v`: an existing key keeps its position. -/
def mapSet {κ ν : Type} [DecidableEq κ] (m : List (κ × ν)) (k : κ) (v : ν) :
    List (κ × ν) :=
  match m with
  | [] => [(k, v)]
  | (k', v') :: rest => if k' = k then (k, v) :: rest else (k', v') :: mapSet rest k v

/-- Source `set.add(k)`. -/
def setAdd {κ : Type} [DecidableEq κ] (s : List κ) (k : κ) : List κ :=
  if k ∈ s then s else s ++ [k]

/-- Source `Model.distinct(field, filter)`: the distinct values, first occurrence
first. -/
def distinct {κ : Type} [DecidableEq κ] (l : List κ) : List κ :=
  l.foldl setAdd []

/-- Result object `{ profit, loss }` of `calculateProfitAndLoss`. -/
structure ProfitLoss where
  profit : ℚ
  loss : ℚ
  deriving DecidableEq, Repr

/-- Result object `{ newProfit, newLoss }` of `calculateNewMargin`. -/
structure NewMargin where
  newProfit : ℚ
  newLoss : ℚ
  deriving DecidableEq, Repr

/-! ## helper.js -/

/-- Source `calculateProfitAndLoss(stake, odds, type, category)` of helper.js: the
`{ error }` object is `Except.error`, the `{ profit, loss }` object is
`Except.ok`. -/
def calculateProfitAndLoss (stake odds : ℚ) (type category : String) :
    Except String ProfitLoss :=
  let category := trim (toLowerCase category)
  let type := trim (toLowerCase type)
  if !(["match odds", "bookmaker", "fancy"].contains category) then
    .error "Invalid category! Must be 'match odds', 'bookmaker', or 'fancy'."
  else if !(["back", "lay"].contains type) then
    .error "Invalid bet type! Must be 'back' or 'lay'."
  else
    let isBack : Bool := type == "back"
    if category == "match odds" then
      .ok { profit := if isBack then stake * (odds - 1) else stake,
            loss := if isBack then -stake else -stake * (odds - 1) }
    else if category == "bookmaker" then
      .ok { profit := if isBack then (odds * stake) / 100 else stake,
            loss := if isBack then -stake else -(odds * stake) / 100 }
    else if category == "fancy" then
      .ok { profit := if isBack then (stake * odds) / 100 else stake,
            loss := if isBack then -stake else -(stake * odds) / 100 }
    else
      .ok { profit := 0, loss := 0 }

/-- Source `calculateNewMargin(margin, selectionId, type, profit, loss)` of
helper.js. -/
def calculateNewMargin (margin : Margin) (selectionId : SelectionId) (type : String)
    (profit loss : ℚ) : NewMargin :=
  let isSameSelection : Bool := margin.selectionId == selectionId
  let isBack : Bool := type == "back"
  { newProfit := margin.profit + (if isSameSelection == isBack then profit else loss),
    newLoss := margin.loss + (if isSameSelection == isBack then loss else profit) }

/-- Key of `.sort({ fancyNumber: 1 })`: a missing value sorts first. -/
def fancyNumberLe (a b : Bet) : Prop :=
  match a.fancyNumber, b.fancyNumber with
  | none, _ => True
  | some _, none => False
  | some x, some y => x ≤ y

instance : DecidableRel fancyNumberLe := fun a b => by
  unfold fancyNumberLe
  cases a.fancyNumber <;> cases b.fancyNumber <;> infer_instance

/-- The query of `calculateFancyExposure`: the user's pending fancy wagers of
the event, ascending by `fancyNumber` (ties keep their creation order). -/
def pendingFancyBets (db : Db) (userId : UserId) (eventId : EventId) : List Bet :=
  (db.bets.filter (fun bet => bet.userId = userId ∧ bet.eventId = eventId ∧
    bet.status = .pending ∧ bet.category = .fancy)).insertionSort fancyNumberLe

/-- The dictionary `marketBets` of `calculateFancyExposure`: each wager is
pushed on the list of its market.  The source keeps it in a plain object `{}`
and throws at `push` for a market id that names a property of
`Object.prototype`; the entries given here are those of the market ids that
name none. -/
def groupByMarket (bets : List Bet) : List (MarketId × List Bet) :=
  bets.foldl (fun marketBets bet =>
    match mapGet marketBets bet.marketId with
    | none => mapSet marketBets bet.marketId [bet]
    | some betList => mapSet marketBets bet.marketId (betList ++ [bet])) []

/-- First loop of the market body: the least index of a back wager
(`none` is the source's `-1`). -/
def firstBackIndex (betList : List Bet) : Option Nat :=
  (List.range betList.length).find? (fun i =>
    match betList[i]? with
    | some bet => bet.type = .back
    | none => false)

/-- Second loop of the market body: the greatest index of a lay wager
(`none` is the source's `-1`). -/
def firstLayFromLastIndex (betList : List Bet) : Option Nat :=
  (List.range betList.length).reverse.find? (fun i =>
    match betList[i]? with
    | some bet => bet.type = .lay
    | none => false)

/-- Body of the loop over `Object.entries(marketBets)` in
`calculateFancyExposure`: the value stored in `marketExposure[marketId]`. -/
def marketExposureOf (betList : List Bet) : ℚ :=
  let exposure : ℚ :=
    (match firstBackIndex betList, firstLayFromLastIndex betList with
    | some b, some l =>
      if b < l then
        let head := (betList.take b).foldl
          (fun exposure bet => exposure + (bet.stake * bet.odds) / 100) 0
        let exp := ((betList.drop b).take (l + 1 - b)).foldl
          (fun exp bet =>
            let calculatedValue := (bet.stake * bet.odds) / 100
            exp + (if bet.type = .back then calculatedValue else -calculatedValue)) 0
        let bracket := head + |exp|
        (betList.drop (l + 1)).foldl (fun exposure bet => exposure + bet.stake) bracket
      else
        betList.foldl (fun exposure bet =>
          exposure + (if bet.type = .back then bet.stake else (bet.stake * bet.odds) / 100)) 0
    | _, _ =>
      betList.foldl (fun exposure bet =>
        exposure + (if bet.type = .back then bet.stake else (bet.stake * bet.odds) / 100)) 0);
  -exposure

/-- Source `calculateFancyExposure(userId, eventId)` of helper.js: the object
`marketExposure`, one entry per market. -/
def calculateFancyExposure (db : Db) (userId : UserId) (eventId : EventId) :
    List (MarketId × ℚ) :=
  (groupByMarket (pendingFancyBets db userId eventId)).map
    (fun entry => (entry.1, marketExposureOf entry.2))

/-- Body of the loop over `margins` in `calculateTotalExposure`: the `maxLoss`
of one snapshot. -/
def maxLossOf (margin : Margin) : ℚ :=
  let maxLoss : ℚ := 0
  let maxLoss := if margin.profit < 0 ∧ margin.loss > 0 then maxLoss + |margin.profit|
    else maxLoss
  if margin.profit < 0 ∧ margin.loss < 0 then maxLoss + max |margin.profit| |margin.loss|
  else if margin.loss < 0 then maxLoss + |margin.loss|
  else maxLoss

/-- The names of the properties a plain object `{}` inherits from
`Object.prototype`.  Reading one of them on a plain object that has no own
property of that name gives a function, or the prototype itself for
`__proto__`: a truthy value. -/
def objectPrototypeKeys : List String :=
  ["constructor", "__defineGetter__", "__defineSetter__", "hasOwnProperty",
   "__lookupGetter__", "__lookupSetter__", "isPrototypeOf", "propertyIsEnumerable",
   "toString", "valueOf", "__proto__", "toLocaleString"]

/-- The dictionary `latestMargins`, a plain object `{}`: the first snapshot met
for each market.  The test `!latestMargins[margin.marketId]` reads inherited
properties too, so nothing is ever stored for a market whose id is the name of
a property of `Object.prototype`; the own properties are the entries of the
list. -/
def latestMarginsOf (margins : List Margin) : List (MarketId × Margin) :=
  margins.foldl (fun latestMargins margin =>
    if margin.marketId ∈ objectPrototypeKeys then latestMargins
    else
      match mapGet latestMargins margin.marketId with
      | none => mapSet latestMargins margin.marketId margin
      | some _ => latestMargins) []

/-- Source `calculateTotalExposure(userId)` of helper.js. -/
def calculateTotalExposure (db : Db) (userId : UserId) : ℚ :=
  let nonFancyMarketIds := distinct ((db.bets.filter (fun bet =>
    bet.userId = userId ∧ bet.status = .pending ∧ bet.category ≠ .fancy)).map (·.marketId))
  let nonFancyMargins := (db.margins.filter (fun margin =>
    margin.userId = userId ∧ margin.marketId ∈ nonFancyMarketIds)).reverse
  let latestMargins := latestMarginsOf nonFancyMargins
  let totalExposure := (latestMargins.map (·.2)).foldl
    (fun totalExposure margin => totalExposure + maxLossOf margin) 0
  let eventIds := distinct ((db.bets.filter (fun bet =>
    bet.userId = userId ∧ bet.status = .pending ∧ bet.category = .fancy)).map (·.eventId))
  eventIds.foldl (fun totalExposure eventId =>
    totalExposure + ((calculateFancyExposure db userId eventId).map (·.2)).foldl
      (fun sum value => sum + |value|) 0) totalExposure

/-! ## controllers/bet.js: placeBet -/

/-- The object `req.body` of `placeBet`; `none` is an absent field.  The descriptive
field `match` is named `matchName`. -/
structure PlaceBetBody where
  eventId : Option EventId
  matchName : Option String
  marketId : Option MarketId
  selection : Option String
  selectionId : Option SelectionId
  fancyNumber : Option ℚ
  stake : Option ℚ
  odds : Option ℚ
  category : Option String
  type : Option String
  deriving DecidableEq, Repr

/-- Truthiness of a string field: present and not empty. -/
def truthyStr : Option String → Bool
  | some s => s != ""
  | none => false

/-- Truthiness of a numeric field: present and not zero. -/
def truthyNum : Option ℚ → Bool
  | some q => q != 0
  | none => false

/-- Source `User.findById(id)`. -/
def findUser (users : List User) (id : UserId) : Option User :=
  users.find? (fun user => user.id = id)

/-- Source `Margin.findOne({ userId, eventId, marketId }).sort({ createdAt: -1 })`. -/
def findLatestMargin (db : Db) (userId : UserId) (eventId : EventId)
    (marketId : MarketId) : Option Margin :=
  db.margins.reverse.find? (fun margin =>
    margin.userId = userId ∧ margin.eventId = eventId ∧ margin.marketId = marketId)

/-- Source `Math.min(a, b, 0)`. -/
def min3 (a b : ℚ) : ℚ := min (min a b) 0

/-- Source `placeBet` of controllers/bet.js.  `reqUser` is `req.user`, `responseData`
is `response.data` of the odds request (`none` when it is absent), `newId` is
the `_id` the store gives the created wager.  The result is the error passed
to `next`, or the database after `Margin.create` and `Bet.create`. -/
def placeBet {ρ : Type} (db : Db) (reqUser : UserId) (body : PlaceBetBody)
    (responseData : Option (List ρ)) (newId : BetId) : Except ErrorHandler Db :=
  match findUser db.users reqUser with
  | none => .error ⟨"User not found", 404⟩
  | some user =>
  if user.status = "banned" then
    .error ⟨"Your account is banned. Please contact support.", 400⟩
  else
  let category := body.category.map (fun c => trim (toLowerCase c))
  let type := body.type.map (fun t => trim (toLowerCase t))
  if !(truthyStr body.eventId && truthyStr body.marketId && truthyNum body.stake &&
      truthyNum body.odds && truthyStr category && truthyStr type &&
      truthyStr body.matchName && truthyStr body.selection) then
    .error ⟨"Please provide all required fields", 400⟩
  else
  match body.eventId, body.marketId, body.stake, body.odds, category, type with
  | some eventId, some marketId, some stake, some odds, some category, some type =>
    match Category.ofString? category with
    | none => .error ⟨"Invalid Category", 400⟩
    | some cat =>
    match BetType.ofString? type with
    | none => .error ⟨"Invalid Type", 400⟩
    | some side =>
    if category ≠ "fancy" ∧ !(truthyStr body.selectionId) then
      .error ⟨"Selection ID is required", 400⟩
    else if category = "fancy" ∧ !(truthyNum body.fancyNumber) then
      .error ⟨"Please provide a fancy number", 400⟩
    else if category = "fancy" ∧ (stake < 100 ∨ stake > 500000) then
      .error ⟨"Stake must be between 100 and 5 Lakh", 400⟩
    else
    match responseData with
    | none => .error ⟨"Odds Expired", 400⟩
    | some data =>
    if data.length = 0 then .error ⟨"Odds Expired", 400⟩
    else
    match calculateProfitAndLoss stake odds type category with
    | .error error => .error ⟨error, 400⟩
    | .ok pl =>
    let profit := pl.profit
    let loss := pl.loss
    let exposure := calculateTotalExposure db user.id
    let newBet : Bet :=
      { id := newId, userId := user.id, eventId := eventId, marketId := marketId,
        selectionId := body.selectionId, fancyNumber := body.fancyNumber,
        stake := stake, odds := odds, category := cat, type := side,
        payout := stake + profit, status := .pending }
    if category ≠ "fancy" then
      match body.selectionId with
      | none => .error ⟨"Selection ID is required", 400⟩
      | some selectionId =>
      match findLatestMargin db user.id eventId marketId with
      | none =>
        if user.amount - exposure < |loss| then
          .error ⟨"Insufficient balance", 400⟩
        else
          let created : Margin :=
            { userId := user.id, eventId := eventId, marketId := marketId,
              selectionId := selectionId,
              profit := if type = "back" then profit else loss,
              loss := if type = "back" then loss else profit }
          .ok { db with margins := db.margins ++ [created], bets := db.bets ++ [newBet] }
      | some margin =>
        let nm := calculateNewMargin margin selectionId type profit loss
        if user.amount - exposure + |min3 margin.profit margin.loss| <
            |min3 nm.newProfit nm.newLoss| then
          .error ⟨"Insufficient balance", 400⟩
        else
          let created : Margin :=
            { userId := user.id, eventId := eventId, marketId := marketId,
              selectionId := selectionId,
              profit := if margin.selectionId = selectionId then nm.newProfit else nm.newLoss,
              loss := if margin.selectionId = selectionId then nm.newLoss else nm.newProfit }
          .ok { db with margins := db.margins ++ [created], bets := db.bets ++ [newBet] }
    else
      if user.amount - exposure < |loss| then
        .error ⟨"Insufficient balance", 400⟩
      else
        .ok { db with bets := db.bets ++ [newBet] }
  | _, _, _, _, _, _ => .error ⟨"Please provide all required fields", 400⟩

/-! ## utils/service.js: settlement -/

/-- Source `chunkArray(array, size)` of service.js, for `size > 0`:
`Math.ceil(array.length / size)` slices of `size` elements. -/
def chunkArray {α : Type} (array : List α) (size : Nat) : List (List α) :=
  (List.range ((array.length + size - 1) / size)).map
    (fun index => (array.drop (index * size)).take size)

/-- Source `fetchOddsInBatches(baseUrl, ids)` of service.js.  `get batch` is the body
of the response to the request for `batch`, `none` when the request fails (the
`.catch(() => [])`). -/
def fetchOddsInBatches {α : Type} (get : List MarketId → Option (List α))
    (ids : List MarketId) : List α :=
  ((chunkArray ids 50).map (fun batch =>
    match get batch with
    | some data => data
    | none => [])).flatten

/-- One market of a feed response: `winner` is `none` when the field is
`undefined` or `null`. -/
structure FeedMarket (ω : Type) where
  marketId : MarketId
  winner : Option ω
  deriving DecidableEq, Repr

/-- The outcome feed, one endpoint per category (`RMatchOdds`, `RBookmaker`,
`RFancy`): match odds and bookmaker outcomes are selections, fancy outcomes
are numbers. -/
structure OutcomeFeed where
  matchOdds : List MarketId → Option (List (FeedMarket SelectionId))
  bookmaker : List MarketId → Option (List (FeedMarket SelectionId))
  fancy : List MarketId → Option (List (FeedMarket ℚ))

/-- An element of the result of `Promise.allSettled`. -/
inductive PromiseSettled (α : Type) where
  | fulfilled (value : α)
  | rejected

/-- Source `formatResults(res)` in `settleBets`: the `Map` from market id to winner
of the markets that have one. -/
def formatResults {ω : Type} (res : PromiseSettled (List (FeedMarket ω))) :
    List (MarketId × ω) :=
  match res with
  | .fulfilled value =>
    value.foldl (fun map m =>
      match m.winner with
      | some winner => mapSet map m.marketId winner
      | none => map) []
  | .rejected => []

/-- The two accumulators of the loop over `pendingBets` in `settleBets`. -/
structure Settlement where
  betUpdates : List (BetId × Status)
  userUpdates : List (UserId × ℚ)
  deriving DecidableEq, Repr

/-- Comparison `fancyNumber <= winnerNumber`; a comparison with `undefined` is false. -/
def fancyLe (fancyNumber : Option ℚ) (winnerNumber : ℚ) : Bool :=
  match fancyNumber with
  | some n => decide (n ≤ winnerNumber)
  | none => false

/-- Comparison `fancyNumber > winnerNumber`; a comparison with `undefined` is false. -/
def fancyGt (fancyNumber : Option ℚ) (winnerNumber : ℚ) : Bool :=
  match fancyNumber with
  | some n => decide (n > winnerNumber)
  | none => false

/-- The flags `isMarketResultAvailable` and `isWinningBet` of one wager:
`none` when no market result is available, else `some isWinningBet`. -/
def decideBet (matchOddsResults bookmakerResults : List (MarketId × SelectionId))
    (fancyResults : List (MarketId × ℚ)) (bet : Bet) : Option Bool :=
  if bet.category = .matchOdds ∧ (mapGet matchOddsResults bet.marketId).isSome then
    some ((decide (mapGet matchOddsResults bet.marketId = bet.selectionId) &&
        decide (bet.type = .back)) ||
      (decide (mapGet matchOddsResults bet.marketId ≠ bet.selectionId) &&
        decide (bet.type = .lay)))
  else if bet.category = .bookmaker ∧ (mapGet bookmakerResults bet.marketId).isSome then
    some ((decide (mapGet bookmakerResults bet.marketId = bet.selectionId) &&
        decide (bet.type = .back)) ||
      (decide (mapGet bookmakerResults bet.marketId ≠ bet.selectionId) &&
        decide (bet.type = .lay)))
  else
    match bet.category, mapGet fancyResults bet.marketId with
    | .fancy, some winnerNumber =>
      some ((decide (bet.type = .back) && fancyLe bet.fancyNumber winnerNumber) ||
        (decide (bet.type = .lay) && fancyGt bet.fancyNumber winnerNumber))
    | _, _ => none

/-- The variable `balanceChange` of a decided wager: `isWinningBet ? profit : loss` of
`calculateProfitAndLoss(stake, odds, type, category)`.  The `{ error }` result
does not occur for a stored category and side (`calculateProfitAndLoss_stored`). -/
def balanceChange (bet : Bet) (isWinningBet : Bool) : ℚ :=
  match calculateProfitAndLoss bet.stake bet.odds bet.type.toString bet.category.toString with
  | .ok pl => if isWinningBet then pl.profit else pl.loss
  | .error _ => 0

/-- Body of the loop over `pendingBets` in `settleBets`. -/
def settleStep (matchOddsResults bookmakerResults : List (MarketId × SelectionId))
    (fancyResults : List (MarketId × ℚ)) (acc : Settlement) (bet : Bet) : Settlement :=
  match decideBet matchOddsResults bookmakerResults fancyResults bet with
  | none => acc
  | some isWinningBet =>
    { betUpdates := acc.betUpdates ++ [(bet.id, if isWinningBet then .won else .lost)],
      userUpdates := mapSet acc.userUpdates bet.userId
        ((mapGet acc.userUpdates bet.userId).getD 0 + balanceChange bet isWinningBet) }

/-- The loop over `pendingBets` in `settleBets`, from empty `betUpdates` and
`userUpdates`. -/
def settleLoop (matchOddsResults bookmakerResults : List (MarketId × SelectionId))
    (fancyResults : List (MarketId × ℚ)) (pendingBets : List Bet) : Settlement :=
  pendingBets.foldl (settleStep matchOddsResults bookmakerResults fancyResults) ⟨[], []⟩

/-- One `updateOne` of `Bet.bulkWrite`: the first document with the id gets the
status. -/
def updateBetStatus (bets : List Bet) (id : BetId) (status : Status) : List Bet :=
  match bets with
  | [] => []
  | bet :: rest =>
    if bet.id = id then { bet with status := status } :: rest
    else bet :: updateBetStatus rest id status

/-- One `updateOne` of `User.bulkWrite`: `$inc` of `amount` on the first
document with the id. -/
def incUserAmount (users : List User) (id : UserId) (amount : ℚ) : List User :=
  match users with
  | [] => []
  | user :: rest =>
    if user.id = id then { user with amount := user.amount + amount } :: rest
    else user :: incUserAmount rest id amount

/-- The market ids of the pending wagers of one category (`matchOddsMarketIds`,
`bookmakerMarketIds`, `fancyMarketIds`). -/
def marketIdsOf (category : Category) (pendingBets : List Bet) : List MarketId :=
  distinct ((pendingBets.filter (fun bet => bet.category = category)).map (·.marketId))

/-- The variable `pendingBets` of `settleBets`: `Bet.find({ eventId, status: "pending" })`. -/
def pendingBetsOf (db : Db) (eventId : EventId) : List Bet :=
  db.bets.filter (fun bet => bet.eventId = eventId ∧ bet.status = .pending)

/-- The variable `matchOddsResults` of `settleBets`. -/
def matchOddsResultsOf (feed : OutcomeFeed) (pendingBets : List Bet) :
    List (MarketId × SelectionId) :=
  formatResults (.fulfilled
    (fetchOddsInBatches feed.matchOdds (marketIdsOf .matchOdds pendingBets)))

/-- The variable `bookmakerResults` of `settleBets`. -/
def bookmakerResultsOf (feed : OutcomeFeed) (pendingBets : List Bet) :
    List (MarketId × SelectionId) :=
  formatResults (.fulfilled
    (fetchOddsInBatches feed.bookmaker (marketIdsOf .bookmaker pendingBets)))

/-- The variable `fancyResults` of `settleBets`. -/
def fancyResultsOf (feed : OutcomeFeed) (pendingBets : List Bet) : List (MarketId × ℚ) :=
  formatResults (.fulfilled
    (fetchOddsInBatches feed.fancy (marketIdsOf .fancy pendingBets)))

/-- Source `settleBets(eventId)` of service.js, given the outcome feed: the database
after the two bulk writes.  The dictionary `marginMap` is built and not used by
the source; it is left out. -/
def settleBets (feed : OutcomeFeed) (db : Db) (eventId : EventId) : Db :=
  let pendingBets := pendingBetsOf db eventId
  if pendingBets.length = 0 then db
  else
    let s := settleLoop (matchOddsResultsOf feed pendingBets)
      (bookmakerResultsOf feed pendingBets) (fancyResultsOf feed pendingBets) pendingBets
    { db with
      bets := s.betUpdates.foldl (fun bets u => updateBetStatus bets u.1 u.2) db.bets,
      users := s.userUpdates.foldl (fun users u => incUserAmount users u.1 u.2) db.users }

/-! ## controllers/bet.js: changeBetStatus -/

/-- The string a status is stored as. -/
def Status.toString : Status → String
  | .pending => "pending"
  | .won => "won"
  | .lost => "lost"

/-- Membership of `validStatuses`, with the stored value. -/
def Status.ofString? (s : String) : Option Status :=
  if s = "won" then some .won
  else if s = "lost" then some .lost
  else if s = "pending" then some .pending
  else none

/-- The table `allowedTransitions` of `changeBetStatus`. -/
def allowedTransitions : Status → List Status
  | .pending => [.won, .lost]
  | .won => [.lost]
  | .lost => [.won]

/-- Source `user.save()`: the stored document of the user takes the amount. -/
def saveUserAmount (users : List User) (id : UserId) (amount : ℚ) : List User :=
  match users with
  | [] => []
  | user :: rest =>
    if user.id = id then { user with amount := amount } :: rest
    else user :: saveUserAmount rest id amount

/-- Source `changeBetStatus` of controllers/bet.js, for the request body
`{ betId, status }`.  The first component is the database after the call, the
second the error passed to `next` or the wager of the response.  Every
`return next(...)` of the source comes before the first `save()`, so the
database of a failed call is the one it was given. -/
def changeBetStatus (db : Db) (betId : BetId) (status : String) :
    Db × Except ErrorHandler Bet :=
  match Status.ofString? status with
  | none => (db, .error ⟨"Invalid status value", 400⟩)
  | some requested =>
  match db.bets.find? (fun bet => bet.id = betId) with
  | none => (db, .error ⟨"Bet not found", 404⟩)
  | some bet =>
  if bet.status = requested then
    (db, .error ⟨"Bet status is already set to " ++ status, 400⟩)
  else if !((allowedTransitions bet.status).contains requested) then
    (db, .error ⟨"Cannot change status from " ++ bet.status.toString ++ " to " ++ status, 400⟩)
  else
  match findUser db.users bet.userId with
  | none => (db, .error ⟨"User not found", 404⟩)
  | some user =>
    let saved (amount : ℚ) : Db × Except ErrorHandler Bet :=
      ({ db with
          users := saveUserAmount db.users user.id amount,
          bets := updateBetStatus db.bets bet.id requested },
        .ok { bet with status := requested })
    if bet.status = .pending then
      if requested = .won then saved (user.amount + (bet.payout - bet.stake))
      else if requested = .lost then saved (user.amount - bet.stake)
      else saved user.amount
    else if bet.status = .lost then
      saved (user.amount + bet.payout)
    else
      if user.amount < bet.payout - 2 * bet.stake then
        (db, .error ⟨"Insufficient balance to reverse winnings", 400⟩)
      else
        saved (user.amount - bet.payout - 2 * bet.stake)

/-! ## Specification-side definitions and sample data -/

/-- The request of a placement in which every required field and the
selection id are present. -/
def ordinaryBody (eventId : EventId) (matchName : String) (marketId : MarketId)
    (selection : String) (selectionId : SelectionId) (fancyNumber : Option ℚ)
    (stake odds : ℚ) (category type : String) : PlaceBetBody :=
  { eventId := some eventId, matchName := some matchName, marketId := some marketId,
    selection := some selection, selectionId := some selectionId,
    fancyNumber := fancyNumber, stake := some stake, odds := some odds,
    category := some category, type := some type }

/-- Spec §4.2, required headroom: the worsening of the worst case, taken as 0
when negative. -/
def requiredHeadroom (margin : Margin) (nm : NewMargin) : ℚ :=
  max 0 (|min3 nm.newProfit nm.newLoss| - |min3 margin.profit margin.loss|)

/-- A user with balance 40 holding one pending match odds back wager
(stake 50, price 3, selection A) whose snapshot is (A, 100, -50). -/
def overdrawnDb : Db :=
  { users := [⟨7, 40, "active"⟩],
    bets := [⟨1, 7, "e", "m", some "A", none, 50, 3, .matchOdds, .back, 150, .pending⟩],
    margins := [⟨7, "e", "m", "A", 100, -50⟩] }

/-- A back wager on selection B of the same market, stake 20 at price 5/2. -/
def hedgeBody : PlaceBetBody :=
  ordinaryBody "e" "A v B" "m" "B" "B" none 20 (5 / 2) "match odds" "back"

/-- The amount `stake * odds / 100` of a wager, `odds` being its price. -/
def rateValue (bet : Bet) : ℚ := bet.stake * bet.odds / 100

/-- Spec §4.3 as worded: `stake * threshold / 100`, the threshold being the
wager's `fancyNumber`. -/
def thresholdValue (bet : Bet) : ℚ := bet.stake * bet.fancyNumber.getD 0 / 100

/-- Spec §4.3: `b` is the index of the first back wager of the list. -/
def IsFirstBack (betList : List Bet) (b : Nat) : Prop :=
  (betList[b]?).map (·.type) = some .back ∧
    ∀ i, i < b → (betList[i]?).map (·.type) ≠ some .back

/-- Spec §4.3: `l` is the index of the last lay wager of the list. -/
def IsLastLay (betList : List Bet) (l : Nat) : Prop :=
  (betList[l]?).map (·.type) = some .lay ∧
    ∀ i, i < betList.length → l < i → (betList[i]?).map (·.type) ≠ some .lay

instance (betList : List Bet) (b : Nat) : Decidable (IsFirstBack betList b) := by
  unfold IsFirstBack; infer_instance

instance (betList : List Bet) (l : Nat) : Decidable (IsLastLay betList l) := by
  unfold IsLastLay; infer_instance

/-- Sum of `f` over the wagers at the indices `start, …, start + count - 1`. -/
def sumAt (betList : List Bet) (start count : Nat) (f : Bet → ℚ) : ℚ :=
  ((List.range' start count).map (fun i => (betList[i]?).elim 0 f)).sum

/-- Spec §4.3, case 1, for the per-wager amount `value`: the sum of `value`
over the indices below `b`, plus the absolute value of the signed sum over
`[b, l]`, plus the sum of the stakes over the indices above `l`. -/
def bracketExposure (value : Bet → ℚ) (betList : List Bet) (b l : Nat) : ℚ :=
  sumAt betList 0 b value
    + |sumAt betList b (l + 1 - b)
        (fun bet => if bet.type = .back then value bet else -value bet)|
    + sumAt betList (l + 1) (betList.length - (l + 1)) (·.stake)

/-- Spec §4.3, case 2, for the per-wager amount `value`: the stakes of the back
wagers plus `value` of the lay wagers. -/
def flatExposure (value : Bet → ℚ) (betList : List Bet) : ℚ :=
  ((betList.filter (fun bet => bet.type = .back)).map (·.stake)).sum
    + ((betList.filter (fun bet => bet.type = .lay)).map value).sum

/-- The pending tiered wagers of one market, in the order of the query. -/
def marketBetList (db : Db) (userId : UserId) (eventId : EventId) (marketId : MarketId) :
    List Bet :=
  (pendingFancyBets db userId eventId).filter (fun bet => bet.marketId = marketId)

/-- Two pending tiered wagers of one market: a back (stake 100, threshold 10,
price 90) and a lay (stake 200, threshold 20, price 100). -/
def tieredDb : Db :=
  { users := [⟨7, 10000, "active"⟩],
    bets := [⟨1, 7, "e", "m", none, some 10, 100, 90, .fancy, .back, 190, .pending⟩,
             ⟨2, 7, "e", "m", none, some 20, 200, 100, .fancy, .lay, 400, .pending⟩],
    margins := [] }

/-- One pending tiered lay wager: stake 1000, threshold 50, price 80. -/
def singleLayDb : Db :=
  { users := [⟨7, 10000, "active"⟩],
    bets := [⟨1, 7, "e", "m", none, some 50, 1000, 80, .fancy, .lay, 2000, .pending⟩],
    margins := [] }

/-- The current snapshot of a user for a market: the most recent one. -/
def latestSnapshot (db : Db) (userId : UserId) (marketId : MarketId) : Option Margin :=
  db.margins.reverse.find? (fun margin => margin.userId = userId ∧ margin.marketId = marketId)

/-- The markets that hold a pending ordinary wager of the user, each once. -/
def pendingOrdinaryMarkets (db : Db) (userId : UserId) : List MarketId :=
  distinct ((db.bets.filter (fun bet =>
    bet.userId = userId ∧ bet.status = .pending ∧ bet.category ≠ .fancy)).map (·.marketId))

/-- The events that hold a pending tiered wager of the user, each once. -/
def pendingTieredEvents (db : Db) (userId : UserId) : List EventId :=
  distinct ((db.bets.filter (fun bet =>
    bet.userId = userId ∧ bet.status = .pending ∧ bet.category = .fancy)).map (·.eventId))

/-- Spec §4.3, total exposure: the worst case of the current snapshot of every
market holding a pending ordinary wager, plus, for every event holding pending
tiered wagers, the absolute values of its per-market exposures. -/
def totalExposureSpec (db : Db) (userId : UserId) : ℚ :=
  ((pendingOrdinaryMarkets db userId).map (fun marketId =>
      (latestSnapshot db userId marketId).elim 0 maxLossOf)).sum
    + ((pendingTieredEvents db userId).map (fun eventId =>
      ((calculateFancyExposure db userId eventId).map (fun entry => |entry.2|)).sum)).sum

/-- The status of the wager with the given id. -/
def betStatus (db : Db) (id : BetId) : Option Status :=
  (db.bets.find? (fun bet => bet.id = id)).map (·.status)

/-- An outcome of the feed: the winning selection of a match odds or bookmaker
market, the value of a fancy market. -/
inductive Outcome where
  | selection (selectionId : SelectionId)
  | value (outcomeValue : ℚ)
  deriving DecidableEq, Repr

/-- Spec §4.5, step 3: the known outcome of the market of a wager, read in the
result map of the wager's category. -/
def knownOutcome (matchOddsResults bookmakerResults : List (MarketId × SelectionId))
    (fancyResults : List (MarketId × ℚ)) (bet : Bet) : Option Outcome :=
  match bet.category with
  | .matchOdds => (mapGet matchOddsResults bet.marketId).map .selection
  | .bookmaker => (mapGet bookmakerResults bet.marketId).map .selection
  | .fancy => (mapGet fancyResults bet.marketId).map .value

/-- Spec §4.5, step 3: the win rule. -/
def winsSpec (bet : Bet) : Outcome → Prop
  | .selection outcome =>
    (some outcome = bet.selectionId ∧ bet.type = .back) ∨
      (some outcome ≠ bet.selectionId ∧ bet.type = .lay)
  | .value outcomeValue =>
    (bet.type = .back ∧ ∃ fancyThreshold, bet.fancyNumber = some fancyThreshold ∧
        fancyThreshold ≤ outcomeValue) ∨
      (bet.type = .lay ∧ ∃ fancyThreshold, bet.fancyNumber = some fancyThreshold ∧
        fancyThreshold > outcomeValue)

instance (bet : Bet) (outcome : Outcome) : Decidable (winsSpec bet outcome) := by
  cases outcome with
  | selection o => unfold winsSpec; infer_instance
  | value v =>
    unfold winsSpec
    cases bet.fancyNumber with
    | none => exact isFalse (by simp)
    | some n =>
      exact decidable_of_iff ((bet.type = .back ∧ n ≤ v) ∨ (bet.type = .lay ∧ n > v)) (by simp)

/-- The wagers `settleBets` selects for an event. -/
def IsPendingOf (db : Db) (eventId : EventId) (bet : Bet) : Prop :=
  bet ∈ db.bets ∧ bet.eventId = eventId ∧ bet.status = .pending

instance (db : Db) (eventId : EventId) (bet : Bet) : Decidable (IsPendingOf db eventId bet) := by
  unfold IsPendingOf; infer_instance

/-- One user with a back and a lay wager on selection A of a match odds market
and a pending fancy lay wager. -/
def settleDb : Db :=
  { users := [⟨7, 10000, "active"⟩],
    bets := [⟨1, 7, "e", "m", some "A", none, 1000, 5 / 2, .matchOdds, .back, 2500, .pending⟩,
             ⟨2, 7, "e", "m", some "A", none, 1000, 5 / 2, .matchOdds, .lay, 2000, .pending⟩,
             ⟨3, 7, "e", "f", none, some 60, 500, 90, .fancy, .lay, 1000, .pending⟩],
    margins := [] }

/-- A feed that knows selection A as the winner of every match odds market and
answers no other request. -/
def settleFeed : OutcomeFeed :=
  { matchOdds := fun ids => some (ids.map (fun id => ⟨id, some "A"⟩)),
    bookmaker := fun _ => none,
    fancy := fun _ => none }

/-- The balance changes of the decided wagers of a user, in the order of the
list of pending wagers. -/
def decidedDeltas (matchOddsResults bookmakerResults : List (MarketId × SelectionId))
    (fancyResults : List (MarketId × ℚ)) (pendingBets : List Bet) (userId : UserId) : List ℚ :=
  (pendingBets.filter (fun bet => bet.userId = userId)).filterMap (fun bet =>
    (decideBet matchOddsResults bookmakerResults fancyResults bet).map (balanceChange bet))

/-- Spec §4.4: the error of a request for the current status. -/
def alreadyInStatus (requested : Status) : ErrorHandler :=
  ⟨"Bet status is already set to " ++ requested.toString, 400⟩

/-- Spec §4.4: the error of an illegal transition, naming both states. -/
def illegalTransition (current requested : Status) : ErrorHandler :=
  ⟨"Cannot change status from " ++ current.toString ++ " to " ++ requested.toString, 400⟩

/-- Spec §4.4: the legal transitions. -/
def legalTransition (current requested : Status) : Prop :=
  (current = .pending ∧ requested = .won) ∨ (current = .pending ∧ requested = .lost) ∨
    (current = .won ∧ requested = .lost) ∨ (current = .lost ∧ requested = .won)

instance (current requested : Status) : Decidable (legalTransition current requested) := by
  unfold legalTransition; infer_instance

/-- The amount `changeBetStatus` adds to the balance on each legal transition. -/
def transitionAdjustment (current requested : Status) (bet : Bet) : ℚ :=
  match current, requested with
  | .pending, .won => bet.payout - bet.stake
  | .pending, .lost => -bet.stake
  | .lost, .won => bet.payout
  | .won, .lost => -(bet.payout + 2 * bet.stake)
  | _, _ => 0

/-- The wager with the given id. -/
def findBet (db : Db) (id : BetId) : Option Bet :=
  db.bets.find? (fun bet => bet.id = id)

/-- A user with balance 1000 and one wager (stake 100, payout 250) in status
lost. -/
def lostDb : Db :=
  { users := [⟨7, 1000, "active"⟩],
    bets := [⟨1, 7, "e", "m", some "A", none, 100, 5 / 2, .matchOdds, .back, 250, .lost⟩],
    margins := [] }

/-- A user with balance 0 and one wager (stake 100, payout 250) in status
lost. -/
def brokeLostDb : Db :=
  { users := [⟨7, 0, "active"⟩],
    bets := [⟨1, 7, "e", "m", some "A", none, 100, 5 / 2, .matchOdds, .back, 250, .lost⟩],
    margins := [] }

/-- A user with balance 1000 and one pending wager (stake 100, payout 250). -/
def pendingDb : Db :=
  { users := [⟨7, 1000, "active"⟩],
    bets := [⟨1, 7, "e", "m", some "A", none, 100, 5 / 2, .matchOdds, .back, 250, .pending⟩],
    margins := [] }

/-- The end-to-end oracle of §8: a user with balance 10000 and no wager. -/
def oracleDb : Db :=
  { users := [⟨7, 10000, "active"⟩], bets := [], margins := [] }

/-- The first wager of the oracle: match odds, back, stake 1000 at price 5/2 on
selection A. -/
def oracleFirst : PlaceBetBody :=
  ordinaryBody "e" "A v B" "m" "A" "A" none 1000 (5 / 2) "match odds" "back"

/-- The second wager of the oracle: same market, back, stake 500 at price 3 on
selection B. -/
def oracleSecond : PlaceBetBody :=
  ordinaryBody "e" "A v B" "m" "B" "B" none 500 3 "match odds" "back"

/-- The database of the oracle after the first wager. -/
def oracleDb1 : Db :=
  { users := [⟨7, 10000, "active"⟩],
    bets := [⟨1, 7, "e", "m", some "A", none, 1000, 5 / 2, .matchOdds, .back, 2500, .pending⟩],
    margins := [⟨7, "e", "m", "A", 1500, -1000⟩] }

/-- The database of the oracle after the second wager. -/
def oracleDb2 : Db :=
  { users := [⟨7, 10000, "active"⟩],
    bets := [⟨1, 7, "e", "m", some "A", none, 1000, 5 / 2, .matchOdds, .back, 2500, .pending⟩,
             ⟨2, 7, "e", "m", some "B", none, 500, 3, .matchOdds, .back, 1500, .pending⟩],
    margins := [⟨7, "e", "m", "A", 1500, -1000⟩, ⟨7, "e", "m", "B", 0, 1000⟩] }

/-- A request for a tiered lay wager at a negative price: stake 100, threshold
30, price -50. -/
def negativePriceBody : PlaceBetBody :=
  { eventId := some "e", matchName := some "A v B", marketId := some "f",
    selection := some "runs", selectionId := none, fancyNumber := some 30,
    stake := some 100, odds := some (-50), category := some "fancy", type := some "lay" }

/-- The database of the oracle after the wager of `negativePriceBody`. -/
def negativePriceDb : Db :=
  { users := [⟨7, 10000, "active"⟩],
    bets := [⟨1, 7, "e", "f", none, some 30, 100, -50, .fancy, .lay, 200, .pending⟩],
    margins := [] }

/-- A feed that answers every request from a fixed outcome map: for each
requested market the winner the map gives, if any. -/
def feedOf (matchOdds bookmaker : MarketId → Option SelectionId)
    (fancy : MarketId → Option ℚ) : OutcomeFeed :=
  { matchOdds := fun ids => some (ids.map (fun id => ⟨id, matchOdds id⟩)),
    bookmaker := fun ids => some (ids.map (fun id => ⟨id, bookmaker id⟩)),
    fancy := fun ids => some (ids.map (fun id => ⟨id, fancy id⟩)) }

/-- A back wager on selection A: match odds, stake 100 at price 2. -/
def backEvenBody : PlaceBetBody :=
  ordinaryBody "e" "A v B" "m" "A" "A" none 100 2 "match odds" "back"

/-- A lay wager on selection A: match odds, stake 100 at price 3. -/
def layTripleBody : PlaceBetBody :=
  ordinaryBody "e" "A v B" "m" "A" "A" none 100 3 "match odds" "lay"

/-- The database of the oracle after the wager of `backEvenBody`. -/
def backEvenDb : Db :=
  { users := [⟨7, 10000, "active"⟩],
    bets := [⟨1, 7, "e", "m", some "A", none, 100, 2, .matchOdds, .back, 200, .pending⟩],
    margins := [⟨7, "e", "m", "A", 100, -100⟩] }

/-- The database after the wagers of `backEvenBody` and `layTripleBody`: the
current snapshot of the market is (A, -100, 0). -/
def zeroLossDb : Db :=
  { users := [⟨7, 10000, "active"⟩],
    bets := [⟨1, 7, "e", "m", some "A", none, 100, 2, .matchOdds, .back, 200, .pending⟩,
             ⟨2, 7, "e", "m", some "A", none, 100, 3, .matchOdds, .lay, 200, .pending⟩],
    margins := [⟨7, "e", "m", "A", 100, -100⟩, ⟨7, "e", "m", "A", -100, 0⟩] }

/-- A user with balance 1000 and one pending lay wager on selection A: match
odds, stake 100 at price 3, payout 200. -/
def pendingLayDb : Db :=
  { users := [⟨7, 1000, "active"⟩],
    bets := [⟨1, 7, "e", "m", some "A", none, 100, 3, .matchOdds, .lay, 200, .pending⟩],
    margins := [] }

/-- One call of `placeBet`: the request body, the body of the odds response and
the id given to the created wager. -/
structure Placement where
  body : PlaceBetBody
  responseData : Option (List Unit)
  newId : BetId
  deriving DecidableEq, Repr

/-- Consecutive calls of `placeBet` by one user, each on the database the
previous one left; the result is a database when every call is accepted. -/
def placeBets (db : Db) (reqUser : UserId) : List Placement → Except ErrorHandler Db
  | [] => .ok db
  | p :: rest =>
    match placeBet db reqUser p.body p.responseData p.newId with
    | .ok db' => placeBets db' reqUser rest
    | .error error => .error error

/-- A request for an ordinary wager on selection `a` or `b` of the market. -/
def IsOrdinaryOn (eventId : EventId) (marketId : MarketId) (a b : SelectionId)
    (p : Placement) : Prop :=
  p.body.eventId = some eventId ∧ p.body.marketId = some marketId ∧
    (p.body.selectionId = some a ∨ p.body.selectionId = some b) ∧
    p.body.category.map (fun c => trim (toLowerCase c)) ≠ some "fancy"

instance (eventId : EventId) (marketId : MarketId) (a b : SelectionId) (p : Placement) :
    Decidable (IsOrdinaryOn eventId marketId a b p) := by
  unfold IsOrdinaryOn; infer_instance

/-- The snapshot `placeBet` stores for an ordinary wager on selection
`selectionId`, given the prior snapshot of the market, if any. -/
def nextSnapshot (prior : Option Margin) (userId : UserId) (eventId : EventId)
    (marketId : MarketId) (selectionId : SelectionId) (side : BetType) (pl : ProfitLoss) :
    Margin :=
  match prior with
  | none =>
    { userId := userId, eventId := eventId, marketId := marketId, selectionId := selectionId,
      profit := if side = .back then pl.profit else pl.loss,
      loss := if side = .back then pl.loss else pl.profit }
  | some margin =>
    { userId := userId, eventId := eventId, marketId := marketId, selectionId := selectionId,
      profit := if margin.selectionId = selectionId
        then (calculateNewMargin margin selectionId side.toString pl.profit pl.loss).newProfit
        else (calculateNewMargin margin selectionId side.toString pl.profit pl.loss).newLoss,
      loss := if margin.selectionId = selectionId
        then (calculateNewMargin margin selectionId side.toString pl.profit pl.loss).newLoss
        else (calculateNewMargin margin selectionId side.toString pl.profit pl.loss).newProfit }

/-- Spec §4.5, step 3, for an ordinary wager: whether it wins when `winner` is
the outcome of its market. -/
def winsOrdinary (winner : SelectionId) (bet : Bet) : Bool :=
  (decide (some winner = bet.selectionId) && decide (bet.type = .back)) ||
    (decide (some winner ≠ bet.selectionId) && decide (bet.type = .lay))

/-- The sum of the settlement deltas of the wagers when `winner` wins: the
profit of a wager that wins, the loss of one that loses. -/
def settlementTotal (winner : SelectionId) (bets : List Bet) : ℚ :=
  (bets.map (fun bet => balanceChange bet (winsOrdinary winner bet))).sum

/-- The margin-ledger invariant for a market with the two selections `a` and
`b`: the profit of the snapshot is the settlement total of the wagers if its
selection wins, its loss is their settlement total if the other one wins. -/
def LedgerInv (a b : SelectionId) (snap : Margin) (placed : List Bet) : Prop :=
  (snap.selectionId = a ∨ snap.selectionId = b) ∧
    snap.profit = settlementTotal snap.selectionId placed ∧
    snap.loss = settlementTotal (if snap.selectionId = a then b else a) placed

/-- The two placements of the oracle of §8, in order. -/
def ledgerRequests : List Placement :=
  [⟨oracleFirst, some [()], 1⟩, ⟨oracleSecond, some [()], 2⟩]

/-- The side `bac` followed by U+212A KELVIN SIGN, which
`String.prototype.toLowerCase` turns into `back`. -/
def kelvinSide : String := String.mk ['b', 'a', 'c', Char.ofNat 0x212A]

/-- The category `fancy` with U+0130 in the place of a letter; its lower-case
form has U+0307 and is no category. -/
def dottedCategory : String := String.mk ['f', 'a', 'n', 'c', Char.ofNat 0x0130]

/-- A match odds back wager on selection A of the market whose id is the
string constructor: stake 50 at price 3. -/
def constructorBody : PlaceBetBody :=
  ordinaryBody "e" "A v B" "constructor" "A" "A" none 50 3 "match odds" "back"

/-- The database of the oracle after the wager of `constructorBody`. -/
def constructorDb : Db :=
  { users := [⟨7, 10000, "active"⟩],
    bets := [⟨1, 7, "e", "constructor", some "A", none, 50, 3, .matchOdds, .back, 150,
      .pending⟩],
    margins := [⟨7, "e", "constructor", "A", 100, -50⟩] }

/-! ## Theorems: profit and loss, margin folding, worst case of a snapshot -/

/-- C1: for every stake and price, `calculateProfitAndLoss` returns the pair of
§4.1 for each of the six (category, side) combinations. -/
theorem calculateProfitAndLoss_formulas (stake price : ℚ) :
    calculateProfitAndLoss stake price "back" "match odds"
        = .ok { profit := stake * (price - 1), loss := -stake } ∧
    calculateProfitAndLoss stake price "lay" "match odds"
        = .ok { profit := stake, loss := -stake * (price - 1) } ∧
    calculateProfitAndLoss stake price "back" "bookmaker"
        = .ok { profit := stake * price / 100, loss := -stake } ∧
    calculateProfitAndLoss stake price "lay" "bookmaker"
        = .ok { profit := stake, loss := -stake * price / 100 } ∧
    calculateProfitAndLoss stake price "back" "fancy"
        = .ok { profit := stake * price / 100, loss := -stake } ∧
    calculateProfitAndLoss stake price "lay" "fancy"
        = .ok { profit := stake, loss := -stake * price / 100 } := by
  have hb : (price * stake) / 100 = stake * price / 100 := by rw [mul_comm]
  have hl : -(price * stake) / 100 = -stake * price / 100 := by rw [mul_comm, neg_mul]
  have hf : -(stake * price) / 100 = -stake * price / 100 := by rw [neg_mul]
  refine ⟨rfl, rfl, ?_, ?_, rfl, ?_⟩
  · rw [← hb]; rfl
  · rw [← hl]; rfl
  · rw [← hf]; rfl

/-- C2: `calculateNewMargin` adds to the snapshot's profit the wager's profit
when `isSameSelection = isBack` and its loss otherwise, and to the snapshot's
loss the wager's loss when `isSameSelection = isBack` and its profit otherwise. -/
theorem calculateNewMargin_spec (margin : Margin) (selectionId : SelectionId)
    (type : String) (profit loss : ℚ) :
    (calculateNewMargin margin selectionId type profit loss).newProfit
        = margin.profit +
          (if (margin.selectionId = selectionId ↔ type = "back") then profit else loss) ∧
    (calculateNewMargin margin selectionId type profit loss).newLoss
        = margin.loss +
          (if (margin.selectionId = selectionId ↔ type = "back") then loss else profit) := by
  unfold calculateNewMargin
  by_cases h1 : margin.selectionId = selectionId <;> by_cases h2 : type = "back" <;>
    simp [h1, h2]

/-- C4: the worst-case loss `calculateTotalExposure` adds for one snapshot is
`|profit|` when `profit < 0` and `loss > 0`, `max |profit| |loss|` when both are
negative, `|loss|` when `loss < 0` and `profit ≥ 0`, and 0 otherwise. -/
theorem maxLossOf_cases (margin : Margin) :
    maxLossOf margin =
      if margin.profit < 0 ∧ margin.loss > 0 then |margin.profit|
      else if margin.profit < 0 ∧ margin.loss < 0 then max |margin.profit| |margin.loss|
      else if margin.loss < 0 ∧ margin.profit ≥ 0 then |margin.loss|
      else 0 := by
  unfold maxLossOf
  by_cases hp : margin.profit < 0 <;> by_cases hl : margin.loss < 0 <;>
    by_cases hl2 : margin.loss > 0 <;> simp [hp, hl, hl2, le_of_not_lt]
  exfalso; linarith

/-! ## Theorems: the balance check of placeBet -/

/-- The five stored strings are fixed by the normalisation. -/
theorem normalize_stored :
    trim (toLowerCase "match odds") = "match odds" ∧
    trim (toLowerCase "bookmaker") = "bookmaker" ∧
    trim (toLowerCase "fancy") = "fancy" ∧
    trim (toLowerCase "back") = "back" ∧
    trim (toLowerCase "lay") = "lay" := by decide

/-- A stored category and side are accepted by `calculateProfitAndLoss`. -/
theorem calculateProfitAndLoss_stored (stake odds : ℚ) (side : BetType) (cat : Category) :
    ∃ pl, calculateProfitAndLoss stake odds side.toString cat.toString = .ok pl := by
  cases side <;> cases cat <;> exact ⟨_, rfl⟩

/-- The path of `placeBet` through the branch with a prior snapshot: once the
user, the fields, the category, the side and the odds response are accepted,
the result is decided by the balance check alone. -/
theorem placeBet_prior_eq {ρ : Type} (db : Db) (reqUser : UserId) (user : User)
    (eventId : EventId) (matchName : String) (marketId : MarketId) (selection : String)
    (selectionId : SelectionId) (fancyNumber : Option ℚ) (stake odds : ℚ)
    (category type : String) (cat : Category) (side : BetType)
    (data : List ρ) (newId : BetId) (margin : Margin) (pl : ProfitLoss)
    (hu : findUser db.users reqUser = some user) (hban : user.status ≠ "banned")
    (he : eventId ≠ "") (hmk : marketId ≠ "") (hst : stake ≠ 0) (hod : odds ≠ 0)
    (hmn : matchName ≠ "") (hsel : selection ≠ "") (hsid : selectionId ≠ "")
    (hcat : trim (toLowerCase category) = cat.toString) (hord : cat ≠ .fancy)
    (htype : trim (toLowerCase type) = side.toString)
    (hdata : data ≠ [])
    (hm : findLatestMargin db user.id eventId marketId = some margin)
    (hpl : calculateProfitAndLoss stake odds side.toString cat.toString = .ok pl) :
    placeBet db reqUser
      (ordinaryBody eventId matchName marketId selection selectionId fancyNumber
        stake odds category type) (some data) newId =
    (if user.amount - calculateTotalExposure db user.id + |min3 margin.profit margin.loss| <
          |min3 (calculateNewMargin margin selectionId side.toString pl.profit pl.loss).newProfit
            (calculateNewMargin margin selectionId side.toString pl.profit pl.loss).newLoss| then
        .error ⟨"Insufficient balance", 400⟩
      else
        .ok { db with
          margins := db.margins ++ [
            { userId := user.id, eventId := eventId, marketId := marketId,
              selectionId := selectionId,
              profit := if margin.selectionId = selectionId
                then (calculateNewMargin margin selectionId side.toString pl.profit pl.loss).newProfit
                else (calculateNewMargin margin selectionId side.toString pl.profit pl.loss).newLoss,
              loss := if margin.selectionId = selectionId
                then (calculateNewMargin margin selectionId side.toString pl.profit pl.loss).newLoss
                else (calculateNewMargin margin selectionId side.toString pl.profit pl.loss).newProfit }],
          bets := db.bets ++ [
            { id := newId, userId := user.id, eventId := eventId, marketId := marketId,
              selectionId := some selectionId, fancyNumber := fancyNumber,
              stake := stake, odds := odds, category := cat, type := side,
              payout := stake + pl.profit, status := .pending }] }) := by
  have hlen : data.length ≠ 0 := by
    intro h; exact hdata (List.length_eq_zero.mp h)
  unfold placeBet ordinaryBody
  simp only [hu, hban, if_false, Option.map_some', hcat, htype]
  cases cat <;> cases side <;> first
    | exact absurd rfl hord
    | (simp [truthyStr, truthyNum, he, hmk, hst, hod, hmn, hsel, hsid, hlen,
        Category.toString, BetType.toString, Category.ofString?, BetType.ofString?, hm]
       simp [Category.toString, BetType.toString] at hpl
       simp [hpl])

/-- C3 (as stated, refuted): with balance 40 and exposure 50 the available
balance is -10, below the clamped headroom `max 0 (20 - 50) = 0`, yet the
wager is accepted. -/
theorem placeBet_clamped_headroom_counterexample :
    placeBet overdrawnDb 7 hedgeBody (some [()]) 2
      ≠ .error ⟨"Insufficient balance", 400⟩ ∧
    (40 : ℚ) - calculateTotalExposure overdrawnDb 7 <
      requiredHeadroom ⟨7, "e", "m", "A", 100, -50⟩
        (calculateNewMargin ⟨7, "e", "m", "A", 100, -50⟩ "B" "back" 30 (-20)) ∧
    findUser overdrawnDb.users 7 = some ⟨7, 40, "active"⟩ ∧
    findLatestMargin overdrawnDb 7 "e" "m" = some ⟨7, "e", "m", "A", 100, -50⟩ ∧
    calculateProfitAndLoss 20 (5 / 2) "back" "match odds" = .ok ⟨30, -20⟩ := by
  decide!

/-- C3 (amended): an ordinary-market placement with a prior snapshot is rejected
with "Insufficient balance" exactly when the available balance is below the
difference `|min(newProfit, newLoss, 0)| - |min(profit, loss, 0)|`, which is
not clamped at 0.  This verdict is the one of the clamped headroom exactly when
the available balance is not negative or is below the difference; the two
differ exactly when the difference is at most the available balance and the
available balance is negative, where the placement is not rejected.  A
placement that is not rejected succeeds. -/
theorem placeBet_insufficient_iff {ρ : Type} (db : Db) (reqUser : UserId) (user : User)
    (eventId : EventId) (matchName : String) (marketId : MarketId) (selection : String)
    (selectionId : SelectionId) (fancyNumber : Option ℚ) (stake odds : ℚ)
    (category type : String) (cat : Category) (side : BetType)
    (data : List ρ) (newId : BetId) (margin : Margin) (pl : ProfitLoss)
    (hu : findUser db.users reqUser = some user) (hban : user.status ≠ "banned")
    (he : eventId ≠ "") (hmk : marketId ≠ "") (hst : stake ≠ 0) (hod : odds ≠ 0)
    (hmn : matchName ≠ "") (hsel : selection ≠ "") (hsid : selectionId ≠ "")
    (hcat : trim (toLowerCase category) = cat.toString) (hord : cat ≠ .fancy)
    (htype : trim (toLowerCase type) = side.toString)
    (hdata : data ≠ [])
    (hm : findLatestMargin db user.id eventId marketId = some margin)
    (hpl : calculateProfitAndLoss stake odds side.toString cat.toString = .ok pl) :
    (placeBet db reqUser
        (ordinaryBody eventId matchName marketId selection selectionId fancyNumber
          stake odds category type) (some data) newId
        = .error ⟨"Insufficient balance", 400⟩ ↔
      user.amount - calculateTotalExposure db user.id <
        |min3 (calculateNewMargin margin selectionId side.toString pl.profit pl.loss).newProfit
            (calculateNewMargin margin selectionId side.toString pl.profit pl.loss).newLoss|
          - |min3 margin.profit margin.loss|) ∧
    ((placeBet db reqUser
          (ordinaryBody eventId matchName marketId selection selectionId fancyNumber
            stake odds category type) (some data) newId
          = .error ⟨"Insufficient balance", 400⟩ ↔
        user.amount - calculateTotalExposure db user.id <
          requiredHeadroom margin
            (calculateNewMargin margin selectionId side.toString pl.profit pl.loss)) ↔
      (0 ≤ user.amount - calculateTotalExposure db user.id ∨
        user.amount - calculateTotalExposure db user.id <
          |min3 (calculateNewMargin margin selectionId side.toString pl.profit pl.loss).newProfit
              (calculateNewMargin margin selectionId side.toString pl.profit pl.loss).newLoss|
            - |min3 margin.profit margin.loss|)) ∧
    ((placeBet db reqUser
          (ordinaryBody eventId matchName marketId selection selectionId fancyNumber
            stake odds category type) (some data) newId
          ≠ .error ⟨"Insufficient balance", 400⟩ ∧
        user.amount - calculateTotalExposure db user.id <
          requiredHeadroom margin
            (calculateNewMargin margin selectionId side.toString pl.profit pl.loss)) ↔
      (|min3 (calculateNewMargin margin selectionId side.toString pl.profit pl.loss).newProfit
            (calculateNewMargin margin selectionId side.toString pl.profit pl.loss).newLoss|
          - |min3 margin.profit margin.loss| ≤ user.amount - calculateTotalExposure db user.id ∧
        user.amount - calculateTotalExposure db user.id < 0)) ∧
    (placeBet db reqUser
        (ordinaryBody eventId matchName marketId selection selectionId fancyNumber
          stake odds category type) (some data) newId
        ≠ .error ⟨"Insufficient balance", 400⟩ →
      ∃ db', placeBet db reqUser
        (ordinaryBody eventId matchName marketId selection selectionId fancyNumber
          stake odds category type) (some data) newId = .ok db') := by
  rw [placeBet_prior_eq db reqUser user eventId matchName marketId selection selectionId
    fancyNumber stake odds category type cat side data newId margin pl hu hban he hmk hst hod
    hmn hsel hsid hcat hord htype hdata hm hpl]
  have key : ∀ a x y : ℚ, a + x < y ↔ a < y - x := fun a x y => lt_sub_iff_add_lt.symm
  by_cases h : user.amount - calculateTotalExposure db user.id + |min3 margin.profit margin.loss| <
      |min3 (calculateNewMargin margin selectionId side.toString pl.profit pl.loss).newProfit
        (calculateNewMargin margin selectionId side.toString pl.profit pl.loss).newLoss|
  · rw [if_pos h]
    have hd := (key _ _ _).mp h
    refine ⟨?_, ?_, ?_, ?_⟩
    · simpa using hd
    · unfold requiredHeadroom
      constructor
      · intro _; exact Or.inr hd
      · intro _
        constructor
        · intro _; exact lt_max_iff.mpr (Or.inr hd)
        · intro _; rfl
    · constructor
      · intro hne; exact absurd rfl hne.1
      · intro hle; exact absurd hd (not_lt.mpr hle.1)
    · intro hne; exact absurd rfl hne
  · rw [if_neg h]
    have hd : ¬ user.amount - calculateTotalExposure db user.id <
        |min3 (calculateNewMargin margin selectionId side.toString pl.profit pl.loss).newProfit
            (calculateNewMargin margin selectionId side.toString pl.profit pl.loss).newLoss|
          - |min3 margin.profit margin.loss| := fun hlt => h ((key _ _ _).mpr hlt)
    refine ⟨?_, ?_, ?_, ?_⟩
    · constructor
      · intro hc; cases hc
      · intro hlt; exact absurd hlt hd
    · unfold requiredHeadroom
      constructor
      · intro hiff
        by_cases h0 : 0 ≤ user.amount - calculateTotalExposure db user.id
        · exact Or.inl h0
        · have hc := hiff.mpr (lt_max_iff.mpr (Or.inl (not_le.mp h0)))
          cases hc
      · intro hor
        rcases hor with h0 | hlt
        · constructor
          · intro hc; cases hc
          · intro hlt
            rcases lt_max_iff.mp hlt with h1 | h1
            · exact absurd h1 (not_lt.mpr h0)
            · exact absurd h1 hd
        · exact absurd hlt hd
    · unfold requiredHeadroom
      constructor
      · intro hne
        rcases lt_max_iff.mp hne.2 with h1 | h1
        · exact ⟨not_lt.mp hd, h1⟩
        · exact absurd h1 hd
      · intro hle
        exact ⟨fun hc => (by cases hc), lt_max_iff.mpr (Or.inl hle.2)⟩
    · intro _; exact ⟨_, rfl⟩

/-- Witness of `placeBet_insufficient_iff`: the hedge placed on `overdrawnDb`. -/
theorem placeBet_insufficient_iff_witness :
    (placeBet overdrawnDb 7 hedgeBody (some [()]) 2
        = .error ⟨"Insufficient balance", 400⟩ ↔
      (40 : ℚ) - calculateTotalExposure overdrawnDb 7 <
        |min3 (calculateNewMargin ⟨7, "e", "m", "A", 100, -50⟩ "B" "back" 30 (-20)).newProfit
            (calculateNewMargin ⟨7, "e", "m", "A", 100, -50⟩ "B" "back" 30 (-20)).newLoss|
          - |min3 100 (-50)|) :=
  (placeBet_insufficient_iff overdrawnDb 7 ⟨7, 40, "active"⟩ "e" "A v B" "m" "B" "B" none 20
    (5 / 2) "match odds" "back" .matchOdds .back [()] 2 ⟨7, "e", "m", "A", 100, -50⟩ ⟨30, -20⟩
    (by decide!) (by decide) (by decide) (by decide) (by norm_num) (by norm_num) (by decide)
    (by decide) (by decide) (by decide) (by decide) (by decide) (by simp) (by decide!)
    (by decide!)).1

/-! ## Theorems: tiered exposure -/

/-- A left fold that adds `f x` is the start value plus the sum of `f`. -/
theorem foldl_add_eq_sum {α : Type} (f : α → ℚ) (l : List α) (a : ℚ) :
    l.foldl (fun acc x => acc + f x) a = a + (l.map f).sum := by
  induction l generalizing a with
  | nil => simp
  | cons x xs ih => simp [ih, add_assoc]

/-- The sum over a slice is the sum over its indices. -/
theorem sum_drop_take (betList : List Bet) (f : Bet → ℚ) (count start : Nat)
    (h : start + count ≤ betList.length) :
    (((betList.drop start).take count).map f).sum = sumAt betList start count f := by
  unfold sumAt
  induction count generalizing start with
  | zero => simp
  | succ k ih =>
    have hlt : start < betList.length := by omega
    rw [List.drop_eq_getElem_cons hlt, List.take_succ_cons, List.range'_succ]
    simp only [List.map_cons, List.sum_cons]
    rw [ih (start + 1) (by omega)]
    simp [List.getElem?_eq_getElem hlt]

/-- The indices below `n`, split at `b`. -/
theorem range_split (n b : Nat) (hb : b < n) :
    List.range n = List.range' 0 b ++ (b :: List.range' (b + 1) (n - b - 1)) := by
  obtain ⟨k, rfl⟩ : ∃ k, n = b + (k + 1) := ⟨n - b - 1, by omega⟩
  have h1 : b + (k + 1) - b - 1 = k := by omega
  rw [h1, List.range_eq_range', ← List.range'_succ, Nat.add_comm b (k + 1)]
  have := @List.range'_append_1 0 b (k+1)
  simpa using this.symm

/-- An upward search finds the least index that satisfies the test. -/
theorem find_range_eq_some (p : Nat → Bool) (n b : Nat) (hb : b < n) (hp : p b = true)
    (hmin : ∀ i, i < b → p i = false) : (List.range n).find? p = some b := by
  rw [range_split n b hb, List.find?_append]
  have hnone : (List.range' 0 b).find? p = none := by
    rw [List.find?_eq_none]
    intro i hi
    simp [List.mem_range'_1] at hi
    simp [hmin i hi]
  simp [hnone, hp]

/-- A downward search finds the greatest index that satisfies the test. -/
theorem find_reverse_range_eq_some (p : Nat → Bool) (n l : Nat) (hl : l < n)
    (hp : p l = true) (hmax : ∀ i, l < i → i < n → p i = false) :
    (List.range n).reverse.find? p = some l := by
  rw [range_split n l hl, List.reverse_append, List.reverse_cons, List.append_assoc,
    List.find?_append]
  have hnone : (List.range' (l + 1) (n - l - 1)).reverse.find? p = none := by
    rw [List.find?_eq_none]
    intro i hi
    simp [List.mem_range'_1] at hi
    simp [hmax i (by omega) (by omega)]
  simp [hnone, hp]

/-- An index that holds a wager is inside the list. -/
theorem lt_length_of_type {betList : List Bet} {i : Nat} {t : BetType}
    (h : (betList[i]?).map (·.type) = some t) : i < betList.length := by
  by_contra hge
  rw [List.getElem?_eq_none (by omega)] at h
  simp at h

/-- The first loop of the market body returns the index of the first back. -/
theorem firstBackIndex_eq {betList : List Bet} {b : Nat} (h : IsFirstBack betList b) :
    firstBackIndex betList = some b := by
  unfold firstBackIndex
  apply find_range_eq_some _ _ _ (lt_length_of_type h.1)
  · rcases hb : betList[b]? with _ | bet
    · have := h.1; simp [hb] at this
    · have := h.1; simp [hb] at this; simp [this]
  · intro i hi
    rcases hb : betList[i]? with _ | bet
    · simp
    · have := h.2 i hi; simp [hb] at this; simp [this]

/-- The second loop of the market body returns the index of the last lay. -/
theorem firstLayFromLastIndex_eq {betList : List Bet} {l : Nat} (h : IsLastLay betList l) :
    firstLayFromLastIndex betList = some l := by
  unfold firstLayFromLastIndex
  apply find_reverse_range_eq_some _ _ _ (lt_length_of_type h.1)
  · rcases hb : betList[l]? with _ | bet
    · have := h.1; simp [hb] at this
    · have := h.1; simp [hb] at this; simp [this]
  · intro i hi hn
    rcases hb : betList[i]? with _ | bet
    · simp
    · have := h.2 i hn hi; simp [hb] at this; simp [this]

/-- Without a back wager the first loop leaves `-1`. -/
theorem firstBackIndex_eq_none {betList : List Bet}
    (h : ∀ bet ∈ betList, bet.type ≠ .back) : firstBackIndex betList = none := by
  unfold firstBackIndex
  rw [List.find?_eq_none]
  intro i _
  rcases hb : betList[i]? with _ | bet
  · simp
  · simp [h bet (List.getElem?_mem hb)]

/-- Without a lay wager the second loop leaves `-1`. -/
theorem firstLayFromLastIndex_eq_none {betList : List Bet}
    (h : ∀ bet ∈ betList, bet.type ≠ .lay) : firstLayFromLastIndex betList = none := by
  unfold firstLayFromLastIndex
  rw [List.find?_eq_none]
  intro i _
  rcases hb : betList[i]? with _ | bet
  · simp
  · simp [h bet (List.getElem?_mem hb)]

/-- The bracketed branch of the market body computes the formula of §4.3,
case 1, with `stake * odds / 100` as the amount of a wager. -/
theorem marketExposureOf_bracket {betList : List Bet} {b l : Nat}
    (hb : IsFirstBack betList b) (hl : IsLastLay betList l) (hbl : b < l) :
    marketExposureOf betList = -bracketExposure rateValue betList b l := by
  have hlen : l < betList.length := lt_length_of_type hl.1
  unfold marketExposureOf bracketExposure
  simp only [firstBackIndex_eq hb, firstLayFromLastIndex_eq hl, if_pos hbl]
  rw [foldl_add_eq_sum (fun bet => bet.stake) (betList.drop (l + 1)),
    foldl_add_eq_sum (fun bet => (bet.stake * bet.odds) / 100) (betList.take b),
    foldl_add_eq_sum (fun bet => if bet.type = .back then (bet.stake * bet.odds) / 100
      else -((bet.stake * bet.odds) / 100)) ((betList.drop b).take (l + 1 - b))]
  have h1 := sum_drop_take betList rateValue b 0 (by omega)
  have h2 := sum_drop_take betList
    (fun bet => if bet.type = .back then rateValue bet else -rateValue bet)
    (l + 1 - b) b (by omega)
  have h3 := sum_drop_take betList (·.stake) (betList.length - (l + 1)) (l + 1) (by omega)
  rw [List.drop_zero] at h1
  rw [List.take_of_length_le (by simp)] at h3
  have e1 : (fun bet : Bet => bet.stake * bet.odds / 100) = rateValue := rfl
  have e2 : (fun bet : Bet => if bet.type = .back then bet.stake * bet.odds / 100
      else -(bet.stake * bet.odds / 100))
      = fun bet => if bet.type = .back then rateValue bet else -rateValue bet := rfl
  rw [e1, e2, h1, h2, h3]
  simp

/-- The flat branch of the market body computes the formula of §4.3, case 2,
with `stake * odds / 100` as the amount of a lay wager. -/
theorem flat_fold_eq (betList : List Bet) :
    betList.foldl (fun exposure bet =>
      exposure + (if bet.type = .back then bet.stake else (bet.stake * bet.odds) / 100)) 0
      = flatExposure rateValue betList := by
  rw [foldl_add_eq_sum (fun bet : Bet => if bet.type = .back then bet.stake
    else (bet.stake * bet.odds) / 100) betList, zero_add]
  unfold flatExposure rateValue
  induction betList with
  | nil => simp
  | cons bet rest ih =>
    cases ht : bet.type <;> simp [List.filter_cons, ht, ih] <;> ring

/-- Reading a key after writing one. -/
theorem mapGet_mapSet {κ ν : Type} [DecidableEq κ] (m : List (κ × ν)) (k k' : κ) (v : ν) :
    mapGet (mapSet m k v) k' = if k = k' then some v else mapGet m k' := by
  induction m with
  | nil => simp [mapSet, mapGet]
  | cons entry rest ih =>
    obtain ⟨k0, v0⟩ := entry
    by_cases h0 : k0 = k
    · subst h0
      by_cases h1 : k0 = k' <;> simp [mapSet, mapGet, h1]
    · by_cases h1 : k0 = k'
      · subst h1
        have : ¬ k = k0 := fun h => h0 h.symm
        simp [mapSet, mapGet, h0, this]
      · simp [mapSet, mapGet, h0, h1, ih]

/-- Reading a key of a dictionary whose values were mapped. -/
theorem mapGet_map {κ ν μ : Type} [DecidableEq κ] (m : List (κ × ν)) (f : ν → μ) (k : κ) :
    mapGet (m.map (fun entry => (entry.1, f entry.2))) k = (mapGet m k).map f := by
  induction m with
  | nil => simp [mapGet]
  | cons entry rest ih =>
    obtain ⟨k0, v0⟩ := entry
    by_cases h0 : k0 = k <;> simp [mapGet, h0, ih]

/-- The dictionary `marketBets` holds, for each market, its wagers in the order
of the query, and no entry for a market without a wager. -/
theorem groupByMarket_get (bets : List Bet) (marketId : MarketId) :
    mapGet (groupByMarket bets) marketId =
      if bets.filter (fun bet => bet.marketId = marketId) = [] then none
      else some (bets.filter (fun bet => bet.marketId = marketId)) := by
  unfold groupByMarket
  induction bets using List.reverseRecOn with
  | nil => simp [mapGet]
  | append_singleton rest bet ih =>
    rw [List.foldl_append, List.foldl_cons, List.foldl_nil, List.filter_append]
    by_cases hk : bet.marketId = marketId
    · subst hk
      by_cases he : rest.filter (fun b => b.marketId = bet.marketId) = []
      · rw [he] at ih ⊢
        simp only [if_true] at ih
        simp [ih, mapGet_mapSet]
      · simp only [he, if_false] at ih
        simp [ih, mapGet_mapSet]
    · have hstep : ∀ v, mapGet (mapSet (List.foldl (fun marketBets bet =>
            match mapGet marketBets bet.marketId with
            | none => mapSet marketBets bet.marketId [bet]
            | some betList => mapSet marketBets bet.marketId (betList ++ [bet])) [] rest)
            bet.marketId v) marketId
          = mapGet (List.foldl (fun marketBets bet =>
            match mapGet marketBets bet.marketId with
            | none => mapSet marketBets bet.marketId [bet]
            | some betList => mapSet marketBets bet.marketId (betList ++ [bet])) [] rest)
            marketId := by
        intro v; rw [mapGet_mapSet, if_neg hk]
      have hf : List.filter (fun b => decide (b.marketId = marketId)) [bet] = [] := by
        simp [hk]
      rw [hf, List.append_nil, ← ih]
      split <;> exact hstep _

/-- The entry of a market in the result of `calculateFancyExposure` is the
market body applied to the market's wagers. -/
theorem calculateFancyExposure_get (db : Db) (userId : UserId) (eventId : EventId)
    (marketId : MarketId) :
    mapGet (calculateFancyExposure db userId eventId) marketId =
      if marketBetList db userId eventId marketId = [] then none
      else some (marketExposureOf (marketBetList db userId eventId marketId)) := by
  unfold calculateFancyExposure marketBetList
  rw [mapGet_map, groupByMarket_get]
  split <;> simp

/-- A sum of non-negative amounts over indices is non-negative. -/
theorem sumAt_nonneg (betList : List Bet) (start count : Nat) (f : Bet → ℚ)
    (h : ∀ bet ∈ betList, 0 ≤ f bet) : 0 ≤ sumAt betList start count f := by
  unfold sumAt
  apply List.sum_nonneg
  intro x hx
  obtain ⟨i, _, rfl⟩ := List.mem_map.mp hx
  rcases hb : betList[i]? with _ | bet
  · simp
  · simpa using h bet (List.getElem?_mem hb)

/-- C5 (as stated, refuted): for a back (stake 100, threshold 10, price 90)
followed by a lay (stake 200, threshold 20, price 100) the reported exposure is
-110, while the formula over thresholds gives 30. -/
theorem calculateFancyExposure_threshold_counterexample :
    IsFirstBack (marketBetList tieredDb 7 "e" "m") 0 ∧
    IsLastLay (marketBetList tieredDb 7 "e" "m") 1 ∧
    mapGet (calculateFancyExposure tieredDb 7 "e") "m" = some (-110) ∧
    bracketExposure thresholdValue (marketBetList tieredDb 7 "e" "m") 0 1 = 30 ∧
    |(-110 : ℚ)| ≠ 30 := by
  decide!

/-- C5 (amended): when the first back wager of a market's ordered list is at
index `b`, the last lay wager at index `l` and `b < l`, the exposure reported
for the market is the negation of: the sum of `stake * price / 100` below `b`,
plus the absolute value of the signed sum of `stake * price / 100` over
`[b, l]` (back positive, lay negative), plus the sum of the stakes above `l`;
its magnitude is that amount when no stake and no price is negative. -/
theorem calculateFancyExposure_bracket (db : Db) (userId : UserId) (eventId : EventId)
    (marketId : MarketId) (b l : Nat)
    (hb : IsFirstBack (marketBetList db userId eventId marketId) b)
    (hl : IsLastLay (marketBetList db userId eventId marketId) l) (hbl : b < l) :
    ∃ x, mapGet (calculateFancyExposure db userId eventId) marketId = some x ∧
      x = -bracketExposure rateValue (marketBetList db userId eventId marketId) b l ∧
      ((∀ bet ∈ marketBetList db userId eventId marketId, 0 ≤ bet.stake ∧ 0 ≤ bet.odds) →
        |x| = bracketExposure rateValue (marketBetList db userId eventId marketId) b l) := by
  have hne : marketBetList db userId eventId marketId ≠ [] := by
    intro h
    have := lt_length_of_type hb.1
    rw [h] at this
    simp at this
  refine ⟨_, ?_, marketExposureOf_bracket hb hl hbl, ?_⟩
  · rw [calculateFancyExposure_get, if_neg hne]
  · intro hpos
    rw [marketExposureOf_bracket hb hl hbl, abs_neg, abs_of_nonneg]
    unfold bracketExposure
    have h1 := sumAt_nonneg (marketBetList db userId eventId marketId) 0 b rateValue
      (fun bet hbet => by
        unfold rateValue
        exact div_nonneg (mul_nonneg (hpos bet hbet).1 (hpos bet hbet).2) (by norm_num))
    have h3 := sumAt_nonneg (marketBetList db userId eventId marketId) (l + 1)
      ((marketBetList db userId eventId marketId).length - (l + 1)) (·.stake)
      (fun bet hbet => (hpos bet hbet).1)
    have h2 := abs_nonneg (sumAt (marketBetList db userId eventId marketId) b (l + 1 - b)
      (fun bet => if bet.type = .back then rateValue bet else -rateValue bet))
    linarith

/-- Witness of `calculateFancyExposure_bracket`: the two wagers of `tieredDb`. -/
theorem calculateFancyExposure_bracket_witness :
    ∃ x, mapGet (calculateFancyExposure tieredDb 7 "e") "m" = some x ∧
      x = -bracketExposure rateValue (marketBetList tieredDb 7 "e" "m") 0 1 ∧
      ((∀ bet ∈ marketBetList tieredDb 7 "e" "m", 0 ≤ bet.stake ∧ 0 ≤ bet.odds) →
        |x| = bracketExposure rateValue (marketBetList tieredDb 7 "e" "m") 0 1) :=
  calculateFancyExposure_bracket tieredDb 7 "e" "m" 0 1 (by decide!) (by decide!) (by decide)

/-- C6 (as stated, refuted): a single lay wager with stake 1000, threshold 50
and price 80 is reported as -800, not as -500. -/
theorem calculateFancyExposure_single_lay_counterexample :
    marketBetList singleLayDb 7 "e" "m"
      = [⟨1, 7, "e", "m", none, some 50, 1000, 80, .fancy, .lay, 2000, .pending⟩] ∧
    mapGet (calculateFancyExposure singleLayDb 7 "e") "m" = some (-800) ∧
    -flatExposure thresholdValue (marketBetList singleLayDb 7 "e" "m") = -500 := by
  decide!

/-- C6 (amended): when a market's list has no back wager, or no lay wager, or
its first back is not before its last lay, the exposure reported for the market
is minus (the stakes of the back wagers plus `stake * price / 100` of the lay
wagers).  A single back wager is reported as minus its stake, a single lay
wager as minus `stake * price / 100`. -/
theorem calculateFancyExposure_flat (db : Db) (userId : UserId) (eventId : EventId)
    (marketId : MarketId) (hne : marketBetList db userId eventId marketId ≠ [])
    (h : (∀ bet ∈ marketBetList db userId eventId marketId, bet.type ≠ .back) ∨
      (∀ bet ∈ marketBetList db userId eventId marketId, bet.type ≠ .lay) ∨
      (∃ b l, IsFirstBack (marketBetList db userId eventId marketId) b ∧
        IsLastLay (marketBetList db userId eventId marketId) l ∧ ¬ b < l)) :
    mapGet (calculateFancyExposure db userId eventId) marketId
      = some (-flatExposure rateValue (marketBetList db userId eventId marketId)) ∧
    (∀ bet : Bet, marketExposureOf [bet] =
      if bet.type = .back then -bet.stake else -(bet.stake * bet.odds / 100)) := by
  constructor
  · rw [calculateFancyExposure_get, if_neg hne]
    congr 1
    unfold marketExposureOf
    rcases h with h | h | ⟨b, l, hb, hl, hbl⟩
    · simp only [firstBackIndex_eq_none h, flat_fold_eq]
    · simp only [firstLayFromLastIndex_eq_none h, flat_fold_eq]
      cases firstBackIndex (marketBetList db userId eventId marketId) <;> rfl
    · simp only [firstBackIndex_eq hb, firstLayFromLastIndex_eq hl, if_neg hbl, flat_fold_eq]
  · intro bet
    unfold marketExposureOf firstBackIndex firstLayFromLastIndex
    cases ht : bet.type <;> simp [ht, List.range_succ]

/-- Witness of `calculateFancyExposure_flat`: the single lay wager of
`singleLayDb`. -/
theorem calculateFancyExposure_flat_witness :
    mapGet (calculateFancyExposure singleLayDb 7 "e") "m"
      = some (-flatExposure rateValue (marketBetList singleLayDb 7 "e" "m")) :=
  (calculateFancyExposure_flat singleLayDb 7 "e" "m" (by decide!)
    (Or.inl (by decide!))).1

/-! ## Theorems: total exposure -/

/-- The function `distinct` adds the elements one by one. -/
theorem distinct_concat {κ : Type} [DecidableEq κ] (l : List κ) (x : κ) :
    distinct (l ++ [x]) = setAdd (distinct l) x := by
  unfold distinct
  rw [List.foldl_append]
  rfl

/-- The distinct values are the values. -/
theorem mem_distinct {κ : Type} [DecidableEq κ] (l : List κ) (k : κ) :
    k ∈ distinct l ↔ k ∈ l := by
  induction l using List.reverseRecOn generalizing k with
  | nil => simp [distinct]
  | append_singleton rest x ih =>
    rw [distinct_concat]
    unfold setAdd
    by_cases hx : x ∈ distinct rest
    · rw [if_pos hx, List.mem_append, List.mem_singleton, ih]
      constructor
      · exact Or.inl
      · rintro (h | h)
        · exact h
        · rw [h]; exact (ih x).mp hx
    · rw [if_neg hx, List.mem_append, List.mem_append, ih]

/-- The distinct values have no repetition. -/
theorem nodup_distinct {κ : Type} [DecidableEq κ] (l : List κ) : (distinct l).Nodup := by
  induction l using List.reverseRecOn with
  | nil => simp [distinct]
  | append_singleton rest x ih =>
    rw [distinct_concat]
    unfold setAdd
    by_cases hx : x ∈ distinct rest
    · rw [if_pos hx]; exact ih
    · rw [if_neg hx]
      exact List.Nodup.append ih (List.nodup_singleton x) (by simpa using hx)

/-- A key is absent exactly when reading it gives nothing. -/
theorem mapGet_eq_none_iff {κ ν : Type} [DecidableEq κ] (m : List (κ × ν)) (k : κ) :
    mapGet m k = none ↔ k ∉ m.map Prod.fst := by
  induction m with
  | nil => simp [mapGet]
  | cons entry rest ih =>
    obtain ⟨k0, v0⟩ := entry
    by_cases h0 : k0 = k
    · simp [mapGet, h0]
    · have : ¬ k = k0 := fun h => h0 h.symm
      simp [mapGet, h0, ih, this]

/-- Writing a new key appends it; writing an old key keeps the keys. -/
theorem keys_mapSet {κ ν : Type} [DecidableEq κ] (m : List (κ × ν)) (k : κ) (v : ν) :
    (mapSet m k v).map Prod.fst =
      if k ∈ m.map Prod.fst then m.map Prod.fst else m.map Prod.fst ++ [k] := by
  induction m with
  | nil => simp [mapSet]
  | cons entry rest ih =>
    obtain ⟨k0, v0⟩ := entry
    by_cases h0 : k0 = k
    · subst h0; simp [mapSet]
    · have hne : ¬ k = k0 := fun h => h0 h.symm
      simp only [mapSet, if_neg h0, List.map_cons, ih, List.mem_cons, hne, false_or]
      split <;> simp

/-- Writing keeps the keys free of repetition. -/
theorem nodup_keys_mapSet {κ ν : Type} [DecidableEq κ] (m : List (κ × ν)) (k : κ) (v : ν)
    (h : (m.map Prod.fst).Nodup) : ((mapSet m k v).map Prod.fst).Nodup := by
  rw [keys_mapSet]
  split
  · exact h
  · next hk => exact List.Nodup.append h (List.nodup_singleton k) (by simpa using hk)

/-- With keys free of repetition, a sum over the values is a sum over the
keys. -/
theorem sum_values_eq_sum_keys {κ ν : Type} [DecidableEq κ] (m : List (κ × ν)) (f : ν → ℚ)
    (h : (m.map Prod.fst).Nodup) :
    (m.map (fun entry => f entry.2)).sum
      = ((m.map Prod.fst).map (fun k => (mapGet m k).elim 0 f)).sum := by
  induction m with
  | nil => simp
  | cons entry rest ih =>
    obtain ⟨k0, v0⟩ := entry
    rw [List.map_cons, List.nodup_cons] at h
    have hrest : ∀ k ∈ rest.map Prod.fst, mapGet ((k0, v0) :: rest) k = mapGet rest k := by
      intro k hk
      have : ¬ k0 = k := fun e => h.1 (e ▸ hk)
      simp [mapGet, this]
    have h0 : mapGet ((k0, v0) :: rest) k0 = some v0 := by simp [mapGet]
    rw [List.map_cons, List.sum_cons, List.map_cons, List.map_cons, List.sum_cons, h0, ih h.2]
    congr 1
    apply congrArg
    apply List.map_congr_left
    intro k hk
    rw [hrest k hk]

/-- The dictionary `latestMargins` maps a market to the first snapshot of the
list for it, and has no entry for a market named as a property of
`Object.prototype`. -/
theorem latestMarginsOf_get (margins : List Margin) (marketId : MarketId) :
    mapGet (latestMarginsOf margins) marketId
      = if marketId ∈ objectPrototypeKeys then none
        else margins.find? (fun margin => margin.marketId = marketId) := by
  unfold latestMarginsOf
  induction margins using List.reverseRecOn with
  | nil => simp [mapGet]
  | append_singleton rest margin ih =>
    rw [List.foldl_append, List.foldl_cons, List.foldl_nil, List.find?_append]
    by_cases hk : marketId ∈ objectPrototypeKeys
    · rw [if_pos hk] at ih ⊢
      by_cases hm : margin.marketId ∈ objectPrototypeKeys
      · rw [if_pos hm]; exact ih
      · rw [if_neg hm]
        have hne : margin.marketId ≠ marketId := fun e => hm (e ▸ hk)
        split
        · rw [mapGet_mapSet, if_neg hne]; exact ih
        · exact ih
    · rw [if_neg hk] at ih ⊢
      rw [← ih]
      by_cases hm : margin.marketId ∈ objectPrototypeKeys
      · rw [if_pos hm]
        have hne : margin.marketId ≠ marketId := fun e => hk (e ▸ hm)
        simp [hne]
      · rw [if_neg hm]
        split
        · next hnone =>
          rw [mapGet_mapSet]
          by_cases he : margin.marketId = marketId
          · subst he; simp [hnone]
          · simp [he]
        · next old hsome =>
          by_cases he : margin.marketId = marketId
          · subst he; simp [hsome]
          · simp [he]

/-- The keys of `latestMargins` have no repetition. -/
theorem latestMarginsOf_nodup (margins : List Margin) :
    ((latestMarginsOf margins).map Prod.fst).Nodup := by
  unfold latestMarginsOf
  induction margins using List.reverseRecOn with
  | nil => simp
  | append_singleton rest margin ih =>
    rw [List.foldl_append, List.foldl_cons, List.foldl_nil]
    split
    · exact ih
    · split
      · exact nodup_keys_mapSet _ _ _ ih
      · exact ih

/-- Every key of `latestMargins` is the market of a snapshot of the list and is
not the name of a property of `Object.prototype`. -/
theorem latestMarginsOf_keys_subset (margins : List Margin) (marketId : MarketId)
    (h : marketId ∈ (latestMarginsOf margins).map Prod.fst) :
    marketId ∉ objectPrototypeKeys ∧ ∃ margin ∈ margins, margin.marketId = marketId := by
  have hget : mapGet (latestMarginsOf margins) marketId ≠ none := by
    rw [Ne, mapGet_eq_none_iff]; exact fun hn => hn h
  rw [latestMarginsOf_get] at hget
  by_cases hk : marketId ∈ objectPrototypeKeys
  · rw [if_pos hk] at hget; exact absurd rfl hget
  · rw [if_neg hk] at hget
    refine ⟨hk, ?_⟩
    rcases hf : margins.find? (fun margin => margin.marketId = marketId) with _ | margin
    · exact absurd hf hget
    · exact ⟨margin, List.mem_of_find?_eq_some hf, by simpa using List.find?_some hf⟩

/-- For a market holding a pending ordinary wager and not named as a property
of `Object.prototype`, `latestMargins` holds the current snapshot of the user
for it. -/
theorem latestMargins_get_eq_latestSnapshot (db : Db) (userId : UserId)
    (ids : List MarketId) (marketId : MarketId) (h : marketId ∈ ids)
    (hk : marketId ∉ objectPrototypeKeys) :
    mapGet (latestMarginsOf (db.margins.filter (fun margin =>
        margin.userId = userId ∧ margin.marketId ∈ ids)).reverse) marketId
      = latestSnapshot db userId marketId := by
  rw [latestMarginsOf_get, if_neg hk, ← List.filter_reverse, List.find?_filter]
  unfold latestSnapshot
  congr 1
  funext margin
  by_cases he : margin.marketId = marketId
  · subst he; simp [h]
  · simp [he]

/-- A market holding a pending ordinary wager of the user is the market of such
a wager. -/
theorem mem_pendingOrdinaryMarkets (db : Db) (userId : UserId) (marketId : MarketId)
    (h : marketId ∈ pendingOrdinaryMarkets db userId) :
    ∃ bet ∈ db.bets, bet.userId = userId ∧ bet.status = .pending ∧
      bet.category ≠ .fancy ∧ bet.marketId = marketId := by
  unfold pendingOrdinaryMarkets at h
  rw [mem_distinct, List.mem_map] at h
  obtain ⟨bet, hbet, hkey⟩ := h
  rw [List.mem_filter] at hbet
  have hcond := hbet.2
  simp only [decide_eq_true_eq] at hcond
  exact ⟨bet, hbet.1, hcond.1, hcond.2.1, hcond.2.2, hkey⟩

/-- When no pending wager of the user, ordinary or tiered, is on a market named
as a property of `Object.prototype`, `calculateTotalExposure` is the sum of the
worst cases of the current snapshot of each market holding a pending ordinary
wager of the user, plus, for every event holding pending tiered wagers, the sum
of the absolute values of the event's per-market exposures. -/
theorem calculateTotalExposure_eq_spec (db : Db) (userId : UserId)
    (hplain : ∀ bet ∈ db.bets, bet.userId = userId → bet.status = .pending →
      bet.marketId ∉ objectPrototypeKeys) :
    calculateTotalExposure db userId = totalExposureSpec db userId := by
  have hkeys : ∀ marketId ∈ pendingOrdinaryMarkets db userId,
      marketId ∉ objectPrototypeKeys := by
    intro marketId hm
    obtain ⟨bet, hbet, hu, hp, _, hkey⟩ := mem_pendingOrdinaryMarkets db userId marketId hm
    rw [← hkey]
    exact hplain bet hbet hu hp
  have hmain : calculateTotalExposure db userId = totalExposureSpec db userId := by
    unfold calculateTotalExposure totalExposureSpec
    simp only []
    rw [foldl_add_eq_sum (fun eventId =>
      ((calculateFancyExposure db userId eventId).map (·.2)).foldl
        (fun sum value => sum + |value|) 0)]
    have hinner : ∀ eventId,
        ((calculateFancyExposure db userId eventId).map (·.2)).foldl
          (fun sum value => sum + |value|) 0
        = ((calculateFancyExposure db userId eventId).map (fun entry => |entry.2|)).sum := by
      intro eventId
      rw [foldl_add_eq_sum (fun value : ℚ => |value|), zero_add, List.map_map]
      rfl
    simp only [hinner]
    rw [foldl_add_eq_sum maxLossOf, zero_add, List.map_map]
    congr 1
    change (List.map (fun entry => maxLossOf entry.2)
      (latestMarginsOf (db.margins.filter (fun margin =>
        margin.userId = userId ∧ margin.marketId ∈ pendingOrdinaryMarkets db userId)).reverse)).sum
      = _
    have hnd : (pendingOrdinaryMarkets db userId).Nodup := nodup_distinct _
    rw [sum_values_eq_sum_keys _ _ (latestMarginsOf_nodup _),
      ← List.sum_toFinset _ (latestMarginsOf_nodup _), ← List.sum_toFinset _ hnd]
    have hsub : (List.map Prod.fst (latestMarginsOf (db.margins.filter (fun margin =>
        margin.userId = userId ∧
          margin.marketId ∈ pendingOrdinaryMarkets db userId)).reverse)).toFinset
        ⊆ (pendingOrdinaryMarkets db userId).toFinset := by
      intro marketId hm
      obtain ⟨_, margin, hmem, hkey⟩ :=
        latestMarginsOf_keys_subset _ marketId (List.mem_toFinset.mp hm)
      rw [List.mem_reverse, List.mem_filter] at hmem
      have := hmem.2
      simp only [decide_eq_true_eq] at this
      rw [List.mem_toFinset, ← hkey]
      exact this.2
    rw [Finset.sum_subset hsub]
    · apply Finset.sum_congr rfl
      intro marketId hm
      rw [latestMargins_get_eq_latestSnapshot db userId _ marketId (List.mem_toFinset.mp hm)
        (hkeys marketId (List.mem_toFinset.mp hm))]
    · intro marketId _ hnot
      rw [List.mem_toFinset, ← mapGet_eq_none_iff] at hnot
      rw [hnot]
      rfl
  exact hmain

/-- Without a pending wager of the user the total exposure is 0. -/
theorem calculateTotalExposure_no_pending (db : Db) (userId : UserId)
    (hnone : ∀ bet ∈ db.bets, bet.userId = userId → bet.status ≠ .pending) :
    calculateTotalExposure db userId = 0 := by
  have h1 : db.bets.filter (fun bet =>
      bet.userId = userId ∧ bet.status = .pending ∧ bet.category ≠ .fancy) = [] := by
    rw [List.filter_eq_nil_iff]
    intro bet hbet
    simp only [decide_eq_true_eq, not_and]
    intro hu hp
    exact absurd hp (hnone bet hbet hu)
  have h2 : db.bets.filter (fun bet =>
      bet.userId = userId ∧ bet.status = .pending ∧ bet.category = .fancy) = [] := by
    rw [List.filter_eq_nil_iff]
    intro bet hbet
    simp only [decide_eq_true_eq, not_and]
    intro hu hp
    exact absurd hp (hnone bet hbet hu)
  rw [calculateTotalExposure_eq_spec db userId
    (fun bet hbet hu hp => absurd hp (hnone bet hbet hu))]
  unfold totalExposureSpec pendingOrdinaryMarkets pendingTieredEvents
  rw [h1, h2]
  simp [distinct]

/-- C7 (code at the failing input): when no pending wager of the user is on a
market named as a property of `Object.prototype`, `calculateTotalExposure` is
the sum of the worst cases of the current snapshot of each market holding a
pending ordinary wager, plus, for every event holding pending tiered wagers,
the sum of the absolute values of its per-market exposures, and it is 0 without
pending wagers.  A match odds back wager (stake 50, price 3) on selection A of
the market named constructor is accepted and leaves the snapshot
(A, 100, -50), whose worst case is 50: the sum of the claim is 50, while
`calculateTotalExposure` returns 0 because the plain-object dictionary never
stores a snapshot under that name.  The same wager on the market named m
gives 50. -/
theorem calculateTotalExposure_prototype_divergence :
    (∀ (db : Db) (userId : UserId),
      (∀ bet ∈ db.bets, bet.userId = userId → bet.status = .pending →
        bet.marketId ∉ objectPrototypeKeys) →
      calculateTotalExposure db userId = totalExposureSpec db userId) ∧
    (∀ (db : Db) (userId : UserId),
      (∀ bet ∈ db.bets, bet.userId = userId → bet.status ≠ .pending) →
      calculateTotalExposure db userId = 0) ∧
    placeBet oracleDb 7 constructorBody (some [()]) 1 = .ok constructorDb ∧
    pendingOrdinaryMarkets constructorDb 7 = ["constructor"] ∧
    latestSnapshot constructorDb 7 "constructor"
      = some ⟨7, "e", "constructor", "A", 100, -50⟩ ∧
    maxLossOf ⟨7, "e", "constructor", "A", 100, -50⟩ = 50 ∧
    totalExposureSpec constructorDb 7 = 50 ∧
    calculateTotalExposure constructorDb 7 = 0 ∧
    calculateTotalExposure overdrawnDb 7 = 50 :=
  ⟨calculateTotalExposure_eq_spec, calculateTotalExposure_no_pending, by decide!, by decide!,
    by decide!, by decide!, by decide!, by decide!, by decide!⟩

/-! ## Theorems: settlement -/

/-- Reading a key in two dictionaries laid end to end. -/
theorem mapGet_append {κ ν : Type} [DecidableEq κ] (m₁ m₂ : List (κ × ν)) (k : κ) :
    mapGet (m₁ ++ m₂) k = (mapGet m₁ k).orElse (fun _ => mapGet m₂ k) := by
  induction m₁ with
  | nil => simp [mapGet]
  | cons entry rest ih =>
    obtain ⟨k0, v0⟩ := entry
    by_cases h0 : k0 = k <;> simp [mapGet, h0, ih]

/-- The win flag of a wager whose market has a known outcome follows the win
rule; a wager without a known outcome is not decided. -/
theorem decideBet_spec (matchOddsResults bookmakerResults : List (MarketId × SelectionId))
    (fancyResults : List (MarketId × ℚ)) (bet : Bet) :
    (∀ outcome, knownOutcome matchOddsResults bookmakerResults fancyResults bet = some outcome →
      ∃ isWinningBet, decideBet matchOddsResults bookmakerResults fancyResults bet
          = some isWinningBet ∧ (isWinningBet = true ↔ winsSpec bet outcome)) ∧
    (knownOutcome matchOddsResults bookmakerResults fancyResults bet = none →
      decideBet matchOddsResults bookmakerResults fancyResults bet = none) := by
  unfold knownOutcome decideBet
  constructor
  · intro outcome hk
    rcases hc : bet.category with _ | _ | _ <;> simp only [hc] at hk ⊢
    · rcases hg : mapGet matchOddsResults bet.marketId with _ | o
      · simp [hg] at hk
      · simp only [hg, Option.map_some', Option.some.injEq] at hk
        subst hk
        simp [winsSpec]
    · rcases hg : mapGet bookmakerResults bet.marketId with _ | o
      · simp [hg] at hk
      · simp only [hg, Option.map_some', Option.some.injEq] at hk
        subst hk
        simp [winsSpec]
    · rcases hg : mapGet fancyResults bet.marketId with _ | o
      · simp [hg] at hk
      · simp only [hg, Option.map_some', Option.some.injEq] at hk
        subst hk
        rcases hf : bet.fancyNumber with _ | n <;> simp [winsSpec, fancyLe, fancyGt, hf]
  · intro hk
    rcases hc : bet.category with _ | _ | _ <;> simp only [hc] at hk ⊢ <;>
      simp only [Option.map_eq_none'] at hk <;> simp [hk]

/-- The status update a wager contributes to `betUpdates`. -/
theorem settleLoop_betUpdates (matchOddsResults bookmakerResults : List (MarketId × SelectionId))
    (fancyResults : List (MarketId × ℚ)) (pendingBets : List Bet) :
    (settleLoop matchOddsResults bookmakerResults fancyResults pendingBets).betUpdates
      = pendingBets.filterMap (fun bet =>
          (decideBet matchOddsResults bookmakerResults fancyResults bet).map
            (fun isWinningBet => (bet.id, if isWinningBet then Status.won else Status.lost))) := by
  have hgen : ∀ (acc : Settlement),
      (pendingBets.foldl (settleStep matchOddsResults bookmakerResults fancyResults) acc).betUpdates
        = acc.betUpdates ++ pendingBets.filterMap (fun bet =>
          (decideBet matchOddsResults bookmakerResults fancyResults bet).map
            (fun isWinningBet => (bet.id, if isWinningBet then Status.won else Status.lost))) := by
    induction pendingBets with
    | nil => intro acc; simp
    | cons bet rest ih =>
      intro acc
      rw [List.foldl_cons, ih, List.filterMap_cons]
      unfold settleStep
      rcases decideBet matchOddsResults bookmakerResults fancyResults bet with _ | w <;> simp
  simpa [settleLoop] using hgen ⟨[], []⟩

/-- The status of a wager after one `updateOne`. -/
theorem find_updateBetStatus (bets : List Bet) (id i : BetId) (status : Status) :
    ((updateBetStatus bets id status).find? (fun bet => bet.id = i)).map (·.status)
      = if i = id then (bets.find? (fun bet => bet.id = i)).map (fun _ => status)
        else (bets.find? (fun bet => bet.id = i)).map (·.status) := by
  induction bets with
  | nil => simp [updateBetStatus]
  | cons bet rest ih =>
    unfold updateBetStatus
    by_cases h1 : bet.id = id
    · by_cases h2 : i = id
      · subst h2; simp [h1]
      · have h4 : ¬ bet.id = i := fun e => h2 (e ▸ h1)
        have h5 : ¬ id = i := fun e => h2 e.symm
        simp [h1, h2, h4, h5]
    · by_cases h3 : bet.id = i
      · have : ¬ i = id := fun e => h1 (e ▸ h3)
        simp [h1, h3, this]
      · simp only [h1, if_false, List.find?_cons, h3, decide_False, ih]

/-- The status of a wager after `Bet.bulkWrite`: that of the last update for
its id, if any. -/
theorem find_bulkWrite (updates : List (BetId × Status)) (bets : List Bet) (i : BetId) :
    ((updates.foldl (fun bets u => updateBetStatus bets u.1 u.2) bets).find?
        (fun bet => bet.id = i)).map (·.status)
      = ((bets.find? (fun bet => bet.id = i)).map (·.status)).map
          (fun status => (mapGet updates.reverse i).getD status) := by
  induction updates using List.reverseRecOn with
  | nil =>
    rw [List.foldl_nil]
    cases List.find? (fun bet => decide (bet.id = i)) bets <;> rfl
  | append_singleton rest u ih =>
    rw [List.foldl_append, List.foldl_cons, List.foldl_nil, find_updateBetStatus,
      List.reverse_append, List.reverse_singleton, List.singleton_append]
    obtain ⟨j, s⟩ := u
    by_cases h : i = j
    · subst h
      have hfind : ∀ b : List Bet, (b.find? (fun bet => bet.id = i)).map (fun _ => s)
          = ((b.find? (fun bet => bet.id = i)).map (·.status)).map (fun _ => s) := by
        intro b
        cases List.find? (fun bet => decide (bet.id = i)) b <;> rfl
      rw [if_pos rfl, hfind, ih]
      cases List.find? (fun bet => decide (bet.id = i)) bets <;> simp [mapGet]
    · have hne : ¬ j = i := fun e => h e.symm
      rw [if_neg h, ih]
      cases List.find? (fun bet => decide (bet.id = i)) bets <;> simp [mapGet, hne]

/-- In a list without repeated keys, the entry produced for an element is the
one read under its key. -/
theorem mapGet_reverse_filterMap {α ν : Type} (key : α → Nat) (g : α → Option ν)
    (l : List α) (hn : (l.map key).Nodup) (x : α) (hx : x ∈ l) :
    mapGet (l.filterMap (fun a => (g a).map (fun v => (key a, v)))).reverse (key x) = g x := by
  induction l with
  | nil => simp at hx
  | cons a rest ih =>
    rw [List.map_cons, List.nodup_cons] at hn
    rw [List.filterMap_cons]
    have hkeys : ∀ y ∈ rest, key y ≠ key a := by
      intro y hy e
      exact hn.1 (e ▸ List.mem_map_of_mem key hy)
    have hnone : mapGet (rest.filterMap (fun a => (g a).map (fun v => (key a, v)))).reverse
        (key a) = none := by
      rw [mapGet_eq_none_iff]
      intro hmem
      simp only [List.map_reverse, List.mem_reverse, List.mem_map, List.mem_filterMap,
        Option.map_eq_some'] at hmem
      obtain ⟨⟨k, v⟩, ⟨y, hy, w, _, hw⟩, hk⟩ := hmem
      simp only [Prod.mk.injEq] at hw
      exact hkeys y hy (hw.1.trans hk)
    rcases List.mem_cons.mp hx with rfl | hxr
    · rcases hg : g x with _ | v
      · simpa [hg] using hnone
      · simp only [hg, Option.map_some', List.reverse_cons, mapGet_append, hnone]
        simp [mapGet]
    · have hne := hkeys x hxr
      rcases hg : g a with _ | v
      · simpa [hg] using ih hn.2 hxr
      · simp only [hg, Option.map_some', List.reverse_cons, mapGet_append, ih hn.2 hxr]
        rcases g x with _ | w
        · simp [mapGet, Ne.symm hne]
        · simp

/-- With unique ids, looking a wager up by its id finds it. -/
theorem find_of_nodup_ids (bets : List Bet) (hid : (bets.map (·.id)).Nodup) (bet : Bet)
    (hmem : bet ∈ bets) : bets.find? (fun b => b.id = bet.id) = some bet := by
  induction bets with
  | nil => simp at hmem
  | cons b rest ih =>
    rw [List.map_cons, List.nodup_cons] at hid
    rcases List.mem_cons.mp hmem with rfl | hr
    · simp
    · have hne : ¬ b.id = bet.id := fun e => hid.1 (e ▸ List.mem_map_of_mem (·.id) hr)
      simp only [List.find?_cons, hne, decide_False]
      exact ih hid.2 hr

/-- The status a pending wager of the event has after `settleBets`: won or
lost as decided, pending when not decided. -/
theorem betStatus_settleBets (feed : OutcomeFeed) (db : Db) (eventId : EventId)
    (hid : (db.bets.map (·.id)).Nodup) (bet : Bet) (hp : IsPendingOf db eventId bet) :
    betStatus (settleBets feed db eventId) bet.id =
      some (match decideBet (matchOddsResultsOf feed (pendingBetsOf db eventId))
          (bookmakerResultsOf feed (pendingBetsOf db eventId))
          (fancyResultsOf feed (pendingBetsOf db eventId)) bet with
        | some true => .won
        | some false => .lost
        | none => .pending) := by
  have hmem : bet ∈ pendingBetsOf db eventId := by
    unfold pendingBetsOf
    rw [List.mem_filter]
    exact ⟨hp.1, by simp [hp.2.1, hp.2.2]⟩
  have hlen : (pendingBetsOf db eventId).length ≠ 0 := by
    intro h
    rw [List.length_eq_zero] at h
    rw [h] at hmem
    simp at hmem
  have hnd : ((pendingBetsOf db eventId).map (·.id)).Nodup :=
    List.Nodup.sublist (List.Sublist.map _ (List.filter_sublist _)) hid
  unfold betStatus settleBets
  simp only [hlen, if_false]
  rw [find_bulkWrite, find_of_nodup_ids db.bets hid bet hp.1, settleLoop_betUpdates]
  have hfun : (fun b : Bet =>
      (decideBet (matchOddsResultsOf feed (pendingBetsOf db eventId))
        (bookmakerResultsOf feed (pendingBetsOf db eventId))
        (fancyResultsOf feed (pendingBetsOf db eventId)) b).map
        (fun isWinningBet => (b.id, if isWinningBet then Status.won else Status.lost)))
      = fun b : Bet => ((decideBet (matchOddsResultsOf feed (pendingBetsOf db eventId))
        (bookmakerResultsOf feed (pendingBetsOf db eventId))
        (fancyResultsOf feed (pendingBetsOf db eventId)) b).map
        (fun isWinningBet => if isWinningBet then Status.won else Status.lost)).map
        (fun v => (b.id, v)) := by
    funext b
    rw [Option.map_map]
    rfl
  rw [hfun, mapGet_reverse_filterMap (·.id) _ _ hnd bet hmem]
  rcases decideBet (matchOddsResultsOf feed (pendingBetsOf db eventId))
      (bookmakerResultsOf feed (pendingBetsOf db eventId))
      (fancyResultsOf feed (pendingBetsOf db eventId)) bet with _ | w
  · simp [hp.2.2]
  · cases w <;> simp

/-- C8: with unique wager ids, `settleBets` marks a pending wager of the event
whose market has a known outcome won when the win rule of §4.5 holds and lost
otherwise; a back and a lay wager on the same selection (or the same
threshold) of a resolved market get opposite statuses. -/
theorem settleBets_win_rule (feed : OutcomeFeed) (db : Db) (eventId : EventId)
    (hid : (db.bets.map (·.id)).Nodup) :
    (∀ bet outcome, IsPendingOf db eventId bet →
      knownOutcome (matchOddsResultsOf feed (pendingBetsOf db eventId))
        (bookmakerResultsOf feed (pendingBetsOf db eventId))
        (fancyResultsOf feed (pendingBetsOf db eventId)) bet = some outcome →
      (winsSpec bet outcome → betStatus (settleBets feed db eventId) bet.id = some .won) ∧
      (¬ winsSpec bet outcome → betStatus (settleBets feed db eventId) bet.id = some .lost)) ∧
    (∀ back lay outcome, IsPendingOf db eventId back → IsPendingOf db eventId lay →
      back.type = .back → lay.type = .lay →
      back.category = lay.category → back.marketId = lay.marketId →
      (back.category ≠ .fancy → back.selectionId = lay.selectionId) →
      (back.category = .fancy →
        ∃ fancyThreshold, back.fancyNumber = some fancyThreshold ∧
          lay.fancyNumber = some fancyThreshold) →
      knownOutcome (matchOddsResultsOf feed (pendingBetsOf db eventId))
        (bookmakerResultsOf feed (pendingBetsOf db eventId))
        (fancyResultsOf feed (pendingBetsOf db eventId)) back = some outcome →
      (betStatus (settleBets feed db eventId) back.id = some .won ∧
          betStatus (settleBets feed db eventId) lay.id = some .lost) ∨
        (betStatus (settleBets feed db eventId) back.id = some .lost ∧
          betStatus (settleBets feed db eventId) lay.id = some .won)) := by
  have key : ∀ bet outcome, IsPendingOf db eventId bet →
      knownOutcome (matchOddsResultsOf feed (pendingBetsOf db eventId))
        (bookmakerResultsOf feed (pendingBetsOf db eventId))
        (fancyResultsOf feed (pendingBetsOf db eventId)) bet = some outcome →
      (winsSpec bet outcome → betStatus (settleBets feed db eventId) bet.id = some .won) ∧
      (¬ winsSpec bet outcome → betStatus (settleBets feed db eventId) bet.id = some .lost) := by
    intro bet outcome hp hk
    obtain ⟨w, hw, hiff⟩ := (decideBet_spec _ _ _ bet).1 outcome hk
    rw [betStatus_settleBets feed db eventId hid bet hp, hw]
    cases w
    · exact ⟨fun h => absurd (hiff.mpr h) (by simp), fun _ => rfl⟩
    · exact ⟨fun _ => rfl, fun h => absurd (hiff.mp rfl) h⟩
  refine ⟨key, ?_⟩
  intro back lay outcome hpb hpl htb htl hcat hmk hsel hfn hk
  have hk' : knownOutcome (matchOddsResultsOf feed (pendingBetsOf db eventId))
      (bookmakerResultsOf feed (pendingBetsOf db eventId))
      (fancyResultsOf feed (pendingBetsOf db eventId)) lay = some outcome := by
    rw [← hk]
    unfold knownOutcome
    rw [← hcat, ← hmk]
  have hopp : winsSpec back outcome ↔ ¬ winsSpec lay outcome := by
    unfold knownOutcome at hk
    rcases hc : back.category with _ | _ | _ <;> rw [hc] at hk hsel hfn <;>
      simp only [Option.map_eq_some'] at hk <;> obtain ⟨o, _, rfl⟩ := hk
    · simp [winsSpec, htb, htl, ← hsel (by simp)]
    · simp [winsSpec, htb, htl, ← hsel (by simp)]
    · obtain ⟨n, hn1, hn2⟩ := hfn rfl
      simp [winsSpec, htb, htl, hn1, hn2]
  by_cases hw : winsSpec back outcome
  · exact Or.inl ⟨(key back outcome hpb hk).1 hw, (key lay outcome hpl hk').2 (hopp.mp hw)⟩
  · have hl : winsSpec lay outcome := by
      by_contra hn
      exact hw (hopp.mpr hn)
    exact Or.inr ⟨(key back outcome hpb hk).2 hw, (key lay outcome hpl hk').1 hl⟩

/-- Witness of `settleBets_win_rule`: the back wager on the winning selection A
of `settleDb` is marked won. -/
theorem settleBets_win_rule_witness :
    betStatus (settleBets settleFeed settleDb "e") 1 = some .won :=
  ((settleBets_win_rule settleFeed settleDb "e" (by decide)).1
    ⟨1, 7, "e", "m", some "A", none, 1000, 5 / 2, .matchOdds, .back, 2500, .pending⟩
    (.selection "A") (by decide!) (by decide!)).1 (by decide)

/-- The loop over the pending wagers, one wager later. -/
theorem settleLoop_concat (matchOddsResults bookmakerResults : List (MarketId × SelectionId))
    (fancyResults : List (MarketId × ℚ)) (pendingBets : List Bet) (bet : Bet) :
    settleLoop matchOddsResults bookmakerResults fancyResults (pendingBets ++ [bet])
      = settleStep matchOddsResults bookmakerResults fancyResults
          (settleLoop matchOddsResults bookmakerResults fancyResults pendingBets) bet := by
  unfold settleLoop
  rw [List.foldl_append]
  rfl

/-- The entry of a user in `userUpdates`: absent without a decided wager, else
the sum of the balance changes of the user's decided wagers. -/
theorem settleLoop_userUpdates_get
    (matchOddsResults bookmakerResults : List (MarketId × SelectionId))
    (fancyResults : List (MarketId × ℚ)) (pendingBets : List Bet) (userId : UserId) :
    mapGet (settleLoop matchOddsResults bookmakerResults fancyResults pendingBets).userUpdates
        userId =
      if decidedDeltas matchOddsResults bookmakerResults fancyResults pendingBets userId = []
      then none
      else some (decidedDeltas matchOddsResults bookmakerResults fancyResults
        pendingBets userId).sum := by
  induction pendingBets using List.reverseRecOn with
  | nil => simp [settleLoop, decidedDeltas, mapGet]
  | append_singleton rest bet ih =>
    rw [settleLoop_concat]
    unfold decidedDeltas at ih ⊢
    rw [List.filter_append, List.filterMap_append]
    unfold settleStep
    rcases hd : decideBet matchOddsResults bookmakerResults fancyResults bet with _ | w
    · by_cases hu : bet.userId = userId
      · simp [hu, hd, ih]
      · simp [hu, ih]
    · simp only [mapGet_mapSet]
      by_cases hu : bet.userId = userId
      · subst hu
        rw [if_pos rfl, ih]
        by_cases he : List.filterMap (fun bet =>
            (decideBet matchOddsResults bookmakerResults fancyResults bet).map
              (balanceChange bet)) (List.filter (fun b => decide (b.userId = bet.userId)) rest) = []
        · simp [he, hd]
        · simp [he, hd]
      · simp [hu, ih]

/-- The keys of `userUpdates` have no repetition. -/
theorem settleLoop_userUpdates_nodup
    (matchOddsResults bookmakerResults : List (MarketId × SelectionId))
    (fancyResults : List (MarketId × ℚ)) (pendingBets : List Bet) :
    ((settleLoop matchOddsResults bookmakerResults fancyResults pendingBets).userUpdates.map
      Prod.fst).Nodup := by
  induction pendingBets using List.reverseRecOn with
  | nil => simp [settleLoop]
  | append_singleton rest bet ih =>
    rw [settleLoop_concat]
    unfold settleStep
    split
    · exact ih
    · exact nodup_keys_mapSet _ _ _ ih

/-- The document of a user after one `$inc`. -/
theorem find_incUserAmount (users : List User) (id userId : UserId) (amount : ℚ) :
    findUser (incUserAmount users id amount) userId
      = if userId = id then
          (findUser users userId).map (fun user => { user with amount := user.amount + amount })
        else findUser users userId := by
  unfold findUser
  induction users with
  | nil => simp [incUserAmount]
  | cons user rest ih =>
    unfold incUserAmount
    by_cases h1 : user.id = id
    · by_cases h2 : userId = id
      · subst h2; simp [h1]
      · have h4 : ¬ user.id = userId := fun e => h2 (e ▸ h1)
        have h5 : ¬ id = userId := fun e => h2 e.symm
        simp [h1, h2, h4, h5]
    · by_cases h3 : user.id = userId
      · have : ¬ userId = id := fun e => h1 (e ▸ h3)
        simp [h1, h3, this]
      · simp only [h1, if_false, List.find?_cons, h3, decide_False, ih]

/-- The document of a user after `User.bulkWrite`: the amount has grown by the
user's entry of `userUpdates`, if any. -/
theorem find_userBulkWrite (updates : List (UserId × ℚ)) (users : List User)
    (hn : (updates.map Prod.fst).Nodup) (userId : UserId) :
    findUser (updates.foldl (fun users u => incUserAmount users u.1 u.2) users) userId
      = (findUser users userId).map (fun user =>
          { user with amount := user.amount + (mapGet updates userId).getD 0 }) := by
  induction updates generalizing users with
  | nil =>
    rw [List.foldl_nil]
    cases findUser users userId <;> simp [mapGet]
  | cons u rest ih =>
    obtain ⟨k, a⟩ := u
    rw [List.map_cons, List.nodup_cons] at hn
    rw [List.foldl_cons, ih _ hn.2, find_incUserAmount]
    by_cases h : userId = k
    · subst h
      have hnone : mapGet rest userId = none := (mapGet_eq_none_iff rest userId).mpr hn.1
      cases findUser users userId <;> simp [mapGet, hnone]
    · have hne : ¬ k = userId := fun e => h e.symm
      cases findUser users userId <;> simp [mapGet, h, hne]

/-- The document of a user after `settleBets`: the amount has grown by the sum
of the balance changes of the user's decided wagers. -/
theorem findUser_settleBets (feed : OutcomeFeed) (db : Db) (eventId : EventId)
    (userId : UserId) :
    findUser (settleBets feed db eventId).users userId
      = (findUser db.users userId).map (fun user =>
          { user with amount := user.amount +
            (decidedDeltas (matchOddsResultsOf feed (pendingBetsOf db eventId))
              (bookmakerResultsOf feed (pendingBetsOf db eventId))
              (fancyResultsOf feed (pendingBetsOf db eventId))
              (pendingBetsOf db eventId) userId).sum }) := by
  unfold settleBets
  by_cases hlen : (pendingBetsOf db eventId).length = 0
  · simp only [hlen, if_true]
    rw [List.length_eq_zero.mp hlen]
    cases findUser db.users userId <;> simp [decidedDeltas]
  · simp only [hlen, if_false]
    rw [find_userBulkWrite _ _ (settleLoop_userUpdates_nodup _ _ _ _),
      settleLoop_userUpdates_get]
    split <;> rename_i he
    · rw [he]; rfl
    · rfl

/-- A market for which the feed names no winner has no entry in the result
map. -/
theorem formatResults_get_none {ω : Type} (value : List (FeedMarket ω)) (marketId : MarketId)
    (h : ∀ m ∈ value, m.marketId = marketId → m.winner = none) :
    mapGet (formatResults (.fulfilled value)) marketId = none := by
  unfold formatResults
  simp only []
  induction value using List.reverseRecOn with
  | nil => simp [mapGet]
  | append_singleton rest m ih =>
    rw [List.foldl_append, List.foldl_cons, List.foldl_nil]
    have ih' := ih (fun x hx => h x (List.mem_append_left _ hx))
    rcases hw : m.winner with _ | w
    · exact ih'
    · have hne : ¬ m.marketId = marketId := by
        intro e
        have := h m (List.mem_append_right _ (List.mem_singleton_self m)) e
        rw [hw] at this
        exact absurd this (by simp)
      simp only [mapGet_mapSet, if_neg hne]
      exact ih'

/-- C9: with unique wager ids, a pending wager of the event whose market has no
outcome in the result map of its category passes through the loop of
`settleBets` without a status update and without a contribution to the balance
deltas, and it is pending after the pass; a user all of whose pending wagers of
the event are such has no entry in `userUpdates` and the same document after
the pass. -/
theorem settleBets_unknown_outcome (feed : OutcomeFeed) (db : Db) (eventId : EventId)
    (hid : (db.bets.map (·.id)).Nodup) (bet : Bet) (hp : IsPendingOf db eventId bet)
    (hk : knownOutcome (matchOddsResultsOf feed (pendingBetsOf db eventId))
      (bookmakerResultsOf feed (pendingBetsOf db eventId))
      (fancyResultsOf feed (pendingBetsOf db eventId)) bet = none) :
    (∀ acc, settleStep (matchOddsResultsOf feed (pendingBetsOf db eventId))
      (bookmakerResultsOf feed (pendingBetsOf db eventId))
      (fancyResultsOf feed (pendingBetsOf db eventId)) acc bet = acc) ∧
    bet.id ∉ (settleLoop (matchOddsResultsOf feed (pendingBetsOf db eventId))
      (bookmakerResultsOf feed (pendingBetsOf db eventId))
      (fancyResultsOf feed (pendingBetsOf db eventId))
      (pendingBetsOf db eventId)).betUpdates.map Prod.fst ∧
    betStatus (settleBets feed db eventId) bet.id = some .pending ∧
    (∀ userId,
      (∀ b, IsPendingOf db eventId b → b.userId = userId →
        knownOutcome (matchOddsResultsOf feed (pendingBetsOf db eventId))
          (bookmakerResultsOf feed (pendingBetsOf db eventId))
          (fancyResultsOf feed (pendingBetsOf db eventId)) b = none) →
      mapGet (settleLoop (matchOddsResultsOf feed (pendingBetsOf db eventId))
        (bookmakerResultsOf feed (pendingBetsOf db eventId))
        (fancyResultsOf feed (pendingBetsOf db eventId))
        (pendingBetsOf db eventId)).userUpdates userId = none ∧
      findUser (settleBets feed db eventId).users userId = findUser db.users userId) := by
  have hd := (decideBet_spec _ _ _ bet).2 hk
  have hmemP : ∀ b, b ∈ pendingBetsOf db eventId ↔ IsPendingOf db eventId b := by
    intro b
    unfold pendingBetsOf IsPendingOf
    rw [List.mem_filter]
    simp
  refine ⟨?_, ?_, ?_, ?_⟩
  · intro acc
    unfold settleStep
    rw [hd]
  · rw [settleLoop_betUpdates]
    intro hmem
    simp only [List.mem_map, List.mem_filterMap, Option.map_eq_some'] at hmem
    obtain ⟨⟨k, v⟩, ⟨b, hb, w, hw, hkv⟩, hkey⟩ := hmem
    simp only [Prod.mk.injEq] at hkv
    have hbid : b.id = bet.id := hkv.1.trans hkey
    have hbeq : b = bet :=
      List.inj_on_of_nodup_map hid ((hmemP b).mp hb).1 hp.1 hbid
    rw [hbeq, hd] at hw
    exact absurd hw (by simp)
  · rw [betStatus_settleBets feed db eventId hid bet hp, hd]
  · intro userId hall
    have hnil : decidedDeltas (matchOddsResultsOf feed (pendingBetsOf db eventId))
        (bookmakerResultsOf feed (pendingBetsOf db eventId))
        (fancyResultsOf feed (pendingBetsOf db eventId))
        (pendingBetsOf db eventId) userId = [] := by
      unfold decidedDeltas
      rw [List.filterMap_eq_nil_iff]
      intro b hb
      rw [List.mem_filter] at hb
      have hbu : b.userId = userId := by simpa using hb.2
      rw [(decideBet_spec _ _ _ b).2 (hall b ((hmemP b).mp hb.1) hbu)]
      rfl
    refine ⟨?_, ?_⟩
    · rw [settleLoop_userUpdates_get, if_pos hnil]
    · rw [findUser_settleBets, hnil]
      cases findUser db.users userId <;> simp

/-- Witness of `settleBets_unknown_outcome`: the fancy wager of `settleDb`,
for which `settleFeed` has no outcome, stays pending. -/
theorem settleBets_unknown_outcome_witness :
    betStatus (settleBets settleFeed settleDb "e") 3 = some .pending :=
  (settleBets_unknown_outcome settleFeed settleDb "e" (by decide)
    ⟨3, 7, "e", "f", none, some 60, 500, 90, .fancy, .lay, 1000, .pending⟩
    (by decide!) (by decide!)).2.2.1

/-- C10: in the loop of `settleBets` the entry of a user in `userUpdates` is the
sum of the balance changes of the user's decided wagers, each being the profit
of `calculateProfitAndLoss` for a won wager and its loss for a lost one; the
entries are the same for every permutation of the pending wagers; and the pass
adds that sum to the user's amount. -/
theorem settleBets_user_delta (feed : OutcomeFeed) (db : Db) (eventId : EventId)
    (matchOddsResults bookmakerResults : List (MarketId × SelectionId))
    (fancyResults : List (MarketId × ℚ)) (pendingBets : List Bet) :
    (∀ userId,
      mapGet (settleLoop matchOddsResults bookmakerResults fancyResults pendingBets).userUpdates
          userId =
        if decidedDeltas matchOddsResults bookmakerResults fancyResults pendingBets userId = []
        then none
        else some (decidedDeltas matchOddsResults bookmakerResults fancyResults
          pendingBets userId).sum) ∧
    (∀ bet isWinningBet, ∃ pl,
      calculateProfitAndLoss bet.stake bet.odds bet.type.toString bet.category.toString
        = .ok pl ∧
      balanceChange bet isWinningBet = if isWinningBet then pl.profit else pl.loss) ∧
    (∀ permuted, pendingBets.Perm permuted → ∀ userId,
      mapGet (settleLoop matchOddsResults bookmakerResults fancyResults permuted).userUpdates
          userId =
        mapGet (settleLoop matchOddsResults bookmakerResults fancyResults
          pendingBets).userUpdates userId) ∧
    (∀ userId, findUser (settleBets feed db eventId).users userId
      = (findUser db.users userId).map (fun user =>
          { user with amount := user.amount +
            (decidedDeltas (matchOddsResultsOf feed (pendingBetsOf db eventId))
              (bookmakerResultsOf feed (pendingBetsOf db eventId))
              (fancyResultsOf feed (pendingBetsOf db eventId))
              (pendingBetsOf db eventId) userId).sum })) := by
  refine ⟨settleLoop_userUpdates_get _ _ _ _, ?_, ?_, findUser_settleBets feed db eventId⟩
  · intro bet isWinningBet
    obtain ⟨pl, hpl⟩ := calculateProfitAndLoss_stored bet.stake bet.odds bet.type bet.category
    exact ⟨pl, hpl, by unfold balanceChange; rw [hpl]⟩
  · intro permuted hperm userId
    have hd : (decidedDeltas matchOddsResults bookmakerResults fancyResults pendingBets
        userId).Perm
        (decidedDeltas matchOddsResults bookmakerResults fancyResults permuted userId) :=
      (hperm.filter _).filterMap _
    rw [settleLoop_userUpdates_get, settleLoop_userUpdates_get, hd.sum_eq]
    by_cases he : decidedDeltas matchOddsResults bookmakerResults fancyResults pendingBets
        userId = []
    · have he' : decidedDeltas matchOddsResults bookmakerResults fancyResults permuted
          userId = [] := by
        rw [he] at hd
        exact List.perm_nil.mp hd.symm
      rw [if_pos he, if_pos he']
    · have he' : ¬ decidedDeltas matchOddsResults bookmakerResults fancyResults permuted
          userId = [] := by
        intro h
        rw [h] at hd
        exact he (List.perm_nil.mp hd)
      rw [if_neg he, if_neg he']

/-! ## Theorems: manual status changes -/

/-- A stored status is read back from its string. -/
theorem Status.ofString_toString (status : Status) :
    Status.ofString? status.toString = some status := by
  cases status <;> rfl

/-- The document of a user after `user.save()`. -/
theorem findUser_saveUserAmount (users : List User) (id userId : UserId) (amount : ℚ) :
    findUser (saveUserAmount users id amount) userId
      = if userId = id then
          (findUser users userId).map (fun user => { user with amount := amount })
        else findUser users userId := by
  unfold findUser
  induction users with
  | nil => simp [saveUserAmount]
  | cons user rest ih =>
    unfold saveUserAmount
    by_cases h1 : user.id = id
    · by_cases h2 : userId = id
      · subst h2; simp [h1]
      · have h4 : ¬ user.id = userId := fun e => h2 (e ▸ h1)
        have h5 : ¬ id = userId := fun e => h2 e.symm
        simp [h1, h2, h4, h5]
    · by_cases h3 : user.id = userId
      · have : ¬ userId = id := fun e => h1 (e ▸ h3)
        simp [h1, h3, this]
      · simp only [h1, if_false, List.find?_cons, h3, decide_False, ih]

/-- The document of a wager after `bet.save()`. -/
theorem find_updateBetStatus_doc (bets : List Bet) (id i : BetId) (status : Status) :
    (updateBetStatus bets id status).find? (fun bet => bet.id = i)
      = if i = id then
          (bets.find? (fun bet => bet.id = i)).map (fun bet => { bet with status := status })
        else bets.find? (fun bet => bet.id = i) := by
  induction bets with
  | nil => simp [updateBetStatus]
  | cons bet rest ih =>
    unfold updateBetStatus
    by_cases h1 : bet.id = id
    · by_cases h2 : i = id
      · subst h2; simp [h1]
      · have h4 : ¬ bet.id = i := fun e => h2 (e ▸ h1)
        have h5 : ¬ id = i := fun e => h2 e.symm
        simp [h1, h2, h4, h5]
    · by_cases h3 : bet.id = i
      · have : ¬ i = id := fun e => h1 (e ▸ h3)
        simp [h1, h3, this]
      · simp only [h1, if_false, List.find?_cons, h3, decide_False, ih]

/-- The result of `changeBetStatus` for a wager and a user that exist, by
current and requested status. -/
theorem changeBetStatus_found (db : Db) (betId : BetId) (bet : Bet) (user : User)
    (requested : Status) (hb : findBet db betId = some bet)
    (hu : findUser db.users bet.userId = some user) :
    changeBetStatus db betId requested.toString =
      if bet.status = requested then (db, .error (alreadyInStatus requested))
      else if ¬ legalTransition bet.status requested then
        (db, .error (illegalTransition bet.status requested))
      else if bet.status = .won ∧ user.amount < bet.payout - 2 * bet.stake then
        (db, .error ⟨"Insufficient balance to reverse winnings", 400⟩)
      else
        ({ db with
            users := saveUserAmount db.users user.id
              (user.amount + transitionAdjustment bet.status requested bet),
            bets := updateBetStatus db.bets bet.id requested },
          .ok { bet with status := requested }) := by
  unfold findBet at hb
  unfold changeBetStatus
  simp only [Status.ofString_toString, hb, hu]
  rcases hs : bet.status with _ | _ | _ <;> cases requested <;>
    simp [allowedTransitions, alreadyInStatus, illegalTransition, legalTransition,
      transitionAdjustment, Status.toString, hs, sub_eq_add_neg]
  split_ifs <;> simp_all [sub_eq_add_neg, add_assoc, add_comm]

/-- A valid status string is the string of the status it is read as. -/
theorem Status.toString_of_ofString {status : String} {requested : Status}
    (h : Status.ofString? status = some requested) : status = requested.toString := by
  unfold Status.ofString? at h
  split_ifs at h with h1 h2 h3 <;> simp at h <;> subst h <;> simp [Status.toString, *]

/-- A wager found by id has that id; a user found by id has that id. -/
theorem findBet_id {db : Db} {betId : BetId} {bet : Bet} (hb : findBet db betId = some bet) :
    bet.id = betId := by
  unfold findBet at hb
  simpa using List.find?_some hb

/-- A user found by id has that id. -/
theorem findUser_id {users : List User} {userId : UserId} {user : User}
    (hu : findUser users userId = some user) : user.id = userId := by
  unfold findUser at hu
  simpa using List.find?_some hu

/-- The state after a successful `changeBetStatus`: the wager has the requested
status and nothing else changed in it, the user has the adjusted balance. -/
theorem changeBetStatus_saved (db : Db) (betId : BetId) (bet : Bet) (user : User)
    (requested : Status) (amount : ℚ) (hb : findBet db betId = some bet)
    (hu : findUser db.users bet.userId = some user) :
    findBet { db with
        users := saveUserAmount db.users user.id amount,
        bets := updateBetStatus db.bets bet.id requested } betId
      = some { bet with status := requested } ∧
    findUser ({ db with
        users := saveUserAmount db.users user.id amount,
        bets := updateBetStatus db.bets bet.id requested } : Db).users bet.userId
      = some { user with amount := amount } := by
  have hid := findBet_id hb
  have huid := findUser_id hu
  constructor
  · unfold findBet at hb ⊢
    simp only []
    rw [find_updateBetStatus_doc, if_pos hid.symm, hb]
    rfl
  · simp only []
    rw [findUser_saveUserAmount, if_pos huid.symm, hu]
    rfl

/-- C12: for a wager and a user that exist, `changeBetStatus` passes the
legality check exactly for pending→won, pending→lost, won→lost and lost→won;
a request for the current status fails with the already-in-status error, the
other pairs (won→pending, lost→pending) fail with the illegal-transition error
naming both states; pending→won and pending→lost succeed for every balance. -/
theorem changeBetStatus_legality (db : Db) (betId : BetId) (bet : Bet) (user : User)
    (requested : Status) (hb : findBet db betId = some bet)
    (hu : findUser db.users bet.userId = some user) :
    (legalTransition bet.status requested ↔
      ((changeBetStatus db betId requested.toString).2 ≠ .error (alreadyInStatus requested) ∧
        (changeBetStatus db betId requested.toString).2
          ≠ .error (illegalTransition bet.status requested))) ∧
    (bet.status = requested →
      (changeBetStatus db betId requested.toString).2 = .error (alreadyInStatus requested)) ∧
    (bet.status ≠ requested → ¬ legalTransition bet.status requested →
      requested = .pending ∧
      (changeBetStatus db betId requested.toString).2
        = .error (illegalTransition bet.status requested)) ∧
    (bet.status = .pending → requested ≠ .pending →
      (changeBetStatus db betId requested.toString).2
        = .ok { bet with status := requested }) := by
  rw [changeBetStatus_found db betId bet user requested hb hu]
  rcases hs : bet.status with _ | _ | _ <;> cases requested <;>
    simp [legalTransition, alreadyInStatus, illegalTransition, Status.toString]
  split_ifs <;> simp

/-- Witness of `changeBetStatus_legality`: the pending wager of `pendingDb`,
asked to become won. -/
theorem changeBetStatus_legality_witness :
    (changeBetStatus pendingDb 1 "won").2
      = .ok ⟨1, 7, "e", "m", some "A", none, 100, 5 / 2, .matchOdds, .back, 250, .won⟩ :=
  (changeBetStatus_legality pendingDb 1
    ⟨1, 7, "e", "m", some "A", none, 100, 5 / 2, .matchOdds, .back, 250, .pending⟩
    ⟨7, 1000, "active"⟩ .won (by decide!) (by decide!)).2.2.2 rfl (by decide)

/-- C13: for a pending wager, `changeBetStatus` to won sets the balance to
`balance + payout - stake` and to lost sets it to `balance - stake`; in both
cases the stored wager differs from the old one in its status only. -/
theorem changeBetStatus_pending (db : Db) (betId : BetId) (bet : Bet) (user : User)
    (hb : findBet db betId = some bet) (hu : findUser db.users bet.userId = some user)
    (hp : bet.status = .pending) :
    ((changeBetStatus db betId "won").2 = .ok { bet with status := .won } ∧
      findUser (changeBetStatus db betId "won").1.users bet.userId
        = some { user with amount := user.amount + bet.payout - bet.stake } ∧
      findBet (changeBetStatus db betId "won").1 betId = some { bet with status := .won }) ∧
    ((changeBetStatus db betId "lost").2 = .ok { bet with status := .lost } ∧
      findUser (changeBetStatus db betId "lost").1.users bet.userId
        = some { user with amount := user.amount - bet.stake } ∧
      findBet (changeBetStatus db betId "lost").1 betId = some { bet with status := .lost }) := by
  have hw := changeBetStatus_found db betId bet user .won hb hu
  have hl := changeBetStatus_found db betId bet user .lost hb hu
  simp only [Status.toString, hp, legalTransition, transitionAdjustment] at hw hl
  simp only [reduceCtorEq, if_false, false_and, and_false, and_self, true_and, or_true, true_or,
    not_true_eq_false, or_false, false_or] at hw hl
  rw [hw, hl]
  have sw := changeBetStatus_saved db betId bet user .won
    (user.amount + (bet.payout - bet.stake)) hb hu
  have sl := changeBetStatus_saved db betId bet user .lost (user.amount + -bet.stake) hb hu
  rw [add_sub_assoc, sub_eq_add_neg user.amount bet.stake]
  exact ⟨⟨rfl, sw.2, sw.1⟩, ⟨rfl, sl.2, sl.1⟩⟩

/-- Witness of `changeBetStatus_pending`: the pending wager of `pendingDb`. -/
theorem changeBetStatus_pending_witness :
    findUser (changeBetStatus pendingDb 1 "won").1.users 7
      = some ⟨7, 1000 + 250 - 100, "active"⟩ :=
  (changeBetStatus_pending pendingDb 1
    ⟨1, 7, "e", "m", some "A", none, 100, 5 / 2, .matchOdds, .back, 250, .pending⟩
    ⟨7, 1000, "active"⟩ (by decide!) (by decide!) rfl).1.2.1

/-- C14 (as stated, refuted): a lost wager with stake 100 and payout 250 of a
user with balance 0 does not meet `balance ≥ payout - 2 * stake`, yet the
change to won succeeds, and the new balance is 250, not a debit. -/
theorem changeBetStatus_lost_to_won_counterexample :
    ¬ ((0 : ℚ) ≥ 250 - 2 * 100) ∧
    (changeBetStatus brokeLostDb 1 "won").2
      = .ok ⟨1, 7, "e", "m", some "A", none, 100, 5 / 2, .matchOdds, .back, 250, .won⟩ ∧
    findUser (changeBetStatus brokeLostDb 1 "won").1.users 7 = some ⟨7, 250, "active"⟩ ∧
    findUser (changeBetStatus lostDb 1 "won").1.users 7 = some ⟨7, 1250, "active"⟩ ∧
    (1000 : ℚ) - (250 + 2 * 100) ≠ 1250 := by
  decide!

/-- C14 (amended): for a wager in status lost and every balance,
`changeBetStatus` to won succeeds and sets the balance to `balance + payout`;
no balance check is made on this path. -/
theorem changeBetStatus_lost_to_won (db : Db) (betId : BetId) (bet : Bet) (user : User)
    (hb : findBet db betId = some bet) (hu : findUser db.users bet.userId = some user)
    (hl : bet.status = .lost) :
    (changeBetStatus db betId "won").2 = .ok { bet with status := .won } ∧
    findUser (changeBetStatus db betId "won").1.users bet.userId
      = some { user with amount := user.amount + bet.payout } ∧
    findBet (changeBetStatus db betId "won").1 betId = some { bet with status := .won } := by
  have hw := changeBetStatus_found db betId bet user .won hb hu
  simp only [Status.toString, hl, legalTransition, transitionAdjustment] at hw
  simp only [reduceCtorEq, if_false, false_and, and_false, and_self, true_and, or_true, true_or,
    not_true_eq_false, or_false, false_or] at hw
  rw [hw]
  have sw := changeBetStatus_saved db betId bet user .won (user.amount + bet.payout) hb hu
  exact ⟨rfl, sw.2, sw.1⟩

/-- Witness of `changeBetStatus_lost_to_won`: the lost wager of `brokeLostDb`. -/
theorem changeBetStatus_lost_to_won_witness :
    findUser (changeBetStatus brokeLostDb 1 "won").1.users 7 = some ⟨7, 0 + 250, "active"⟩ :=
  (changeBetStatus_lost_to_won brokeLostDb 1
    ⟨1, 7, "e", "m", some "A", none, 100, 5 / 2, .matchOdds, .back, 250, .lost⟩
    ⟨7, 0, "active"⟩ (by decide!) (by decide!) rfl).2.1

/-- C15 (code at the failing input): from balance 1000, correcting the lost
wager (stake 100, payout 250) to won and back to lost succeeds twice and leaves
the balance at 800; correcting a won wager to lost and back to won does the
same.  The balance is 200, twice the stake, below its starting value. -/
theorem changeBetStatus_round_trip_drift :
    (changeBetStatus lostDb 1 "won").2
      = .ok ⟨1, 7, "e", "m", some "A", none, 100, 5 / 2, .matchOdds, .back, 250, .won⟩ ∧
    (changeBetStatus (changeBetStatus lostDb 1 "won").1 1 "lost").2
      = .ok ⟨1, 7, "e", "m", some "A", none, 100, 5 / 2, .matchOdds, .back, 250, .lost⟩ ∧
    findUser lostDb.users 7 = some ⟨7, 1000, "active"⟩ ∧
    findUser (changeBetStatus (changeBetStatus lostDb 1 "won").1 1 "lost").1.users 7
      = some ⟨7, 800, "active"⟩ ∧
    findUser (changeBetStatus (changeBetStatus
        (changeBetStatus lostDb 1 "won").1 1 "lost").1 1 "won").1.users 7
      = some ⟨7, 1050, "active"⟩ := by
  decide!

/-- C16: a failed `changeBetStatus` leaves the database as it was; after a
successful one the stored wager has the requested status (and is otherwise the
old one), the transition is a legal one and the balance of the wager's user has
grown by the adjustment of that transition. -/
theorem changeBetStatus_atomic (db : Db) (betId : BetId) (status : String) :
    (∀ error, (changeBetStatus db betId status).2 = .error error →
      (changeBetStatus db betId status).1 = db) ∧
    (∀ saved, (changeBetStatus db betId status).2 = .ok saved →
      ∃ requested bet user, Status.ofString? status = some requested ∧
        findBet db betId = some bet ∧ findUser db.users bet.userId = some user ∧
        legalTransition bet.status requested ∧
        saved = { bet with status := requested } ∧
        findBet (changeBetStatus db betId status).1 betId
          = some { bet with status := requested } ∧
        findUser (changeBetStatus db betId status).1.users bet.userId
          = some { user with
              amount := user.amount + transitionAdjustment bet.status requested bet }) := by
  rcases hs : Status.ofString? status with _ | requested
  · simp [changeBetStatus, hs]
  · have hstr := Status.toString_of_ofString hs
    rcases hb : findBet db betId with _ | bet
    · unfold findBet at hb
      simp [changeBetStatus, hs, hb]
    · rcases hu : findUser db.users bet.userId with _ | user
      · unfold findBet at hb
        simp only [changeBetStatus, hs, hb, hu]
        split_ifs <;> simp
      · rw [hstr, changeBetStatus_found db betId bet user requested hb hu]
        have sv := changeBetStatus_saved db betId bet user requested
          (user.amount + transitionAdjustment bet.status requested bet) hb hu
        by_cases h1 : bet.status = requested
        · rw [if_pos h1]; simp
        · rw [if_neg h1]
          by_cases h2 : legalTransition bet.status requested
          · rw [if_neg (not_not.mpr h2)]
            by_cases h3 : bet.status = .won ∧ user.amount < bet.payout - 2 * bet.stake
            · rw [if_pos h3]; simp
            · rw [if_neg h3]
              refine ⟨by simp, ?_⟩
              intro saved hsaved
              simp only [Except.ok.injEq] at hsaved
              exact ⟨requested, bet, user, rfl, rfl, hu, h2, hsaved.symm, sv.1, sv.2⟩
          · rw [if_pos h2]; simp

/-! ## Theorems: input errors and the end-to-end oracle -/

/-- C17: `calculateProfitAndLoss` fails with the invalid-category error exactly
when the lower-cased, trimmed category is none of match odds, bookmaker, fancy;
with a valid category it fails with the invalid-side error exactly when the
lower-cased, trimmed side is neither back nor lay; it returns a pair exactly
when both are valid.  Lower-casing is the one of ECMAScript: the side `bac`
followed by the Kelvin sign U+212A is the side back, capitals and surrounding
white space are accepted, and a category or side with another character is
refused. -/
theorem calculateProfitAndLoss_errors (stake odds : ℚ) (type category : String) :
    ((calculateProfitAndLoss stake odds type category
        = .error "Invalid category! Must be 'match odds', 'bookmaker', or 'fancy'." ↔
      trim (toLowerCase category) ∉ ["match odds", "bookmaker", "fancy"]) ∧
    (trim (toLowerCase category) ∈ ["match odds", "bookmaker", "fancy"] →
      (calculateProfitAndLoss stake odds type category
          = .error "Invalid bet type! Must be 'back' or 'lay'." ↔
        trim (toLowerCase type) ∉ ["back", "lay"])) ∧
    ((∃ pl, calculateProfitAndLoss stake odds type category = .ok pl) ↔
      (trim (toLowerCase category) ∈ ["match odds", "bookmaker", "fancy"] ∧
        trim (toLowerCase type) ∈ ["back", "lay"]))) ∧
    toLowerCase kelvinSide = "back" ∧
    calculateProfitAndLoss 100 2 kelvinSide "match odds" = .ok ⟨100, -100⟩ ∧
    calculateProfitAndLoss 100 2 " LAY " "Match Odds " = .ok ⟨100, -100⟩ ∧
    calculateProfitAndLoss 100 2 "back" dottedCategory
      = .error "Invalid category! Must be 'match odds', 'bookmaker', or 'fancy'." ∧
    calculateProfitAndLoss 100 2 "bäck" "match odds"
      = .error "Invalid bet type! Must be 'back' or 'lay'." := by
  refine ⟨?_, by decide!, by decide!, by decide!, by decide!, by decide!⟩
  unfold calculateProfitAndLoss
  by_cases hc : trim (toLowerCase category) ∈ ["match odds", "bookmaker", "fancy"]
  · by_cases ht : trim (toLowerCase type) ∈ ["back", "lay"]
    · have hc' := hc
      have ht' := ht
      simp only [List.mem_cons, List.mem_singleton, List.not_mem_nil, or_false] at hc' ht'
      rcases hc' with h | h | h <;> rcases ht' with g | g <;> simp [h, g]
    · have hc' := hc
      simp only [List.mem_cons, List.mem_singleton, List.not_mem_nil, or_false] at hc'
      have ht' : ¬ (trim (toLowerCase type) = "back" ∨ trim (toLowerCase type) = "lay") := by
        simpa using ht
      rcases hc' with h | h | h <;> simp [h, ht, ht']
  · have hc' : ¬ (trim (toLowerCase category) = "match odds" ∨
        trim (toLowerCase category) = "bookmaker" ∨ trim (toLowerCase category) = "fancy") := by
      simpa using hc
    simp [hc, hc']

/-- C18: the oracle of §8.  The first wager has profit 1500, loss -1000 and
payout 2500, and with no prior snapshot the snapshot (A, 1500, -1000) is
stored; the second wager has profit 1000 and loss -500, folding it gives
`newProfit = 1000` and `newLoss = 0`, and the snapshot stored for it is keyed
by selection B. -/
theorem oracle_end_to_end :
    calculateProfitAndLoss 1000 (5 / 2) "back" "match odds" = .ok ⟨1500, -1000⟩ ∧
    placeBet oracleDb 7 oracleFirst (some [()]) 1 = .ok oracleDb1 ∧
    calculateProfitAndLoss 500 3 "back" "match odds" = .ok ⟨1000, -500⟩ ∧
    calculateNewMargin ⟨7, "e", "m", "A", 1500, -1000⟩ "B" "back" 1000 (-500) = ⟨1000, 0⟩ ∧
    placeBet oracleDb1 7 oracleSecond (some [()]) 2 = .ok oracleDb2 ∧
    (findLatestMargin oracleDb2 7 "e" "m").map (·.selectionId) = some "B" := by
  decide!

/-! ## Theorems: sign of the tiered exposure, batches of the feed -/

/-- An entry of a dictionary after a write is an old entry or the written one. -/
theorem mem_mapSet {κ ν : Type} [DecidableEq κ] (m : List (κ × ν)) (k : κ) (v : ν)
    (entry : κ × ν) (h : entry ∈ mapSet m k v) : entry ∈ m ∨ entry = (k, v) := by
  induction m with
  | nil => simpa [mapSet] using h
  | cons head rest ih =>
    obtain ⟨k0, v0⟩ := head
    unfold mapSet at h
    by_cases h0 : k0 = k
    · rw [if_pos h0] at h
      rcases List.mem_cons.mp h with h | h
      · exact Or.inr h
      · exact Or.inl (List.mem_cons_of_mem _ h)
    · rw [if_neg h0] at h
      rcases List.mem_cons.mp h with h | h
      · exact Or.inl (h ▸ List.mem_cons_self _ _)
      · rcases ih h with h | h
        · exact Or.inl (List.mem_cons_of_mem _ h)
        · exact Or.inr h

/-- The wagers of every list of `marketBets` are wagers of the query. -/
theorem groupByMarket_mem (bets : List Bet) (entry : MarketId × List Bet)
    (h : entry ∈ groupByMarket bets) : ∀ bet ∈ entry.2, bet ∈ bets := by
  unfold groupByMarket at h
  induction bets using List.reverseRecOn generalizing entry with
  | nil => simp at h
  | append_singleton rest last ih =>
    rw [List.foldl_append, List.foldl_cons, List.foldl_nil] at h
    intro bet hbet
    split at h
    · rcases mem_mapSet _ _ _ _ h with h | h
      · exact List.mem_append_left _ (ih entry h bet hbet)
      · rw [h] at hbet
        simp only [List.mem_singleton] at hbet
        rw [hbet]; simp
    · next betList hget =>
      rcases mem_mapSet _ _ _ _ h with h | h
      · exact List.mem_append_left _ (ih entry h bet hbet)
      · rw [h] at hbet
        simp only [List.mem_append, List.mem_singleton] at hbet
        rcases hbet with hb | hb
        · have hent : (last.marketId, betList) ∈ List.foldl (fun marketBets bet =>
              match mapGet marketBets bet.marketId with
              | none => mapSet marketBets bet.marketId [bet]
              | some betList => mapSet marketBets bet.marketId (betList ++ [bet])) [] rest := by
            clear h ih
            generalize List.foldl (fun marketBets bet =>
              match mapGet marketBets bet.marketId with
              | none => mapSet marketBets bet.marketId [bet]
              | some betList => mapSet marketBets bet.marketId (betList ++ [bet])) [] rest
              = acc at hget
            induction acc with
            | nil => simp [mapGet] at hget
            | cons head tail iht =>
              obtain ⟨k0, v0⟩ := head
              unfold mapGet at hget
              by_cases h0 : k0 = last.marketId
              · rw [if_pos h0] at hget
                simp only [Option.some.injEq] at hget
                rw [h0, hget]; simp
              · rw [if_neg h0] at hget
                exact List.mem_cons_of_mem _ (iht hget)
          exact List.mem_append_left _ (ih _ hent bet hb)
        · rw [hb]; simp

/-- A left fold that adds non-negative amounts to a non-negative start is
non-negative. -/
theorem foldl_add_nonneg {α : Type} (f : α → ℚ) (l : List α) (a : ℚ) (ha : 0 ≤ a)
    (h : ∀ x ∈ l, 0 ≤ f x) : 0 ≤ l.foldl (fun acc x => acc + f x) a := by
  rw [foldl_add_eq_sum]
  have : 0 ≤ (l.map f).sum := by
    apply List.sum_nonneg
    intro y hy
    obtain ⟨x, hx, rfl⟩ := List.mem_map.mp hy
    exact h x hx
  linarith

/-- With no negative stake and no negative price the market body reports a
value that is not positive. -/
theorem marketExposureOf_nonpos (betList : List Bet)
    (h : ∀ bet ∈ betList, 0 ≤ bet.stake ∧ 0 ≤ bet.odds) : marketExposureOf betList ≤ 0 := by
  have hrate : ∀ bet ∈ betList, 0 ≤ bet.stake * bet.odds / 100 := fun bet hb =>
    div_nonneg (mul_nonneg (h bet hb).1 (h bet hb).2) (by norm_num)
  have hflat : 0 ≤ betList.foldl (fun exposure bet =>
      exposure + (if bet.type = .back then bet.stake else (bet.stake * bet.odds) / 100)) 0 := by
    apply foldl_add_nonneg (fun bet : Bet =>
      if bet.type = .back then bet.stake else (bet.stake * bet.odds) / 100) betList 0 le_rfl
    intro bet hb
    by_cases ht : bet.type = .back
    · simpa [ht] using (h bet hb).1
    · simpa [ht] using hrate bet hb
  unfold marketExposureOf
  simp only [neg_nonpos]
  split
  · next b l _ _ =>
    split_ifs
    · apply foldl_add_nonneg (fun bet : Bet => bet.stake)
      · apply add_nonneg
        · apply foldl_add_nonneg (fun bet : Bet => (bet.stake * bet.odds) / 100) _ 0 le_rfl
          intro bet hb
          exact hrate bet (List.mem_of_mem_take hb)
        · exact abs_nonneg _
      · intro bet hb
        exact (h bet (List.mem_of_mem_drop hb)).1
    · exact hflat
  · exact hflat

/-- C19 (as stated, refuted): `placeBet` accepts a tiered lay wager with stake
100 at price -50, and the exposure then reported for its market is +50. -/
theorem calculateFancyExposure_positive_counterexample :
    placeBet oracleDb 7 negativePriceBody (some [()]) 1 = .ok negativePriceDb ∧
    (∀ bet ∈ pendingFancyBets negativePriceDb 7 "e", 0 < bet.stake) ∧
    calculateFancyExposure negativePriceDb 7 "e" = [("f", 50)] ∧
    ¬ ((50 : ℚ) ≤ 0) := by
  decide!

/-- C19 (amended): when every pending tiered wager of the user for the event
has stake > 0 and price ≥ 0, every value of the map returned by
`calculateFancyExposure` is ≤ 0, so its absolute value, which is what total
exposure adds, is the negation of the reported value. -/
theorem calculateFancyExposure_nonpos (db : Db) (userId : UserId) (eventId : EventId)
    (h : ∀ bet ∈ pendingFancyBets db userId eventId, 0 < bet.stake ∧ 0 ≤ bet.odds) :
    ∀ entry ∈ calculateFancyExposure db userId eventId,
      entry.2 ≤ 0 ∧ |entry.2| = -entry.2 := by
  intro entry hentry
  unfold calculateFancyExposure at hentry
  obtain ⟨group, hgroup, rfl⟩ := List.mem_map.mp hentry
  have hle : marketExposureOf group.2 ≤ 0 := by
    apply marketExposureOf_nonpos
    intro bet hbet
    have hmem := groupByMarket_mem _ group hgroup bet hbet
    exact ⟨le_of_lt (h bet hmem).1, (h bet hmem).2⟩
  exact ⟨hle, abs_of_nonpos hle⟩

/-- Witness of `calculateFancyExposure_nonpos`: the lay wager of `singleLayDb`,
stake 1000 at price 80. -/
theorem calculateFancyExposure_nonpos_witness :
    (("m", -800) : MarketId × ℚ) ∈ calculateFancyExposure singleLayDb 7 "e" ∧
    (-800 : ℚ) ≤ 0 ∧ |(-800 : ℚ)| = -(-800) :=
  ⟨by decide!,
    calculateFancyExposure_nonpos singleLayDb 7 "e" (by decide!) ("m", -800) (by decide!)⟩

/-- The first `k` slices of `size` elements, laid end to end, are the first
`k * size` elements. -/
theorem flatten_slices {α : Type} (array : List α) (size k : Nat) :
    ((List.range k).map (fun index => (array.drop (index * size)).take size)).flatten
      = array.take (k * size) := by
  induction k with
  | zero => simp
  | succ k ih =>
    rw [List.range_succ, List.map_append, List.flatten_append, ih, Nat.succ_mul,
      List.take_add]
    simp

/-- Failed requests add nothing to the flattened responses. -/
theorem flatten_responses {α β : Type} (get : β → Option (List α)) (batches : List β) :
    (batches.map (fun batch =>
        match get batch with
        | some data => data
        | none => [])).flatten
      = (batches.filterMap get).flatten := by
  induction batches with
  | nil => rfl
  | cons batch rest ih =>
    rw [List.map_cons, List.flatten_cons, ih, List.filterMap_cons]
    cases get batch <;> simp

/-- C20: every batch of `chunkArray(ids, 50)` holds at least 1 and at most 50
ids, the batches laid end to end are the input list, the empty list gives no
batch, and `fetchOddsInBatches` returns the responses of the batches whose
request succeeded, laid end to end. -/
theorem chunkArray_batches {α : Type} (ids : List MarketId)
    (get : List MarketId → Option (List α)) :
    (∀ batch ∈ chunkArray ids 50, 1 ≤ batch.length ∧ batch.length ≤ 50) ∧
    (chunkArray ids 50).flatten = ids ∧
    chunkArray ([] : List MarketId) 50 = [] ∧
    fetchOddsInBatches get ids = ((chunkArray ids 50).filterMap get).flatten := by
  refine ⟨?_, ?_, rfl, ?_⟩
  · intro batch hbatch
    unfold chunkArray at hbatch
    obtain ⟨index, hindex, rfl⟩ := List.mem_map.mp hbatch
    rw [List.mem_range] at hindex
    rw [List.length_take, List.length_drop]
    omega
  · unfold chunkArray
    rw [flatten_slices]
    apply List.take_of_length_le
    omega
  · unfold fetchOddsInBatches
    exact flatten_responses get _

/-! ## Theorems: idempotence of settlement -/

/-- The batches of `chunkArray(ids, 50)`, laid end to end, are the ids. -/
theorem chunkArray_flatten {α : Type} (array : List α) :
    (chunkArray array 50).flatten = array := by
  unfold chunkArray
  rw [flatten_slices]
  apply List.take_of_length_le
  omega

/-- A feed that answers every batch returns one answer per requested id. -/
theorem fetchOddsInBatches_map {α : Type} (f : MarketId → α) (ids : List MarketId) :
    fetchOddsInBatches (fun batch => some (batch.map f)) ids = ids.map f := by
  unfold fetchOddsInBatches
  simp only []
  rw [← List.map_flatten, chunkArray_flatten]

/-- The result map built from one answer per id holds, for a requested id, the
winner of the fixed outcome map. -/
theorem formatResults_map_get {ω : Type} (winner : MarketId → Option ω)
    (ids : List MarketId) (marketId : MarketId) :
    mapGet (formatResults (.fulfilled (ids.map (fun id => ⟨id, winner id⟩)))) marketId
      = if marketId ∈ ids then winner marketId else none := by
  unfold formatResults
  simp only []
  induction ids using List.reverseRecOn with
  | nil => simp [mapGet]
  | append_singleton rest last ih =>
    rw [List.map_append, List.foldl_append, List.map_cons, List.map_nil, List.foldl_cons,
      List.foldl_nil]
    simp only []
    by_cases hk : last = marketId
    · subst hk
      rcases hw : winner last with _ | w
      · simp only [ih, hw]
        split_ifs <;> simp
      · simp [mapGet_mapSet, hw]
    · have hne : ¬ marketId = last := fun e => hk e.symm
      rcases hw : winner last with _ | w
      · simp only [ih]
        simp [hne]
      · simp only [mapGet_mapSet, if_neg hk, ih]
        simp [hne]

/-- With a feed that answers from a fixed outcome map, the known outcome of a
pending wager is the one the map gives for its market. -/
theorem knownOutcome_feedOf (matchOdds bookmaker : MarketId → Option SelectionId)
    (fancy : MarketId → Option ℚ) (pendingBets : List Bet) (bet : Bet)
    (hmem : bet ∈ pendingBets) :
    knownOutcome (matchOddsResultsOf (feedOf matchOdds bookmaker fancy) pendingBets)
        (bookmakerResultsOf (feedOf matchOdds bookmaker fancy) pendingBets)
        (fancyResultsOf (feedOf matchOdds bookmaker fancy) pendingBets) bet
      = match bet.category with
        | .matchOdds => (matchOdds bet.marketId).map .selection
        | .bookmaker => (bookmaker bet.marketId).map .selection
        | .fancy => (fancy bet.marketId).map .value := by
  have hin : bet.marketId ∈ marketIdsOf bet.category pendingBets := by
    unfold marketIdsOf
    rw [mem_distinct, List.mem_map]
    exact ⟨bet, List.mem_filter.mpr ⟨hmem, by simp⟩, rfl⟩
  unfold knownOutcome matchOddsResultsOf bookmakerResultsOf fancyResultsOf feedOf
  simp only [fetchOddsInBatches_map, formatResults_map_get]
  rcases hc : bet.category with _ | _ | _ <;> rw [hc] at hin <;> simp [hin]

/-- One `updateOne` keeps the ids of the wagers. -/
theorem ids_updateBetStatus (bets : List Bet) (id : BetId) (status : Status) :
    (updateBetStatus bets id status).map (·.id) = bets.map (·.id) := by
  induction bets with
  | nil => rfl
  | cons bet rest ih =>
    unfold updateBetStatus
    split_ifs with h
    · simp
    · simp [ih]

/-- The status updates `Bet.bulkWrite` applies keep the ids of the wagers. -/
theorem ids_bulkWrite (updates : List (BetId × Status)) (bets : List Bet) :
    (updates.foldl (fun bets u => updateBetStatus bets u.1 u.2) bets).map (·.id)
      = bets.map (·.id) := by
  induction updates generalizing bets with
  | nil => rfl
  | cons u rest ih => rw [List.foldl_cons, ih, ids_updateBetStatus]

/-- A wager met after one `updateOne` is an old wager or an old wager with the
new status. -/
theorem mem_updateBetStatus (bets : List Bet) (id : BetId) (status : Status) (bet : Bet)
    (h : bet ∈ updateBetStatus bets id status) :
    bet ∈ bets ∨ ∃ old ∈ bets, bet = { old with status := status } := by
  induction bets with
  | nil => simp [updateBetStatus] at h
  | cons head rest ih =>
    unfold updateBetStatus at h
    split_ifs at h with h0
    · rcases List.mem_cons.mp h with h | h
      · exact Or.inr ⟨head, List.mem_cons_self _ _, h⟩
      · exact Or.inl (List.mem_cons_of_mem _ h)
    · rcases List.mem_cons.mp h with h | h
      · exact Or.inl (h ▸ List.mem_cons_self _ _)
      · rcases ih h with h | ⟨old, hold, heq⟩
        · exact Or.inl (List.mem_cons_of_mem _ h)
        · exact Or.inr ⟨old, List.mem_cons_of_mem _ hold, heq⟩

/-- A wager met after `Bet.bulkWrite` is an old wager or an old wager with the
status of one of the updates. -/
theorem mem_bulkWrite (updates : List (BetId × Status)) (bets : List Bet) (bet : Bet)
    (h : bet ∈ updates.foldl (fun bets u => updateBetStatus bets u.1 u.2) bets) :
    bet ∈ bets ∨ ∃ old ∈ bets, ∃ u ∈ updates, bet = { old with status := u.2 } := by
  induction updates generalizing bets with
  | nil => exact Or.inl h
  | cons u rest ih =>
    rw [List.foldl_cons] at h
    rcases ih _ h with h | ⟨mid, hmid, v, hv, heq⟩
    · rcases mem_updateBetStatus _ _ _ _ h with h | ⟨old, hold, heq⟩
      · exact Or.inl h
      · exact Or.inr ⟨old, hold, u, List.mem_cons_self _ _, heq⟩
    · rcases mem_updateBetStatus _ _ _ _ hmid with hmid | ⟨old, hold, hmeq⟩
      · exact Or.inr ⟨mid, hmid, v, List.mem_cons_of_mem _ hv, heq⟩
      · refine Or.inr ⟨old, hold, v, List.mem_cons_of_mem _ hv, ?_⟩
        rw [heq, hmeq]

/-- A pass in which no wager is decided leaves both accumulators empty. -/
theorem settleLoop_undecided (matchOddsResults bookmakerResults : List (MarketId × SelectionId))
    (fancyResults : List (MarketId × ℚ)) (pendingBets : List Bet)
    (h : ∀ bet ∈ pendingBets,
      decideBet matchOddsResults bookmakerResults fancyResults bet = none) :
    settleLoop matchOddsResults bookmakerResults fancyResults pendingBets = ⟨[], []⟩ := by
  induction pendingBets using List.reverseRecOn with
  | nil => rfl
  | append_singleton rest bet ih =>
    rw [settleLoop_concat, ih (fun b hb => h b (List.mem_append_left _ hb))]
    unfold settleStep
    rw [h bet (List.mem_append_right _ (List.mem_singleton_self bet))]

/-- With unique ids, a wager that is pending for the event after `settleBets`
was pending for it before and was not decided by the pass. -/
theorem pending_after_settleBets (feed : OutcomeFeed) (db : Db) (eventId : EventId)
    (hid : (db.bets.map (·.id)).Nodup) (bet : Bet)
    (h : bet ∈ pendingBetsOf (settleBets feed db eventId) eventId) :
    bet ∈ pendingBetsOf db eventId ∧
    decideBet (matchOddsResultsOf feed (pendingBetsOf db eventId))
      (bookmakerResultsOf feed (pendingBetsOf db eventId))
      (fancyResultsOf feed (pendingBetsOf db eventId)) bet = none := by
  have hmemP : ∀ (d : Db) (b : Bet), b ∈ pendingBetsOf d eventId ↔ IsPendingOf d eventId b := by
    intro d b
    unfold pendingBetsOf IsPendingOf
    rw [List.mem_filter]
    simp
  have hp' := (hmemP _ bet).mp h
  by_cases hlen : (pendingBetsOf db eventId).length = 0
  · have hsame : settleBets feed db eventId = db := by
      unfold settleBets
      simp only [hlen, if_true]
    rw [hsame] at h
    rw [List.length_eq_zero.mp hlen] at h
    simp at h
  · have hbets : (settleBets feed db eventId).bets
        = (settleLoop (matchOddsResultsOf feed (pendingBetsOf db eventId))
            (bookmakerResultsOf feed (pendingBetsOf db eventId))
            (fancyResultsOf feed (pendingBetsOf db eventId))
            (pendingBetsOf db eventId)).betUpdates.foldl
            (fun bets u => updateBetStatus bets u.1 u.2) db.bets := by
      unfold settleBets
      simp only [hlen, if_false]
    have hid' : ((settleBets feed db eventId).bets.map (·.id)).Nodup := by
      rw [hbets, ids_bulkWrite]; exact hid
    have hold : bet ∈ db.bets := by
      have hmem := hp'.1
      rw [hbets] at hmem
      rcases mem_bulkWrite _ _ _ hmem with hm | ⟨old, _, u, hu, heq⟩
      · exact hm
      · exfalso
        rw [settleLoop_betUpdates] at hu
        simp only [List.mem_filterMap, Option.map_eq_some'] at hu
        obtain ⟨b, _, w, _, hw⟩ := hu
        have hst : bet.status = u.2 := by rw [heq]
        rw [← hw] at hst
        have hpend := hp'.2.2
        rw [hst] at hpend
        cases w <;> simp at hpend
    have hpold : IsPendingOf db eventId bet := ⟨hold, hp'.2.1, hp'.2.2⟩
    refine ⟨(hmemP db bet).mpr hpold, ?_⟩
    have hstat := betStatus_settleBets feed db eventId hid bet hpold
    have hstat' : betStatus (settleBets feed db eventId) bet.id = some bet.status := by
      unfold betStatus
      rw [find_of_nodup_ids _ hid' bet hp'.1]
      rfl
    rw [hstat', hp'.2.2] at hstat
    rcases hd : decideBet (matchOddsResultsOf feed (pendingBetsOf db eventId))
        (bookmakerResultsOf feed (pendingBetsOf db eventId))
        (fancyResultsOf feed (pendingBetsOf db eventId)) bet with _ | w
    · rfl
    · rw [hd] at hstat
      cases w <;> simp at hstat

/-- A second pass whose known outcomes for the wagers still pending are those
of the first pass decides nothing and leaves the database as it is. -/
theorem settleBets_twice (feed : OutcomeFeed) (db : Db) (eventId : EventId)
    (hid : (db.bets.map (·.id)).Nodup)
    (hsame : ∀ bet ∈ pendingBetsOf (settleBets feed db eventId) eventId,
      knownOutcome
          (matchOddsResultsOf feed (pendingBetsOf (settleBets feed db eventId) eventId))
          (bookmakerResultsOf feed (pendingBetsOf (settleBets feed db eventId) eventId))
          (fancyResultsOf feed (pendingBetsOf (settleBets feed db eventId) eventId)) bet
        = knownOutcome (matchOddsResultsOf feed (pendingBetsOf db eventId))
          (bookmakerResultsOf feed (pendingBetsOf db eventId))
          (fancyResultsOf feed (pendingBetsOf db eventId)) bet) :
    settleLoop
        (matchOddsResultsOf feed (pendingBetsOf (settleBets feed db eventId) eventId))
        (bookmakerResultsOf feed (pendingBetsOf (settleBets feed db eventId) eventId))
        (fancyResultsOf feed (pendingBetsOf (settleBets feed db eventId) eventId))
        (pendingBetsOf (settleBets feed db eventId) eventId) = ⟨[], []⟩ ∧
    settleBets feed (settleBets feed db eventId) eventId = settleBets feed db eventId := by
  have hloop : settleLoop
      (matchOddsResultsOf feed (pendingBetsOf (settleBets feed db eventId) eventId))
      (bookmakerResultsOf feed (pendingBetsOf (settleBets feed db eventId) eventId))
      (fancyResultsOf feed (pendingBetsOf (settleBets feed db eventId) eventId))
      (pendingBetsOf (settleBets feed db eventId) eventId) = ⟨[], []⟩ := by
    apply settleLoop_undecided
    intro bet hbet
    have hfirst := (pending_after_settleBets feed db eventId hid bet hbet).2
    apply (decideBet_spec _ _ _ bet).2
    rw [hsame bet hbet]
    rcases hk : knownOutcome (matchOddsResultsOf feed (pendingBetsOf db eventId))
        (bookmakerResultsOf feed (pendingBetsOf db eventId))
        (fancyResultsOf feed (pendingBetsOf db eventId)) bet with _ | outcome
    · rfl
    · obtain ⟨w, hw, _⟩ := (decideBet_spec _ _ _ bet).1 outcome hk
      rw [hfirst] at hw
      exact absurd hw (by simp)
  refine ⟨hloop, ?_⟩
  generalize hdb : settleBets feed db eventId = db' at hloop ⊢
  unfold settleBets
  simp only []
  split_ifs
  · rfl
  · rw [hloop]
    rfl

/-- C11: with unique wager ids and a feed that answers from a fixed outcome
map, a second `settleBets` for the same event right after a first one selects
only wagers that the first pass left pending, emits no status update and no
balance delta, and leaves the database as the first pass left it. -/
theorem settleBets_idempotent (matchOdds bookmaker : MarketId → Option SelectionId)
    (fancy : MarketId → Option ℚ) (db : Db) (eventId : EventId)
    (hid : (db.bets.map (·.id)).Nodup) :
    (∀ bet ∈ pendingBetsOf
        (settleBets (feedOf matchOdds bookmaker fancy) db eventId) eventId,
      bet.status = .pending ∧ bet ∈ pendingBetsOf db eventId) ∧
    settleLoop
        (matchOddsResultsOf (feedOf matchOdds bookmaker fancy)
          (pendingBetsOf (settleBets (feedOf matchOdds bookmaker fancy) db eventId) eventId))
        (bookmakerResultsOf (feedOf matchOdds bookmaker fancy)
          (pendingBetsOf (settleBets (feedOf matchOdds bookmaker fancy) db eventId) eventId))
        (fancyResultsOf (feedOf matchOdds bookmaker fancy)
          (pendingBetsOf (settleBets (feedOf matchOdds bookmaker fancy) db eventId) eventId))
        (pendingBetsOf (settleBets (feedOf matchOdds bookmaker fancy) db eventId) eventId)
      = ⟨[], []⟩ ∧
    settleBets (feedOf matchOdds bookmaker fancy)
        (settleBets (feedOf matchOdds bookmaker fancy) db eventId) eventId
      = settleBets (feedOf matchOdds bookmaker fancy) db eventId := by
  have hsame : ∀ bet ∈ pendingBetsOf
      (settleBets (feedOf matchOdds bookmaker fancy) db eventId) eventId,
      knownOutcome
          (matchOddsResultsOf (feedOf matchOdds bookmaker fancy)
            (pendingBetsOf (settleBets (feedOf matchOdds bookmaker fancy) db eventId) eventId))
          (bookmakerResultsOf (feedOf matchOdds bookmaker fancy)
            (pendingBetsOf (settleBets (feedOf matchOdds bookmaker fancy) db eventId) eventId))
          (fancyResultsOf (feedOf matchOdds bookmaker fancy)
            (pendingBetsOf (settleBets (feedOf matchOdds bookmaker fancy) db eventId) eventId))
          bet
        = knownOutcome
          (matchOddsResultsOf (feedOf matchOdds bookmaker fancy) (pendingBetsOf db eventId))
          (bookmakerResultsOf (feedOf matchOdds bookmaker fancy) (pendingBetsOf db eventId))
          (fancyResultsOf (feedOf matchOdds bookmaker fancy) (pendingBetsOf db eventId))
          bet := by
    intro bet hbet
    rw [knownOutcome_feedOf _ _ _ _ bet hbet,
      knownOutcome_feedOf _ _ _ _ bet (pending_after_settleBets _ db eventId hid bet hbet).1]
  have htwice := settleBets_twice (feedOf matchOdds bookmaker fancy) db eventId hid hsame
  refine ⟨?_, htwice.1, htwice.2⟩
  intro bet hbet
  refine ⟨?_, (pending_after_settleBets _ db eventId hid bet hbet).1⟩
  unfold pendingBetsOf at hbet
  rw [List.mem_filter] at hbet
  have h2 := hbet.2
  simp only [decide_eq_true_eq] at h2
  exact h2.2

/-- Witness of `settleBets_idempotent`: `settleDb` with selection A as the
outcome of every match odds market and no other outcome. -/
theorem settleBets_idempotent_witness :
    settleBets (feedOf (fun _ => some "A") (fun _ => none) (fun _ => none))
        (settleBets (feedOf (fun _ => some "A") (fun _ => none) (fun _ => none))
          settleDb "e") "e"
      = settleBets (feedOf (fun _ => some "A") (fun _ => none) (fun _ => none))
          settleDb "e" :=
  (settleBets_idempotent (fun _ => some "A") (fun _ => none) (fun _ => none) settleDb "e"
    (by decide)).2.2

/-- The number of batches of `chunkArray(array, 50)` is
`Math.ceil(array.length / 50)`. -/
theorem chunkArray_length_eq_ceil {α : Type} (array : List α) :
    (chunkArray array 50).length = ⌈(array.length : ℚ) / 50⌉₊ := by
  unfold chunkArray
  rw [List.length_map, List.length_range]
  apply le_antisymm
  · have h := Nat.le_ceil ((array.length : ℚ) / 50)
    rw [div_le_iff₀ (by norm_num)] at h
    have h' : array.length ≤ ⌈(array.length : ℚ) / 50⌉₊ * 50 := by exact_mod_cast h
    omega
  · rw [Nat.ceil_le, div_le_iff₀ (by norm_num)]
    have h : array.length ≤ (array.length + 50 - 1) / 50 * 50 := by omega
    exact_mod_cast h

/-! ## Theorems: agreement of the two worst-case measures, of manual and automatic settlement -/

/-- Away from `profit < 0`, `loss = 0` the worst case of a snapshot in
`calculateTotalExposure` is the amount `|min(profit, loss, 0)|` of `placeBet`. -/
theorem maxLossOf_eq_abs_min3 (margin : Margin) (h : ¬ (margin.profit < 0 ∧ margin.loss = 0)) :
    maxLossOf margin = |min3 margin.profit margin.loss| := by
  unfold maxLossOf min3
  by_cases hp : margin.profit < 0
  · rcases lt_trichotomy margin.loss 0 with hl | hl | hl
    · have c1 : ¬ (margin.profit < 0 ∧ margin.loss > 0) := fun c => absurd c.2 (not_lt.mpr hl.le)
      have c2 : margin.profit < 0 ∧ margin.loss < 0 := ⟨hp, hl⟩
      have hm : min margin.profit margin.loss < 0 := lt_of_le_of_lt (min_le_left _ _) hp
      simp only [if_neg c1, if_pos c2, zero_add]
      rw [min_eq_left hm.le, abs_of_neg hp, abs_of_neg hl, abs_of_neg hm, max_neg_neg]
    · exact absurd ⟨hp, hl⟩ h
    · have c1 : margin.profit < 0 ∧ margin.loss > 0 := ⟨hp, hl⟩
      have c2 : ¬ (margin.profit < 0 ∧ margin.loss < 0) := fun c => absurd c.2 (not_lt.mpr hl.le)
      have c3 : ¬ margin.loss < 0 := not_lt.mpr hl.le
      simp only [if_pos c1, if_neg c2, if_neg c3, zero_add]
      rw [min_eq_left (hp.le.trans hl.le), min_eq_left hp.le]
  · have hp' : 0 ≤ margin.profit := not_lt.mp hp
    have c1 : ¬ (margin.profit < 0 ∧ margin.loss > 0) := fun c => hp c.1
    have c2 : ¬ (margin.profit < 0 ∧ margin.loss < 0) := fun c => hp c.1
    simp only [if_neg c1, if_neg c2]
    by_cases hl : margin.loss < 0
    · rw [if_pos hl, zero_add, min_eq_right (hl.le.trans hp'), min_eq_left hl.le]
    · have hl' : 0 ≤ margin.loss := not_lt.mp hl
      rw [if_neg hl, min_eq_right (le_min hp' hl'), abs_zero]

/-- At `profit < 0`, `loss = 0` the worst case of a snapshot in
`calculateTotalExposure` is 0 and `|min(profit, loss, 0)|` is `-profit`. -/
theorem maxLossOf_zero_loss (margin : Margin) (hp : margin.profit < 0) (hl : margin.loss = 0) :
    maxLossOf margin = 0 ∧ |min3 margin.profit margin.loss| = -margin.profit := by
  unfold maxLossOf min3
  have c1 : ¬ (margin.profit < 0 ∧ margin.loss > 0) := fun c => by
    have := c.2; rw [hl] at this; exact lt_irrefl 0 this
  have c2 : ¬ (margin.profit < 0 ∧ margin.loss < 0) := fun c => by
    have := c.2; rw [hl] at this; exact lt_irrefl 0 this
  have c3 : ¬ margin.loss < 0 := by rw [hl]; exact lt_irrefl 0
  simp only [if_neg c1, if_neg c2, if_neg c3]
  rw [hl, min_eq_left hp.le, min_eq_left hp.le, abs_of_neg hp]
  exact ⟨trivial, rfl⟩

/-- C22 (code at the failing input): the worst case `calculateTotalExposure`
adds for a snapshot is `|min(profit, loss, 0)|` except when `profit < 0` and
`loss = 0`, where it is 0 and `|min(profit, loss, 0)|` is `-profit`.  A back
wager (stake 100, price 2) and a lay wager (stake 100, price 3) on selection A
are both accepted and leave the snapshot (A, -100, 0), for which the total
exposure is 0 while the amount of the balance check is 100. -/
theorem maxLossOf_zero_loss_divergence :
    (∀ margin : Margin, ¬ (margin.profit < 0 ∧ margin.loss = 0) →
      maxLossOf margin = |min3 margin.profit margin.loss|) ∧
    (∀ margin : Margin, margin.profit < 0 → margin.loss = 0 →
      maxLossOf margin = 0 ∧ |min3 margin.profit margin.loss| = -margin.profit) ∧
    placeBet oracleDb 7 backEvenBody (some [()]) 1 = .ok backEvenDb ∧
    placeBet backEvenDb 7 layTripleBody (some [()]) 2 = .ok zeroLossDb ∧
    findLatestMargin zeroLossDb 7 "e" "m" = some ⟨7, "e", "m", "A", -100, 0⟩ ∧
    maxLossOf ⟨7, "e", "m", "A", -100, 0⟩ = 0 ∧
    calculateTotalExposure zeroLossDb 7 = 0 ∧
    |min3 (-100) 0| = 100 :=
  ⟨maxLossOf_eq_abs_min3, maxLossOf_zero_loss, by decide!, by decide!, by decide!, by decide!,
    by decide!, by decide!⟩

/-- A won wager changes the balance by the profit in both paths; a lost back
wager changes it by minus the stake in both paths. -/
theorem manual_eq_settlement (bet : Bet) (pl : ProfitLoss)
    (hpl : calculateProfitAndLoss bet.stake bet.odds bet.type.toString bet.category.toString
      = .ok pl)
    (hpay : bet.payout = bet.stake + pl.profit) :
    transitionAdjustment .pending .won bet = balanceChange bet true ∧
    (bet.type = .back → transitionAdjustment .pending .lost bet = balanceChange bet false) := by
  unfold transitionAdjustment balanceChange
  rw [hpl]
  refine ⟨by simp [hpay], ?_⟩
  intro hb
  rw [hb] at hpl
  rcases hc : bet.category with _ | _ | _ <;> rw [hc] at hpl <;>
    simp only [calculateProfitAndLoss, normalize_stored, Category.toString,
      BetType.toString] at hpl <;> simp at hpl <;> simp [← hpl]

/-- C23 (code at the failing input): for a won wager, and for a lost back
wager, `changeBetStatus` and `settleBets` change the balance by the same
amount.  For the pending lay wager of `pendingLayDb` (match odds, stake 100,
price 3) that loses, `changeBetStatus` takes the stake, 100, and `settleBets`
takes the loss of `calculateProfitAndLoss`, 200. -/
theorem manual_vs_settlement_lay_divergence :
    (∀ (bet : Bet) (pl : ProfitLoss),
      calculateProfitAndLoss bet.stake bet.odds bet.type.toString bet.category.toString
        = .ok pl →
      bet.payout = bet.stake + pl.profit →
      transitionAdjustment .pending .won bet = balanceChange bet true ∧
      (bet.type = .back →
        transitionAdjustment .pending .lost bet = balanceChange bet false)) ∧
    calculateProfitAndLoss 100 3 "lay" "match odds" = .ok ⟨100, -200⟩ ∧
    findUser (changeBetStatus pendingLayDb 1 "lost").1.users 7 = some ⟨7, 900, "active"⟩ ∧
    betStatus (changeBetStatus pendingLayDb 1 "lost").1 1 = some .lost ∧
    findUser (settleBets (feedOf (fun _ => some "A") (fun _ => none) (fun _ => none))
      pendingLayDb "e").users 7 = some ⟨7, 800, "active"⟩ ∧
    betStatus (settleBets (feedOf (fun _ => some "A") (fun _ => none) (fun _ => none))
      pendingLayDb "e") 1 = some .lost :=
  ⟨manual_eq_settlement, by decide!, by decide!, by decide!, by decide!, by decide!⟩

/-! ## Theorems: the margin ledger -/

/-- A valid category string is the string of the category it is read as. -/
theorem category_toString_of_ofString {s : String} {cat : Category}
    (h : Category.ofString? s = some cat) : s = cat.toString := by
  unfold Category.ofString? at h
  split_ifs at h with h1 h2 h3 <;> simp at h <;> subst h <;> simp [Category.toString, *]

/-- A valid side string is the string of the side it is read as. -/
theorem betType_toString_of_ofString {s : String} {side : BetType}
    (h : BetType.ofString? s = some side) : s = side.toString := by
  unfold BetType.ofString? at h
  split_ifs at h with h1 h2 <;> simp at h <;> subst h <;> simp [BetType.toString, *]

/-- An accepted ordinary placement: the user exists, the wager is appended to
the wagers and the next snapshot of the market to the snapshots. -/
theorem placeBet_ok_ordinary {ρ : Type} (db db' : Db) (reqUser : UserId) (body : PlaceBetBody)
    (responseData : Option (List ρ)) (newId : BetId) (eventId : EventId)
    (marketId : MarketId) (selectionId : SelectionId)
    (h : placeBet db reqUser body responseData newId = .ok db')
    (he : body.eventId = some eventId) (hm : body.marketId = some marketId)
    (hs : body.selectionId = some selectionId)
    (hcat : body.category.map (fun c => trim (toLowerCase c)) ≠ some "fancy") :
    ∃ user stake odds side cat pl,
      findUser db.users reqUser = some user ∧ cat ≠ Category.fancy ∧
      calculateProfitAndLoss stake odds (BetType.toString side) (Category.toString cat)
        = .ok pl ∧
      db' = { users := db.users,
              bets := db.bets ++ [
                { id := newId, userId := user.id, eventId := eventId, marketId := marketId,
                  selectionId := some selectionId, fancyNumber := body.fancyNumber,
                  stake := stake, odds := odds, category := cat, type := side,
                  payout := stake + pl.profit, status := .pending }],
              margins := db.margins ++ [
                nextSnapshot (findLatestMargin db user.id eventId marketId) user.id eventId
                  marketId selectionId side pl] } := by
  unfold placeBet at h
  rcases hu : findUser db.users reqUser with _ | user
  · rw [hu] at h; cases h
  rw [hu] at h
  simp only [] at h
  by_cases hban : user.status = "banned"
  · rw [if_pos hban] at h; cases h
  rw [if_neg hban] at h
  rcases hstake : body.stake with _ | stake
  · simp [he, hm, hstake, truthyNum] at h
  rcases hodds : body.odds with _ | odds
  · simp [he, hm, hstake, hodds, truthyNum] at h
  rcases hc : body.category with _ | category
  · simp [he, hm, hstake, hodds, hc, truthyStr] at h
  rcases ht : body.type with _ | type
  · simp [he, hm, hstake, hodds, hc, ht, truthyStr] at h
  rw [he, hm, hstake, hodds, hc, ht] at h
  rw [hc] at hcat
  simp only [Option.map_some'] at h hcat
  rw [ite_eq_iff] at h
  rcases h with ⟨_, h⟩ | ⟨_, h⟩
  · cases h
  rcases hcp : Category.ofString? (trim (toLowerCase category)) with _ | cat
  · rw [hcp] at h; cases h
  rcases htp : BetType.ofString? (trim (toLowerCase type)) with _ | side
  · rw [hcp, htp] at h; cases h
  rw [hcp, htp] at h
  simp only [] at h
  have hcs := category_toString_of_ofString hcp
  have hts := betType_toString_of_ofString htp
  have hnf : trim (toLowerCase category) ≠ "fancy" := fun e => hcat (by rw [e])
  rw [ite_eq_iff] at h
  rcases h with ⟨_, h⟩ | ⟨_, h⟩
  · cases h
  rw [ite_eq_iff] at h
  rcases h with ⟨_, h⟩ | ⟨_, h⟩
  · cases h
  rw [ite_eq_iff] at h
  rcases h with ⟨_, h⟩ | ⟨_, h⟩
  · cases h
  rcases responseData with _ | data
  · cases h
  simp only [] at h
  rw [ite_eq_iff] at h
  rcases h with ⟨_, h⟩ | ⟨_, h⟩
  · cases h
  rcases hpl : calculateProfitAndLoss stake odds (trim (toLowerCase type))
      (trim (toLowerCase category)) with err | pl
  · rw [hpl] at h; cases h
  rw [hpl] at h
  simp only [] at h
  rw [if_pos hnf, hs] at h
  simp only [] at h
  have hcne : cat ≠ Category.fancy := by
    intro e
    rw [e] at hcs
    exact hnf hcs
  rw [hcs, hts] at hpl
  refine ⟨user, stake, odds, side, cat, pl, rfl, hcne, hpl, ?_⟩
  rcases hmg : findLatestMargin db user.id eventId marketId with _ | margin
  · rw [hmg] at h
    simp only [] at h
    rw [ite_eq_iff] at h
    rcases h with ⟨_, h⟩ | ⟨_, h⟩
    · cases h
    simp only [Except.ok.injEq] at h
    rw [← h]
    unfold nextSnapshot
    simp only [hts]
    cases side <;> simp [BetType.toString]
  · rw [hmg] at h
    simp only [] at h
    rw [ite_eq_iff] at h
    rcases h with ⟨_, h⟩ | ⟨_, h⟩
    · cases h
    simp only [Except.ok.injEq] at h
    rw [← h]
    unfold nextSnapshot
    simp only [hts]

/-- The settlement total of the wagers with one more wager. -/
theorem settlementTotal_concat (winner : SelectionId) (placed : List Bet) (bet : Bet) :
    settlementTotal winner (placed ++ [bet])
      = settlementTotal winner placed + balanceChange bet (winsOrdinary winner bet) := by
  unfold settlementTotal
  simp

/-- The snapshot stored for the first wager of a market satisfies the ledger
invariant for that wager; the snapshot stored for a later wager satisfies it
for all the wagers when the prior snapshot does for the earlier ones. -/
theorem nextSnapshot_inv (a b : SelectionId) (hab : a ≠ b) (userId : UserId)
    (eventId : EventId) (marketId : MarketId) (selectionId : SelectionId)
    (hx : selectionId = a ∨ selectionId = b) (pl : ProfitLoss) (bet : Bet)
    (hsel : bet.selectionId = some selectionId)
    (hbc : ∀ w, balanceChange bet w = if w then pl.profit else pl.loss) :
    LedgerInv a b (nextSnapshot none userId eventId marketId selectionId bet.type pl) [bet] ∧
    (∀ snap placed, LedgerInv a b snap placed →
      LedgerInv a b (nextSnapshot (some snap) userId eventId marketId selectionId bet.type pl)
        (placed ++ [bet])) := by
  have hba : b ≠ a := fun e => hab e.symm
  constructor
  · unfold LedgerInv nextSnapshot settlementTotal winsOrdinary
    refine ⟨hx, ?_, ?_⟩
    · rcases hx with rfl | rfl <;> cases ht : bet.type <;> simp [hsel, hbc, hab, hba, ht]
    · rcases hx with rfl | rfl <;> cases ht : bet.type <;> simp [hsel, hbc, hab, hba, ht]
  · intro snap placed hinv
    obtain ⟨hs, hp, hl⟩ := hinv
    unfold LedgerInv
    simp only [settlementTotal_concat]
    unfold nextSnapshot calculateNewMargin winsOrdinary
    refine ⟨hx, ?_, ?_⟩
    · rcases hx with rfl | rfl <;> rcases hs with hs | hs <;> cases ht : bet.type <;>
        simp [hsel, hbc, hab, hba, hs, ht, BetType.toString, hp, hl]
    · rcases hx with rfl | rfl <;> rcases hs with hs | hs <;> cases ht : bet.type <;>
        simp [hsel, hbc, hab, hba, hs, ht, BetType.toString, hp, hl]

/-- The key of the snapshot `placeBet` stores. -/
theorem nextSnapshot_key (prior : Option Margin) (userId : UserId) (eventId : EventId)
    (marketId : MarketId) (selectionId : SelectionId) (side : BetType) (pl : ProfitLoss) :
    (nextSnapshot prior userId eventId marketId selectionId side pl).userId = userId ∧
    (nextSnapshot prior userId eventId marketId selectionId side pl).eventId = eventId ∧
    (nextSnapshot prior userId eventId marketId selectionId side pl).marketId = marketId := by
  cases prior <;> exact ⟨rfl, rfl, rfl⟩

/-- The snapshot appended last is the current one of its key. -/
theorem findLatestMargin_concat (users : List User) (bets : List Bet) (margins : List Margin)
    (created : Margin) :
    findLatestMargin { users := users, bets := bets, margins := margins ++ [created] }
      created.userId created.eventId created.marketId = some created := by
  unfold findLatestMargin
  simp

/-- The settlement delta of a wager whose category and side are accepted by
`calculateProfitAndLoss`. -/
theorem balanceChange_of_ok (bet : Bet) (pl : ProfitLoss)
    (hpl : calculateProfitAndLoss bet.stake bet.odds bet.type.toString bet.category.toString
      = .ok pl) (w : Bool) :
    balanceChange bet w = if w then pl.profit else pl.loss := by
  unfold balanceChange
  rw [hpl]

/-- The ledger invariant along a sequence of accepted ordinary wagers on one
market: the wagers are appended to the collection, they belong to the user and
the market, and the current snapshot satisfies the invariant for the wagers
placed so far. -/
theorem placeBets_ledger (a b : SelectionId) (hab : a ≠ b) (userId : UserId)
    (eventId : EventId) (marketId : MarketId) (requests : List Placement) :
    ∀ (db db' : Db) (placed : List Bet),
      (∀ p ∈ requests, IsOrdinaryOn eventId marketId a b p) →
      placeBets db userId requests = .ok db' →
      (match findLatestMargin db userId eventId marketId with
        | none => placed = []
        | some snap => LedgerInv a b snap placed) →
      ∃ newBets, db'.bets = db.bets ++ newBets ∧ newBets.length = requests.length ∧
        (∀ bet ∈ newBets,
          bet.userId = userId ∧ bet.marketId = marketId ∧ bet.category ≠ .fancy) ∧
        (match findLatestMargin db' userId eventId marketId with
          | none => placed ++ newBets = []
          | some snap => LedgerInv a b snap (placed ++ newBets)) := by
  induction requests with
  | nil =>
    intro db db' placed _ hacc hinv
    unfold placeBets at hacc
    simp only [Except.ok.injEq] at hacc
    subst hacc
    exact ⟨[], by simp, rfl, by simp, by simpa using hinv⟩
  | cons p rest ih =>
    intro db db' placed hreq hacc hinv
    unfold placeBets at hacc
    rcases hstep : placeBet db userId p.body p.responseData p.newId with err | db1
    · rw [hstep] at hacc; cases hacc
    rw [hstep] at hacc
    simp only [] at hacc
    obtain ⟨he, hm, hsel, hcat⟩ := hreq p (List.mem_cons_self _ _)
    obtain ⟨x, hx, hxs⟩ : ∃ x, (x = a ∨ x = b) ∧ p.body.selectionId = some x := by
      rcases hsel with h | h
      · exact ⟨a, Or.inl rfl, h⟩
      · exact ⟨b, Or.inr rfl, h⟩
    obtain ⟨user, stake, odds, side, cat, pl, hu, hcne, hpl, hdb1⟩ :=
      placeBet_ok_ordinary db db1 userId p.body p.responseData p.newId eventId marketId x
        hstep he hm hxs hcat
    have huid : user.id = userId := findUser_id hu
    rw [huid] at hdb1
    obtain ⟨newBet, hnsel, hnty, hnpl, hncat, hnuid, hnmk, hdb2⟩ : ∃ nb : Bet,
        nb.selectionId = some x ∧ nb.type = side ∧
        calculateProfitAndLoss nb.stake nb.odds nb.type.toString nb.category.toString
          = .ok pl ∧
        nb.category = cat ∧ nb.userId = userId ∧ nb.marketId = marketId ∧
        db1 = { users := db.users, bets := db.bets ++ [nb],
                margins := db.margins ++
                  [nextSnapshot (findLatestMargin db userId eventId marketId) userId eventId
                    marketId x side pl] } :=
      ⟨Bet.mk p.newId userId eventId marketId (some x) p.body.fancyNumber stake odds cat side
        (stake + pl.profit) Status.pending, rfl, rfl, hpl, rfl, rfl, rfl, hdb1⟩
    clear hdb1
    have hkey := nextSnapshot_key (findLatestMargin db userId eventId marketId) userId
      eventId marketId x side pl
    have hlatest : findLatestMargin db1 userId eventId marketId
        = some (nextSnapshot (findLatestMargin db userId eventId marketId) userId eventId
            marketId x side pl) := by
      have := findLatestMargin_concat db.users (db.bets ++ [newBet]) db.margins
        (nextSnapshot (findLatestMargin db userId eventId marketId) userId eventId
            marketId x side pl)
      rw [hkey.1, hkey.2.1, hkey.2.2, ← hdb2] at this
      exact this
    have hbc := balanceChange_of_ok newBet pl hnpl
    have hstepinv := nextSnapshot_inv a b hab userId eventId marketId x hx pl newBet hnsel hbc
    rw [hnty] at hstepinv
    have hinv1 : (match findLatestMargin db1 userId eventId marketId with
        | none => placed ++ [newBet] = []
        | some snap => LedgerInv a b snap (placed ++ [newBet])) := by
      rw [hlatest]
      simp only []
      rcases hprior : findLatestMargin db userId eventId marketId with _ | snap
      · rw [hprior] at hinv
        simp only [] at hinv
        rw [hinv]
        exact hstepinv.1
      · rw [hprior] at hinv
        exact hstepinv.2 snap placed hinv
    obtain ⟨newBets, hbets, hlen, hall, hfinal⟩ :=
      ih db1 db' _ (fun q hq => hreq q (List.mem_cons_of_mem _ hq)) hacc hinv1
    refine ⟨newBet :: newBets, ?_, ?_, ?_, ?_⟩
    · rw [hbets, hdb2]
      simp
    · simp [hlen]
    · intro bet hbet
      rcases List.mem_cons.mp hbet with h | h
      · rw [h]; exact ⟨hnuid, hnmk, hncat ▸ hcne⟩
      · exact hall bet h
    · simpa using hfinal

/-- An ordinary wager whose market has the outcome `winner` is decided by the
win rule for selections. -/
theorem decideBet_ordinary (matchOddsResults bookmakerResults : List (MarketId × SelectionId))
    (fancyResults : List (MarketId × ℚ)) (bet : Bet) (winner : SelectionId)
    (hc : bet.category ≠ .fancy)
    (hk : knownOutcome matchOddsResults bookmakerResults fancyResults bet
      = some (.selection winner)) :
    decideBet matchOddsResults bookmakerResults fancyResults bet
      = some (winsOrdinary winner bet) := by
  unfold knownOutcome at hk
  unfold decideBet winsOrdinary
  rcases hcat : bet.category with _ | _ | _
  · rw [hcat] at hk
    simp only [] at hk
    rcases hg : mapGet matchOddsResults bet.marketId with _ | o
    · rw [hg] at hk; simp at hk
    · rw [hg] at hk
      simp only [Option.map_some', Option.some.injEq, Outcome.selection.injEq] at hk
      subst hk
      simp
  · rw [hcat] at hk
    simp only [] at hk
    rcases hg : mapGet bookmakerResults bet.marketId with _ | o
    · rw [hg] at hk; simp at hk
    · rw [hg] at hk
      simp only [Option.map_some', Option.some.injEq, Outcome.selection.injEq] at hk
      subst hk
      simp
  · exact absurd hcat hc

/-- The settlement deltas of ordinary wagers of one user on markets with the
outcome `winner` add up to their settlement total. -/
theorem decidedDeltas_ordinary (matchOddsResults bookmakerResults : List (MarketId × SelectionId))
    (fancyResults : List (MarketId × ℚ)) (userId : UserId) (winner : SelectionId)
    (bets : List Bet)
    (h : ∀ bet ∈ bets, bet.userId = userId ∧ bet.category ≠ .fancy ∧
      knownOutcome matchOddsResults bookmakerResults fancyResults bet
        = some (.selection winner)) :
    (decidedDeltas matchOddsResults bookmakerResults fancyResults bets userId).sum
      = settlementTotal winner bets := by
  induction bets with
  | nil => simp [decidedDeltas, settlementTotal]
  | cons bet rest ih =>
    obtain ⟨hu, hc, hk⟩ := h bet (List.mem_cons_self _ _)
    have hd := decideBet_ordinary matchOddsResults bookmakerResults fancyResults bet winner
      hc hk
    have ih1 := ih (fun q hq => h q (List.mem_cons_of_mem _ hq))
    unfold decidedDeltas settlementTotal at ih1 ⊢
    simp only [List.filter_cons, hu, decide_True, if_true, List.filterMap_cons, hd,
      Option.map_some', List.sum_cons, List.map_cons]
    rw [ih1]

/-- C21: the margin-ledger invariant for a market with the two selections
`a ≠ b`.  After a non-empty sequence of accepted ordinary wagers of a user on
the market, the first placed when the market has no snapshot, the wagers are
appended to the collection, one for each request, and the latest snapshot
`(s, profit, loss)` of the market is keyed by `a` or `b`; for every result
maps of `settleBets` in which the outcome of the market of these wagers is
`winner`, `profit` is the sum of their settlement deltas if `winner = s`, and
`loss` is the sum of their settlement deltas if `winner` is the other
selection. -/
theorem margin_ledger_invariant (db0 db : Db) (userId : UserId) (eventId : EventId)
    (marketId : MarketId) (a b : SelectionId) (hab : a ≠ b) (requests : List Placement)
    (hne : requests ≠ [])
    (hreq : ∀ p ∈ requests, IsOrdinaryOn eventId marketId a b p)
    (h0 : findLatestMargin db0 userId eventId marketId = none)
    (hacc : placeBets db0 userId requests = .ok db) :
    ∃ snap, findLatestMargin db userId eventId marketId = some snap ∧
      (snap.selectionId = a ∨ snap.selectionId = b) ∧
      db.bets.take db0.bets.length = db0.bets ∧
      (db.bets.drop db0.bets.length).length = requests.length ∧
      ∀ (matchOddsResults bookmakerResults : List (MarketId × SelectionId))
        (fancyResults : List (MarketId × ℚ)) (winner : SelectionId),
        (winner = a ∨ winner = b) →
        (∀ bet ∈ db.bets.drop db0.bets.length,
          knownOutcome matchOddsResults bookmakerResults fancyResults bet
            = some (.selection winner)) →
        (winner = snap.selectionId →
          snap.profit = (decidedDeltas matchOddsResults bookmakerResults fancyResults
            (db.bets.drop db0.bets.length) userId).sum) ∧
        (winner ≠ snap.selectionId →
          snap.loss = (decidedDeltas matchOddsResults bookmakerResults fancyResults
            (db.bets.drop db0.bets.length) userId).sum) := by
  obtain ⟨newBets, hbets, hlen, hall, hfinal⟩ :=
    placeBets_ledger a b hab userId eventId marketId requests db0 db [] hreq hacc
      (by rw [h0])
  have hdrop : db.bets.drop db0.bets.length = newBets := by
    rw [hbets]; exact List.drop_left _ _
  have htake : db.bets.take db0.bets.length = db0.bets := by
    rw [hbets]; exact List.take_left _ _
  rw [hdrop, htake]
  rcases hl : findLatestMargin db userId eventId marketId with _ | snap
  · rw [hl] at hfinal
    simp only [List.nil_append] at hfinal
    rw [hfinal] at hlen
    cases requests with
    | nil => exact absurd rfl hne
    | cons p rest => simp at hlen
  rw [hl] at hfinal
  simp only [List.nil_append] at hfinal
  obtain ⟨hs, hp, hlo⟩ := hfinal
  refine ⟨snap, rfl, hs, rfl, hlen, ?_⟩
  intro matchOddsResults bookmakerResults fancyResults winner hw hk
  have hsum := decidedDeltas_ordinary matchOddsResults bookmakerResults fancyResults userId
    winner newBets (fun bet hbet => ⟨(hall bet hbet).1, (hall bet hbet).2.2, hk bet hbet⟩)
  rw [hsum]
  constructor
  · intro hws
    rw [hws]; exact hp
  · intro hws
    have hother : winner = if snap.selectionId = a then b else a := by
      rcases hs with h | h
      · rw [if_pos h]
        rcases hw with h1 | h1
        · exact absurd (h1.trans h.symm) hws
        · exact h1
      · rw [if_neg (fun h2 => hab (h2.symm.trans h))]
        rcases hw with h1 | h1
        · exact h1
        · exact absurd (h1.trans h.symm) hws
    rw [hother]; exact hlo

/-- The invariant on the oracle of §8: two accepted wagers on selections A and
B of market m, placed on a market without a snapshot. -/
theorem margin_ledger_invariant_witness :
    ("A" : SelectionId) ≠ "B" ∧ ledgerRequests ≠ [] ∧
    (∀ p ∈ ledgerRequests, IsOrdinaryOn "e" "m" "A" "B" p) ∧
    findLatestMargin oracleDb 7 "e" "m" = none ∧
    placeBets oracleDb 7 ledgerRequests = .ok oracleDb2 ∧
    ∃ snap, findLatestMargin oracleDb2 7 "e" "m" = some snap ∧
      (snap.selectionId = "A" ∨ snap.selectionId = "B") ∧
      oracleDb2.bets.take oracleDb.bets.length = oracleDb.bets ∧
      (oracleDb2.bets.drop oracleDb.bets.length).length = ledgerRequests.length ∧
      ∀ (matchOddsResults bookmakerResults : List (MarketId × SelectionId))
        (fancyResults : List (MarketId × ℚ)) (winner : SelectionId),
        (winner = "A" ∨ winner = "B") →
        (∀ bet ∈ oracleDb2.bets.drop oracleDb.bets.length,
          knownOutcome matchOddsResults bookmakerResults fancyResults bet
            = some (.selection winner)) →
        (winner = snap.selectionId →
          snap.profit = (decidedDeltas matchOddsResults bookmakerResults fancyResults
            (oracleDb2.bets.drop oracleDb.bets.length) 7).sum) ∧
        (winner ≠ snap.selectionId →
          snap.loss = (decidedDeltas matchOddsResults bookmakerResults fancyResults
            (oracleDb2.bets.drop oracleDb.bets.length) 7).sum) :=
  ⟨by decide, by decide, by decide!, by decide!, by decide!,
    margin_ledger_invariant oracleDb oracleDb2 7 "e" "m" "A" "B" (by decide) ledgerRequests
      (by decide) (by decide!) (by decide!) (by decide!)⟩

/-! ## Theorems: lower-casing as the program observes it -/

/-- Dropping a prefix of characters that satisfy `p` keeps every element that
does not satisfy it. -/
theorem mem_dropWhile_of_not {α : Type} (p : α → Bool) (l : List α) (x : α)
    (hx : x ∈ l) (hp : p x = false) : x ∈ l.dropWhile p := by
  induction l with
  | nil => cases hx
  | cons head rest ih =>
    rw [List.dropWhile_cons]
    by_cases hh : p head = true
    · rw [if_pos hh]
      rcases List.mem_cons.mp hx with h | h
      · rw [h, hh] at hp; cases hp
      · exact ih h
    · rw [if_neg hh]; exact hx

/-- Trimming keeps every character that is not white space. -/
theorem mem_trim_of_not_whiteSpace (l : List Char) (c : Char) (hc : c ∈ l)
    (hw : isJsWhiteSpace c = false) : c ∈ (trim (String.mk l)).data := by
  unfold trim
  simp only [List.mem_reverse]
  apply mem_dropWhile_of_not _ _ _ _ hw
  rw [List.mem_reverse]
  exact mem_dropWhile_of_not _ _ _ hc hw

/-- A character outside ASCII other than U+212A and U+0130 is kept by
`lowerCaseOf`. -/
theorem lowerCaseOf_other (c : Char) (h1 : ¬ c.toNat < 128) (h2 : c.toNat ≠ 0x212A)
    (h3 : c.toNat ≠ 0x0130) : lowerCaseOf c = [c] := by
  unfold lowerCaseOf
  rw [if_neg h2, if_neg h3]
  have : c.toLower = c := by
    unfold Char.toLower
    simp only []
    rw [if_neg (fun h => h1 (by omega))]
  rw [this]

/-- The tests of the program on a lower-cased, trimmed string compare it with an
ASCII literal.  Their results are the same for every lower-casing `host` that
agrees with `lowerCaseOf` on ASCII, U+212A, U+0130 and white space and gives
every other character a form that is not empty and has neither an ASCII
character nor white space, as the lower-casing of ECMAScript does. -/
theorem toLowerCase_test_host_independent (host : Char → List Char)
    (hsame : ∀ c : Char,
      (c.toNat < 128 ∨ c.toNat = 0x212A ∨ c.toNat = 0x0130 ∨ isJsWhiteSpace c = true) →
        host c = lowerCaseOf c)
    (hother : ∀ c : Char,
      ¬ (c.toNat < 128 ∨ c.toNat = 0x212A ∨ c.toNat = 0x0130 ∨ isJsWhiteSpace c = true) →
        host c ≠ [] ∧ ∀ d ∈ host c, ¬ d.toNat < 128 ∧ isJsWhiteSpace d = false)
    (s literal : String) (hlit : ∀ d ∈ literal.data, d.toNat < 128) :
    trim (String.mk ((s.data.map host).flatten)) = literal ↔
      trim (toLowerCase s) = literal := by
  by_cases hex : ∃ c ∈ s.data,
      ¬ (c.toNat < 128 ∨ c.toNat = 0x212A ∨ c.toNat = 0x0130 ∨ isJsWhiteSpace c = true)
  · obtain ⟨c, hc, hspecial⟩ := hex
    have hparts := hspecial
    simp only [not_or] at hparts
    obtain ⟨h1, h2, h3, h4⟩ := hparts
    have hw : isJsWhiteSpace c = false := by simpa using h4
    constructor
    · intro heq
      exfalso
      obtain ⟨hne, hforms⟩ := hother c hspecial
      obtain ⟨d, hd⟩ := List.exists_mem_of_ne_nil _ hne
      have hin : d ∈ (s.data.map host).flatten :=
        List.mem_flatten.mpr ⟨host c, List.mem_map.mpr ⟨c, hc, rfl⟩, hd⟩
      have := mem_trim_of_not_whiteSpace _ d hin (hforms d hd).2
      rw [heq] at this
      exact (hforms d hd).1 (hlit d this)
    · intro heq
      exfalso
      have hin : c ∈ (s.data.map lowerCaseOf).flatten :=
        List.mem_flatten.mpr ⟨lowerCaseOf c, List.mem_map.mpr ⟨c, hc, rfl⟩,
          by rw [lowerCaseOf_other c h1 h2 h3]; exact List.mem_singleton.mpr rfl⟩
      have := mem_trim_of_not_whiteSpace _ c hin hw
      unfold toLowerCase at heq
      rw [heq] at this
      exact h1 (hlit c this)
  · have hall : ∀ c ∈ s.data, host c = lowerCaseOf c := by
      intro c hc
      apply hsame
      by_contra hn
      exact hex ⟨c, hc, hn⟩
    unfold toLowerCase
    rw [List.map_congr_left hall]

end Trident
